import Mathlib

/-!
# Othello: board model and alpha-beta search

A shallow embedding of `othello.cpp` and a verification development over it.

Conventions of the embedding.

* `int` coordinates and values are `Int`; `char` direction codes and the search depth
  are `Nat`.  The scores the search compares stay far inside the 32-bit range on every
  board the theorems about the search speak of (`AI.EvalBounded`), so no operation of
  the source on them overflows.
* `std::vector` is `List`; `push_back` appends at the end, `v[v.size() - 1]` is the
  last element, `resize(size() - 1)` drops the last element.
* An access `v[i]` outside the bounds of the vector is undefined behaviour in the
  source; here every function that performs such an access returns `Option` and yields
  `none` at that point.  The theorems prove that `none` is not reached.
* Pointers to heap pairs and heap `Move` records are modelled by their values; a `NULL`
  capture log is `none`.
* A `while` loop is a structurally recursive function over a fuel bound computed from
  the board dimensions; running out of fuel yields `none`, and the theorems prove that
  the bound is never exhausted.  A counting `for` loop runs over the list of its
  indices.
* The global variables of a namespace are a record that is passed in and returned;
  reference parameters are returned next to the result.
* The readings of `clock()` are a sequence `clock : Nat → Int`, `clock k` being the value
  the `k`-th call returns; the `double` quotient of the elapsed ticks by
  `CLOCKS_PER_SEC` and its comparison with `max_wait_time` are made in exact rational
  arithmetic.
* The characters of an input token are its bytes, each a `Nat` below 256; the value of
  a `char` is the byte read as a signed 8-bit number.

The file has three parts: the embedding of the source, the definitions used to state
its properties, and the theorems.
-/

namespace Othello

/-- The constant `infinity` of the source. -/
def infinity : Int := 2147483647

/-- The constant `minimax_base_depth` of the source. -/
def minimax_base_depth : Nat := 2

/-- The constant `minimax_max_depth` of the source. -/
def minimax_max_depth : Nat := 12

/-- The constant `max_wait_time` of the source, `0.3` seconds. -/
def max_wait_time : ℚ := 3 / 10

/-- The macro `CLOCKS_PER_SEC` of `<ctime>`: the value POSIX fixes for it. -/
def CLOCKS_PER_SEC : Int := 1000000

namespace Directions

/-- Enumerator `TOP` of the anonymous enum of `Directions`. -/
def TOP : Nat := 0
/-- Enumerator `RIGHT_TOP`. -/
def RIGHT_TOP : Nat := 1
/-- Enumerator `RIGHT`. -/
def RIGHT : Nat := 2
/-- Enumerator `RIGHT_BOTTOM`. -/
def RIGHT_BOTTOM : Nat := 3
/-- Enumerator `BOTTOM`. -/
def BOTTOM : Nat := 4
/-- Enumerator `LEFT_BOTTOM`. -/
def LEFT_BOTTOM : Nat := 5
/-- Enumerator `LEFT`. -/
def LEFT : Nat := 6
/-- Enumerator `LEFT_TOP`. -/
def LEFT_TOP : Nat := 7
/-- Enumerator `LAST`, the end sentinel. -/
def LAST : Nat := 8

/-- The function `Directions::begin`. -/
def begin_ : Nat := TOP

/-- The function `Directions::end`. -/
def end_ : Nat := LAST

/-- The function `Directions::increment`: the successor of a direction code, cyclic at `LAST`. -/
def increment (direction : Nat) : Nat :=
  if direction < LAST then direction + 1 else TOP

/-- The function `Directions::moveInDirection`: the neighbouring coordinate, no bounds check.  A code
outside the eight directions falls through the `switch` and leaves the coordinate as is. -/
def moveInDirection (direction : Nat) (x y : Int) : Int × Int :=
  match direction with
  | 0 => (x, y - 1)
  | 1 => (x + 1, y - 1)
  | 2 => (x + 1, y)
  | 3 => (x + 1, y + 1)
  | 4 => (x, y + 1)
  | 5 => (x - 1, y + 1)
  | 6 => (x - 1, y)
  | 7 => (x - 1, y - 1)
  | _ => (x, y)

/-- The directions visited by
`for (char direction = begin(); direction < end(); increment(direction))`,
in the order visited, starting from `direction`. -/
def visited : Nat → Nat → List Nat
  | 0, _ => []
  | fuel + 1, direction =>
    if direction < end_ then direction :: visited fuel (increment direction) else []

/-- The directions visited by the direction loop of the source, from `begin()`. -/
def all : List Nat := visited (LAST + 1) begin_

end Directions

/-- The cell states: the anonymous enum `{ST_EMPTY, ST_SECOND_PLAYER, ST_FIRST_PLAYER}`
of `Desk`, the only values the program ever stores in a cell. -/
inductive CellState where
  | ST_EMPTY
  | ST_SECOND_PLAYER
  | ST_FIRST_PLAYER
  deriving DecidableEq

open CellState

/-- A recorded list of coordinates (`std::vector<std::pair<int, int>*>`). -/
abbrev Cells := List (Int × Int)

/-- The board `Desk`: `desk_states` is a vector of columns, `desk_states[x][y]`. -/
structure Desk where
  desk_states : List (List CellState)
  deriving DecidableEq

namespace Desk

/-- The function `Desk::getWidth`. -/
def getWidth (d : Desk) : Int := d.desk_states.length

/-- The function `Desk::getHeight`: the size of column 0, or 0 when there is no column. -/
def getHeight (d : Desk) : Int :=
  match d.desk_states with
  | [] => 0
  | column :: _ => column.length

/-- The function `Desk::isOnDesk`. -/
def isOnDesk (d : Desk) (x y : Int) : Bool :=
  decide (0 ≤ x) && decide (x < d.getWidth) && decide (0 ≤ y) && decide (y < d.getHeight)

/-- The function `Desk::getState`: `(*desk_states[x])[y]`, `none` where the source indexes a vector
out of its bounds. -/
def getState (d : Desk) (x y : Int) : Option CellState :=
  if 0 ≤ x ∧ 0 ≤ y then
    match d.desk_states[x.toNat]? with
    | some column => column[y.toNat]?
    | none => none
  else none

/-- The function `Desk::setCell`: `(*desk_states[x])[y] = state`, `none` where the source indexes a
vector out of its bounds. -/
def setCell (d : Desk) (x y : Int) (state : CellState) : Option Desk :=
  if 0 ≤ x ∧ 0 ≤ y then
    match d.desk_states[x.toNat]? with
    | some column =>
      if y.toNat < column.length then
        some ⟨d.desk_states.set x.toNat (column.set y.toNat state)⟩
      else none
    | none => none
  else none

/-- The fuel given to the scanning `while` loops of `isReversible` and `reverse`: more
than the number of cells any straight line has on the board. -/
def scanFuel (d : Desk) : Nat := d.desk_states.length + d.getHeight.toNat + 1

/-- The loop of `Desk::isReversible`:
`while (isOnDesk(x, y) && state(x, y) is the opponent's) moveInDirection(direction, x, y);`
returning the coordinate at which the loop stops. -/
def skipOpponent (d : Desk) (direction : Nat) (is_first_player : Bool) :
    Nat → Int → Int → Option (Int × Int)
  | 0, _, _ => none
  | fuel + 1, x, y =>
    if d.isOnDesk x y then
      match d.getState x y with
      | none => none
      | some s =>
        if (if is_first_player then s = ST_SECOND_PLAYER else s = ST_FIRST_PLAYER) then
          skipOpponent d direction is_first_player fuel
            (Directions.moveInDirection direction x y).1
            (Directions.moveInDirection direction x y).2
        else some (x, y)
    else some (x, y)

/-- The function `Desk::isReversible`. -/
def isReversible (d : Desk) (x y : Int) (direction : Nat) (is_first_player : Bool) :
    Option Bool :=
  let x1 := (Directions.moveInDirection direction x y).1
  let y1 := (Directions.moveInDirection direction x y).2
  if !d.isOnDesk x1 y1 then some false
  else
    match d.getState x1 y1 with
    | none => none
    | some s =>
      if (if is_first_player then s ≠ ST_SECOND_PLAYER else s ≠ ST_FIRST_PLAYER) then
        some false
      else
        match skipOpponent d direction is_first_player d.scanFuel x1 y1 with
        | none => none
        | some (x2, y2) =>
          if !d.isOnDesk x2 y2 then some false
          else
            match d.getState x2 y2 with
            | none => none
            | some s2 =>
              some (if is_first_player then decide (s2 = ST_FIRST_PLAYER)
                    else decide (s2 = ST_SECOND_PLAYER))

/-- The loop of `Desk::reverse`: while the cell is on the desk and the opponent's, set
it to the mover's state, append it to `changed_cells` when that is not `NULL`, and
move on. -/
def reverseLoop (direction : Nat) (is_first_player : Bool) :
    Nat → Desk → Int → Int → Option Cells → Option (Desk × Option Cells)
  | 0, _, _, _, _ => none
  | fuel + 1, d, x, y, changed_cells =>
    if d.isOnDesk x y then
      match d.getState x y with
      | none => none
      | some s =>
        if (if is_first_player then s = ST_SECOND_PLAYER else s = ST_FIRST_PLAYER) then
          match d.setCell x y (if is_first_player then ST_FIRST_PLAYER else ST_SECOND_PLAYER) with
          | none => none
          | some d1 =>
            reverseLoop direction is_first_player fuel d1
              (Directions.moveInDirection direction x y).1
              (Directions.moveInDirection direction x y).2
              (changed_cells.map (fun cells => cells ++ [(x, y)]))
        else some (d, changed_cells)
    else some (d, changed_cells)

/-- The function `Desk::reverse`; `changed_cells = none` is the `NULL` log. -/
def reverse (d : Desk) (x y : Int) (direction : Nat) (is_first_player : Bool)
    (changed_cells : Option Cells) : Option (Desk × Option Cells) :=
  reverseLoop direction is_first_player d.scanFuel d
    (Directions.moveInDirection direction x y).1
    (Directions.moveInDirection direction x y).2 changed_cells

/-- The function `Desk::changeCells`: toggles each listed cell, in order. -/
def changeCells (d : Desk) : Cells → Option Desk
  | [] => some d
  | cell :: rest =>
    match d.getState cell.1 cell.2 with
    | none => none
    | some s =>
      match d.setCell cell.1 cell.2
          (if s = ST_FIRST_PLAYER then ST_SECOND_PLAYER else ST_FIRST_PLAYER) with
      | none => none
      | some d1 => changeCells d1 rest

/-- The direction loop of `Desk::canMakeMove(int, int, bool)` over the directions still
to visit: `true` at the first reversible direction. -/
def canMakeMoveLoop (d : Desk) (x y : Int) (is_first_player : Bool) : List Nat → Option Bool
  | [] => some false
  | direction :: rest =>
    match d.isReversible x y direction is_first_player with
    | none => none
    | some true => some true
    | some false => canMakeMoveLoop d x y is_first_player rest

/-- The function `Desk::canMakeMove(int x, int y, bool is_first_player)`. -/
def canMakeMove (d : Desk) (x y : Int) (is_first_player : Bool) : Option Bool :=
  if !d.isOnDesk x y then some false
  else
    match d.getState x y with
    | none => none
    | some s =>
      if s ≠ ST_EMPTY then some false
      else canMakeMoveLoop d x y is_first_player Directions.all

/-- The inner loop of `Desk::canMakeMove(bool)`: `j` runs over the listed rows. -/
def canMakeMoveColumn (d : Desk) (is_first_player : Bool) (i : Int) : List Nat → Option Bool
  | [] => some false
  | j :: rest =>
    match d.canMakeMove i j is_first_player with
    | none => none
    | some true => some true
    | some false => canMakeMoveColumn d is_first_player i rest

/-- The outer loop of `Desk::canMakeMove(bool)`: `i` runs over the listed columns. -/
def canMakeMoveColumns (d : Desk) (is_first_player : Bool) : List Nat → Option Bool
  | [] => some false
  | i :: rest =>
    match canMakeMoveColumn d is_first_player i (List.range d.getHeight.toNat) with
    | none => none
    | some true => some true
    | some false => canMakeMoveColumns d is_first_player rest

/-- The function `Desk::canMakeMove(bool is_first_player)`: is there a legal placement anywhere. -/
def canMakeMoveAnywhere (d : Desk) (is_first_player : Bool) : Option Bool :=
  canMakeMoveColumns d is_first_player (List.range d.getWidth.toNat)

/-- The direction loop of `Desk::makeMove` over the directions still to visit. -/
def makeMoveLoop (x y : Int) (is_first_player : Bool) :
    List Nat → Desk → Option Cells → Option (Desk × Option Cells)
  | [], d, changed_cells => some (d, changed_cells)
  | direction :: rest, d, changed_cells =>
    match d.isReversible x y direction is_first_player with
    | none => none
    | some true =>
      match d.reverse x y direction is_first_player changed_cells with
      | none => none
      | some (d1, cells1) => makeMoveLoop x y is_first_player rest d1 cells1
    | some false => makeMoveLoop x y is_first_player rest d changed_cells

/-- The function `Desk::makeMove`: the returned flag, the board afterwards and the log afterwards. -/
def makeMove (d : Desk) (x y : Int) (is_first_player : Bool) (changed_cells : Option Cells) :
    Option (Bool × Desk × Option Cells) :=
  match d.canMakeMove x y is_first_player with
  | none => none
  | some false => some (false, d, changed_cells)
  | some true =>
    match d.setCell x y (if is_first_player then ST_FIRST_PLAYER else ST_SECOND_PLAYER) with
    | none => none
    | some d1 =>
      match makeMoveLoop x y is_first_player Directions.all d1 changed_cells with
      | none => none
      | some (d2, cells2) => some (true, d2, cells2)

/-- The inner loop of `Desk::numberOfTokens`. -/
def numberOfTokensColumn (d : Desk) (first_player : Bool) (i : Int) :
    List Nat → Int → Option Int
  | [], result => some result
  | j :: rest, result =>
    match d.getState i j with
    | none => none
    | some s =>
      numberOfTokensColumn d first_player i rest
        (if (first_player && decide (s = ST_FIRST_PLAYER)) ||
            (!first_player && decide (s = ST_SECOND_PLAYER)) then result + 1 else result)

/-- The outer loop of `Desk::numberOfTokens`. -/
def numberOfTokensColumns (d : Desk) (first_player : Bool) : List Nat → Int → Option Int
  | [], result => some result
  | i :: rest, result =>
    match numberOfTokensColumn d first_player i (List.range d.getHeight.toNat) result with
    | none => none
    | some result1 => numberOfTokensColumns d first_player rest result1

/-- The function `Desk::numberOfTokens`. -/
def numberOfTokens (d : Desk) (first_player : Bool) : Option Int :=
  numberOfTokensColumns d first_player (List.range d.getWidth.toNat) 0

/-- The inner loop of `Desk::newDesk(int, int)`: a column of `height` empty cells
(none when `height` is not positive). -/
def emptyColumn (height : Int) : List CellState := List.replicate height.toNat ST_EMPTY

/-- The plain assignment `(*desk_states[x])[y] = state` written inline in `newDesk`. -/
def assign (d : Desk) (x y : Int) (state : CellState) : Option Desk := d.setCell x y state

/-- The function `Desk::newDesk(int width, int height)`: the board is emptied and refilled with
`width` columns of `height` empty cells, then the four centre cells are written.  The
integer division of the source truncates toward zero. -/
def newDesk (width height : Int) : Option Desk :=
  let d0 : Desk := ⟨List.replicate width.toNat (emptyColumn height)⟩
  match d0.assign ((width - 1).tdiv 2) ((height - 1).tdiv 2) ST_SECOND_PLAYER with
  | none => none
  | some d1 =>
    match d1.assign ((width - 1).tdiv 2 + 1) ((height - 1).tdiv 2 + 1) ST_SECOND_PLAYER with
    | none => none
    | some d2 =>
      match d2.assign ((width - 1).tdiv 2) ((height - 1).tdiv 2 + 1) ST_FIRST_PLAYER with
      | none => none
      | some d3 => d3.assign ((width - 1).tdiv 2 + 1) ((height - 1).tdiv 2) ST_FIRST_PLAYER

/-- The inner loop of `Desk::copyDesk`: `setCell(i, j, other_desk->getState(i, j))`. -/
def copyColumn (other_desk : Desk) (i : Int) : List Nat → Desk → Option Desk
  | [], d => some d
  | j :: rest, d =>
    match other_desk.getState i j with
    | none => none
    | some s =>
      match d.setCell i j s with
      | none => none
      | some d1 => copyColumn other_desk i rest d1

/-- The outer loop of `Desk::copyDesk`. -/
def copyColumns (other_desk : Desk) : List Nat → Desk → Option Desk
  | [], d => some d
  | i :: rest, d =>
    match copyColumn other_desk i (List.range d.getHeight.toNat) d with
    | none => none
    | some d1 => copyColumns other_desk rest d1

/-- The function `Desk::copyDesk`: the board that replaces `this`. -/
def copyDesk (other_desk : Desk) : Option Desk :=
  match newDesk other_desk.getWidth other_desk.getHeight with
  | none => none
  | some d => copyColumns other_desk (List.range d.getWidth.toNat) d

end Desk

namespace AI

/-- The record `OthelloGame::AI::Move` (field names as in the source). -/
structure Move where
  reversed_cells : Cells
  move_coordinate_x : Int
  move_coordiante_y : Int
  deriving DecidableEq

/-- The global variables of namespace `OthelloGame::AI`. -/
structure State where
  minimax_depth : Nat
  ai_calculation_desk : Desk
  virtual_moves_history : List Move
  deriving DecidableEq

/-- The function `AI::deleteLastVirtualMoveFromHistory`. -/
def deleteLastVirtualMoveFromHistory (s : State) : Option State :=
  match s.virtual_moves_history.getLast? with
  | none => none
  | some _ => some { s with virtual_moves_history := s.virtual_moves_history.dropLast }

/-- The function `AI::undoLastVirtualMove`. -/
def undoLastVirtualMove (s : State) : Option State :=
  match s.virtual_moves_history.getLast? with
  | none => none
  | some last_move =>
    match s.ai_calculation_desk.changeCells last_move.reversed_cells with
    | none => none
    | some d1 =>
      match d1.setCell last_move.move_coordinate_x last_move.move_coordiante_y ST_EMPTY with
      | none => none
      | some d2 => deleteLastVirtualMoveFromHistory { s with ai_calculation_desk := d2 }

/-- The function `AI::makeVirtualMove`: a fresh `Move` is pushed, its coordinates are set and
`makeMove` records the captured cells in its `reversed_cells`; the flag returned by
`makeMove` is ignored. -/
def makeVirtualMove (s : State) (x y : Int) (first_player_turn : Bool) : Option State :=
  match s.ai_calculation_desk.makeMove x y first_player_turn (some []) with
  | none => none
  | some (_, d1, cells) =>
    some { s with
      ai_calculation_desk := d1
      virtual_moves_history :=
        s.virtual_moves_history ++
          [{ reversed_cells := cells.getD [], move_coordinate_x := x, move_coordiante_y := y }] }

/-- The corner test of `AI::evaluatePosition`. -/
def isCorner (d : Desk) (i j : Int) : Bool :=
  (decide (i = 0) || decide (i = d.getWidth - 1)) &&
    (decide (j = 0) || decide (j = d.getHeight - 1))

/-- The body of the loops of `AI::evaluatePosition` for one cell state. -/
def evaluateCell (d : Desk) (i j : Int) (s : CellState) (result : Int) : Int :=
  let result1 :=
    if s = ST_FIRST_PLAYER then (if isCorner d i j then result + 10 else result) + 1
    else result
  if s = ST_SECOND_PLAYER then (if isCorner d i j then result1 - 10 else result1) - 1
  else result1

/-- The inner loop of `AI::evaluatePosition`. -/
def evaluateColumn (d : Desk) (i : Int) : List Nat → Int → Option Int
  | [], result => some result
  | j :: rest, result =>
    match d.getState i j with
    | none => none
    | some s => evaluateColumn d i rest (evaluateCell d i j s result)

/-- The outer loop of `AI::evaluatePosition`. -/
def evaluateColumns (d : Desk) : List Nat → Int → Option Int
  | [], result => some result
  | i :: rest, result =>
    match evaluateColumn d i (List.range d.getHeight.toNat) result with
    | none => none
    | some result1 => evaluateColumns d rest result1

/-- The function `AI::evaluatePosition`, on the working board of the state. -/
def evaluatePosition (s : State) : Option Int :=
  evaluateColumns s.ai_calculation_desk (List.range s.ai_calculation_desk.getWidth.toNat) 0

/-- The local variables `alpha`, `beta`, `current_extreme_value`, `current_extreme_x`,
`current_extreme_y` and `alpha_beta_interruption` of `AI::miniMax`. -/
structure Locals where
  alpha : Int
  beta : Int
  current_extreme_value : Int
  current_extreme_x : Int
  current_extreme_y : Int
  alpha_beta_interruption : Bool
  deriving DecidableEq

/-- Everything the candidate loops of `AI::miniMax` read and update: the global state,
the reference parameters `chosen_x`, `chosen_y` and the local variables. -/
structure Scan where
  ai : State
  chosen : Int × Int
  locals : Locals
  deriving DecidableEq

/-- What a node of the search does below itself, as a function of the state, the
reference parameters and the window: the value, the state afterwards and the reference
parameters afterwards. -/
abbrev Descend := State → Int × Int → Int → Int → Option (Int × State × (Int × Int))

/-- The update of the running extreme in `AI::miniMax` after a candidate has been
evaluated.  With `cutoff` the `alpha > beta` test of the source is made; without it
that test is left out. -/
def improve (cutoff : Bool) (first_player_turn : Bool) (i j : Int)
    (current_turn_evaluation : Int) (v : Locals) : Locals :=
  if (decide (v.current_extreme_value < current_turn_evaluation) && first_player_turn) ||
      (decide (v.current_extreme_value > current_turn_evaluation) && !first_player_turn) then
    { current_extreme_x := i
      current_extreme_y := j
      current_extreme_value := current_turn_evaluation
      alpha := if first_player_turn then max current_turn_evaluation v.alpha else v.alpha
      beta := if first_player_turn then v.beta else min current_turn_evaluation v.beta
      alpha_beta_interruption :=
        if cutoff &&
            decide ((if first_player_turn then max current_turn_evaluation v.alpha else v.alpha) >
              (if first_player_turn then v.beta else min current_turn_evaluation v.beta))
        then true else v.alpha_beta_interruption }
  else v

/-- The body of the candidate loops of `AI::miniMax` for the cell `(i, j)`. -/
def candidate (cutoff : Bool) (descend : Descend) (first_player_turn : Bool) (i j : Int)
    (v : Scan) : Option Scan :=
  match v.ai.ai_calculation_desk.canMakeMove i j first_player_turn with
  | none => none
  | some false => some v
  | some true =>
    match makeVirtualMove v.ai i j first_player_turn with
    | none => none
    | some ai1 =>
      match descend ai1 v.chosen v.locals.alpha v.locals.beta with
      | none => none
      | some (current_turn_evaluation, ai2, chosen2) =>
        match undoLastVirtualMove ai2 with
        | none => none
        | some ai3 =>
          some { ai := ai3, chosen := chosen2
                 locals := improve cutoff first_player_turn i j current_turn_evaluation v.locals }

/-- The inner candidate loop of `AI::miniMax`:
`for (j = 0; j < getHeight() && !alpha_beta_interruption; ++j)` over the rows left. -/
def candidateColumn (cutoff : Bool) (descend : Descend) (first_player_turn : Bool) (i : Int) :
    List Nat → Scan → Option Scan
  | [], v => some v
  | j :: rest, v =>
    if v.locals.alpha_beta_interruption then some v
    else
      match candidate cutoff descend first_player_turn i j v with
      | none => none
      | some v1 => candidateColumn cutoff descend first_player_turn i rest v1

/-- The outer candidate loop of `AI::miniMax`:
`for (i = 0; i < getWidth() && !alpha_beta_interruption; ++i)` over the columns left. -/
def candidateColumns (cutoff : Bool) (descend : Descend) (first_player_turn : Bool) :
    List Nat → Scan → Option Scan
  | [], v => some v
  | i :: rest, v =>
    if v.locals.alpha_beta_interruption then some v
    else
      match candidateColumn cutoff descend first_player_turn i
          (List.range v.ai.ai_calculation_desk.getHeight.toNat) v with
      | none => none
      | some v1 => candidateColumns cutoff descend first_player_turn rest v1

/-- The local variables of `AI::miniMax` before its loops. -/
def initialLocals (first_player_turn : Bool) (alpha beta : Int) : Locals :=
  { alpha := alpha, beta := beta
    current_extreme_value := if first_player_turn then -infinity else infinity
    current_extreme_x := -1
    current_extreme_y := -1
    alpha_beta_interruption := false }

/-- One call of `AI::miniMax` given what it does below itself (`descend` stands for
`current_depth > 0 ? miniMax(chosen_x, chosen_y, current_depth - 1, !first_player_turn,
alpha, beta) : evaluatePosition()`, which the source writes both after a virtual move
and in the branch taken when no candidate improved the extreme). -/
def searchNode (cutoff : Bool) (descend : Descend) (current_depth : Nat) (s : State)
    (chosen : Int × Int) (first_player_turn : Bool) (alpha beta : Int) :
    Option (Int × State × (Int × Int)) :=
  match candidateColumns cutoff descend first_player_turn
      (List.range s.ai_calculation_desk.getWidth.toNat)
      { ai := s, chosen := chosen, locals := initialLocals first_player_turn alpha beta } with
  | none => none
  | some v =>
    match (if v.locals.current_extreme_x = -1 then
             descend v.ai v.chosen v.locals.alpha v.locals.beta
           else some (v.locals.current_extreme_value, v.ai, v.chosen)) with
    | none => none
    | some (value, s1, chosen1) =>
      some (value, s1,
        if current_depth = s1.minimax_depth then
          (v.locals.current_extreme_x, v.locals.current_extreme_y)
        else chosen1)

/-- The search of `AI::miniMax`, with the `alpha > beta` cut-off made (`cutoff = true`,
the source) or left out (`cutoff = false`, the exhaustive search). -/
def miniMaxWith (cutoff : Bool) :
    Nat → State → Int × Int → Bool → Int → Int → Option (Int × State × (Int × Int))
  | 0, s, chosen, first_player_turn, alpha, beta =>
    searchNode cutoff
      (fun s1 chosen1 _ _ => (evaluatePosition s1).map (fun e => (e, s1, chosen1)))
      0 s chosen first_player_turn alpha beta
  | current_depth + 1, s, chosen, first_player_turn, alpha, beta =>
    searchNode cutoff
      (fun s1 chosen1 alpha1 beta1 =>
        miniMaxWith cutoff current_depth s1 chosen1 (!first_player_turn) alpha1 beta1)
      (current_depth + 1) s chosen first_player_turn alpha beta

/-- The function `AI::miniMax`: the returned value, the global state afterwards and the reference
parameters `(chosen_x, chosen_y)` afterwards. -/
def miniMax (current_depth : Nat) (s : State) (chosen : Int × Int) (first_player_turn : Bool)
    (alpha beta : Int) : Option (Int × State × (Int × Int)) :=
  miniMaxWith true current_depth s chosen first_player_turn alpha beta

/-- The exhaustive minimax of the same depth: the recursion of `AI::miniMax` (same scan
order, same strict-improvement update, same pass handling) without the `alpha > beta`
cut-off. -/
def exhaustiveMiniMax (current_depth : Nat) (s : State) (chosen : Int × Int)
    (first_player_turn : Bool) (alpha beta : Int) : Option (Int × State × (Int × Int)) :=
  miniMaxWith false current_depth s chosen first_player_turn alpha beta

/-- The elapsed-time test of the `while` loop of `AI::chooseMove`,
`(clock() - execution_time + 0.0) / CLOCKS_PER_SEC < max_wait_time`, for the reading
`now` of `clock()`. -/
def within_budget (execution_time now : Int) : Bool :=
  decide ((((now - execution_time : Int) : ℚ) + 0) / (CLOCKS_PER_SEC : ℚ) < max_wait_time)

/-- The `while` loop of `AI::chooseMove`.  `clock k` is what the `k`-th call of
`clock()` returns; `k` counts the calls made so far, so the next test reads `clock k`. -/
def deepen (clock : Nat → Int) (execution_time : Int) (first_player_turn : Bool) :
    Nat → Nat → State → Int × Int → Option (State × (Int × Int))
  | 0, _, _, _ => none
  | fuel + 1, k, s, chosen =>
    if within_budget execution_time (clock k) &&
        decide (s.minimax_depth < minimax_max_depth) then
      match miniMax (s.minimax_depth + 1) { s with minimax_depth := s.minimax_depth + 1 }
          chosen first_player_turn (-infinity) infinity with
      | none => none
      | some (_, s1, chosen1) =>
        deepen clock execution_time first_player_turn fuel (k + 1) s1 chosen1
    else some (s, chosen)

/-- The function `AI::chooseMove`: the state afterwards and `(chosen_move_x, chosen_move_y)`.  The call
of `clock()` that initialises `execution_time` is call 0. -/
def chooseMove (clock : Nat → Int) (s : State) (chosen : Int × Int) (desk : Desk)
    (first_player_turn : Bool) : Option (State × (Int × Int)) :=
  match Desk.copyDesk desk with
  | none => none
  | some d =>
    match miniMax minimax_base_depth
        { s with minimax_depth := minimax_base_depth, ai_calculation_desk := d }
        chosen first_player_turn (-infinity) infinity with
    | none => none
    | some (_, s1, chosen1) =>
      deepen clock (clock 0) first_player_turn (minimax_max_depth + 1) 1 s1 chosen1

end AI


/-- The state a player's own tokens have: `is_first_player ? ST_FIRST_PLAYER : ST_SECOND_PLAYER`. -/
def playerState (is_first_player : Bool) : CellState :=
  if is_first_player then ST_FIRST_PLAYER else ST_SECOND_PLAYER

/-- The state the tokens of a player's opponent have. -/
def opponentState (is_first_player : Bool) : CellState :=
  if is_first_player then ST_SECOND_PLAYER else ST_FIRST_PLAYER

namespace Directions

/-- The cell at distance `k` from `(x, y)` in a direction: `moveInDirection` applied
`k` times. -/
def cellAt (direction : Nat) : Nat → Int → Int → Int × Int
  | 0, x, y => (x, y)
  | k + 1, x, y =>
    moveInDirection direction (cellAt direction k x y).1 (cellAt direction k x y).2

/-- The change of `x` made by one step in a direction. -/
def deltaX (direction : Nat) : Int := (moveInDirection direction 0 0).1

/-- The change of `y` made by one step in a direction. -/
def deltaY (direction : Nat) : Int := (moveInDirection direction 0 0).2

end Directions

namespace Desk

/-- A board is rectangular when every column has the height of column 0. -/
def Rectangular (d : Desk) : Prop :=
  ∀ column ∈ d.desk_states, (column.length : Int) = d.getHeight

instance (d : Desk) : Decidable d.Rectangular := by
  unfold Rectangular; infer_instance

/-- The capture condition of a direction with an opponent run of length `k`: the `k`
cells at distances `1..k` from `(x, y)` are on the grid and the opponent's, and the cell
at distance `k + 1` is on the grid and the player's own. -/
def Captures (d : Desk) (x y : Int) (direction : Nat) (is_first_player : Bool) (k : Nat) :
    Prop :=
  1 ≤ k ∧
  (∀ i : Nat, 1 ≤ i → i ≤ k →
    d.isOnDesk (Directions.cellAt direction i x y).1 (Directions.cellAt direction i x y).2 = true ∧
    d.getState (Directions.cellAt direction i x y).1 (Directions.cellAt direction i x y).2 =
      some (opponentState is_first_player)) ∧
  d.isOnDesk (Directions.cellAt direction (k + 1) x y).1
    (Directions.cellAt direction (k + 1) x y).2 = true ∧
  d.getState (Directions.cellAt direction (k + 1) x y).1
    (Directions.cellAt direction (k + 1) x y).2 = some (playerState is_first_player)

end Desk

namespace Directions

/-- The cells at distances `1..k` from `(x, y)` in a direction, by increasing distance. -/
def runCells (direction : Nat) (k : Nat) (x y : Int) : Cells :=
  (List.range k).map (fun i => cellAt direction (i + 1) x y)

end Directions

namespace Desk

/-- The capture log of a placement over a list of directions: the concatenation, in the
order of the list, of the opponent runs of the directions that capture. -/
inductive CaptureLog (d : Desk) (x y : Int) (p : Bool) : List Nat → Cells → Prop
  | nil : CaptureLog d x y p [] []
  | capture (direction k : Nat) (rest : List Nat) (cells : Cells) :
      d.Captures x y direction p k → CaptureLog d x y p rest cells →
      CaptureLog d x y p (direction :: rest) (Directions.runCells direction k x y ++ cells)
  | skip (direction : Nat) (rest : List Nat) (cells : Cells) :
      (¬ ∃ k : Nat, d.Captures x y direction p k) → CaptureLog d x y p rest cells →
      CaptureLog d x y p (direction :: rest) cells

end Desk

namespace Desk

/-- The coordinates of the grid in the scan order of the source: all `x` from `0` to
`W - 1` outer, all `y` from `0` to `H - 1` inner. -/
def cells (d : Desk) : Cells :=
  (List.range d.getWidth.toNat).flatMap
    (fun (i : Nat) => (List.range d.getHeight.toNat).map (fun (j : Nat) => ((i : Int), (j : Int))))

/-- The number of listed cells that satisfy `q` and hold `state`. -/
def countOver (d : Desk) (q : Int → Int → Bool) (state : CellState) (cs : Cells) : Int :=
  ((cs.filter (fun c => q c.1 c.2 && decide (d.getState c.1 c.2 = some state))).length : Int)

/-- The number of cells of the grid that satisfy `q` and hold `state`. -/
def countIn (d : Desk) (q : Int → Int → Bool) (state : CellState) : Int :=
  d.countOver q state d.cells

/-- The score of a list of cells as the specification words it: the number of
first-player cells minus the number of second-player cells, plus ten times the
difference of the numbers of corner cells the two players hold. -/
def scoreOver (d : Desk) (cs : Cells) : Int :=
  (d.countOver (fun _ _ => true) ST_FIRST_PLAYER cs -
      d.countOver (fun _ _ => true) ST_SECOND_PLAYER cs) +
    10 * (d.countOver (AI.isCorner d) ST_FIRST_PLAYER cs -
      d.countOver (AI.isCorner d) ST_SECOND_PLAYER cs)

/-- The score of a board: the score of all the cells of its grid. -/
def score (d : Desk) : Int := d.scoreOver d.cells

/-- The board after `makeMove(x, y, p)`. -/
def after (d : Desk) (x y : Int) (p : Bool) : Desk :=
  match d.makeMove x y p none with
  | some (_, d1, _) => d1
  | none => d

end Desk

namespace AI

/-- The board `d1` is rectangular and has the dimensions of `d`. -/
def SameShape (d d1 : Desk) : Prop :=
  d1.Rectangular ∧ d1.getWidth = d.getWidth ∧ d1.getHeight = d.getHeight

/-- Every rectangular board of the dimensions of `d` has a score strictly between
`-infinity` and `infinity`. -/
def EvalBounded (d : Desk) : Prop :=
  ∀ d1 : Desk, SameShape d d1 → -infinity < d1.score ∧ d1.score < infinity

/-- One candidate of a node, as a function of the board alone: `below` gives the value
found below the node on a board with a window. -/
def scanStep (cutoff : Bool) (below : Desk → Int → Int → Int) (p : Bool) (d : Desk)
    (v : Locals) (c : Int × Int) : Locals :=
  if v.alpha_beta_interruption then v
  else if d.canMakeMove c.1 c.2 p = some true then
    improve cutoff p c.1 c.2 (below (d.after c.1 c.2 p) v.alpha v.beta) v
  else v

/-- The local variables of a node after its candidate loops, as a function of the board. -/
def nodeLocals (cutoff : Bool) (below : Desk → Int → Int → Int) (p : Bool) (d : Desk)
    (alpha beta : Int) : Locals :=
  d.cells.foldl (scanStep cutoff below p d) (initialLocals p alpha beta)

/-- The value of a node, as a function of the board. -/
def nodeValue (cutoff : Bool) (below : Desk → Int → Int → Int) (p : Bool) (d : Desk)
    (alpha beta : Int) : Int :=
  if (nodeLocals cutoff below p d alpha beta).current_extreme_x = -1 then
    below d (nodeLocals cutoff below p d alpha beta).alpha
      (nodeLocals cutoff below p d alpha beta).beta
  else (nodeLocals cutoff below p d alpha beta).current_extreme_value

/-- The value the search of a given depth returns, as a function of the board. -/
def searchValue (cutoff : Bool) : Nat → Desk → Bool → Int → Int → Int
  | 0, d, p, alpha, beta => nodeValue cutoff (fun d1 _ _ => d1.score) p d alpha beta
  | n + 1, d, p, alpha, beta =>
    nodeValue cutoff (fun d1 a b => searchValue cutoff n d1 (!p) a b) p d alpha beta

/-- What a node of a given depth finds below itself, as a function of the board: the
score at depth 0, the search one ply down with the other player otherwise. -/
def below (cutoff : Bool) (depth : Nat) (p : Bool) : Desk → Int → Int → Int :=
  match depth with
  | 0 => fun d1 _ _ => d1.score
  | n + 1 => fun d1 a b => searchValue cutoff n d1 (!p) a b

/-- The coordinate a node of a given depth ends its loops with, as a function of the
board. -/
def searchMove (cutoff : Bool) (depth : Nat) (d : Desk) (p : Bool) (alpha beta : Int) :
    Int × Int :=
  ((nodeLocals cutoff (below cutoff depth p) p d alpha beta).current_extreme_x,
   (nodeLocals cutoff (below cutoff depth p) p d alpha beta).current_extreme_y)

/-- The exhaustive-minimax value of the subtree below a placement `(x, y)` at a root of
depth `depth`: what the exhaustive search returns on the board after the move (the score
of that board at depth 0). -/
def subtreeValue (depth : Nat) (s : State) (p : Bool) (x y : Int) : Option Int :=
  match depth with
  | 0 => evaluatePosition { s with ai_calculation_desk := s.ai_calculation_desk.after x y p }
  | n + 1 =>
    (exhaustiveMiniMax n { s with ai_calculation_desk := s.ai_calculation_desk.after x y p }
      (-1, -1) (!p) (-infinity) infinity).map (fun r => r.1)

end AI
namespace AI

/-- How the value `r` a pruned search returns for the window `(alpha, beta)` relates to
the exhaustive value `v`: it is exact inside the window and a bound on the side of the
window that `v` lies on otherwise. -/
def FailSoft (alpha beta v r : Int) : Prop :=
  (alpha < v → v < beta → r = v) ∧ (v ≤ alpha → v ≤ r ∧ r ≤ alpha) ∧
    (beta ≤ v → beta ≤ r ∧ r ≤ v)

/-- The relation kept between the locals `vA` of a pruned node entered with the window
`(alpha, beta)` and the locals `vE` of the exhaustive node on the same board, after both
have scanned the same cells. -/
def PrunedInv (p : Bool) (alpha beta : Int) (vA vE : Locals) : Prop :=
  vE.alpha_beta_interruption = false ∧
  (vA.current_extreme_x = -1 ↔ vE.current_extreme_x = -1) ∧
  (vA.current_extreme_x = -1 →
    vA.alpha = alpha ∧ vA.beta = beta ∧ vA.alpha_beta_interruption = false ∧
      vA.current_extreme_value = if p then -infinity else infinity) ∧
  (vE.current_extreme_x = -1 →
    vE.current_extreme_value = if p then -infinity else infinity) ∧
  (if p then
    (if vA.alpha_beta_interruption then
      beta < vA.current_extreme_value ∧ vA.current_extreme_value ≤ vE.current_extreme_value
    else
      vA.alpha = max alpha vA.current_extreme_value ∧ vA.beta = beta ∧
        vA.current_extreme_value ≤ beta ∧
        FailSoft alpha beta vE.current_extreme_value vA.current_extreme_value)
  else
    (if vA.alpha_beta_interruption then
      vA.current_extreme_value < alpha ∧ vE.current_extreme_value ≤ vA.current_extreme_value
    else
      vA.beta = min beta vA.current_extreme_value ∧ vA.alpha = alpha ∧
        alpha ≤ vA.current_extreme_value ∧
        FailSoft alpha beta vE.current_extreme_value vA.current_extreme_value))

/-- The relation kept between the locals of the pruned root, entered with the window
`(-infinity, infinity)`, and the locals of the exhaustive root. -/
def RootInv (p : Bool) (vA vE : Locals) : Prop :=
  vA.alpha_beta_interruption = false ∧ vE.alpha_beta_interruption = false ∧
  vA.current_extreme_value = vE.current_extreme_value ∧
  vA.current_extreme_x = vE.current_extreme_x ∧
  vA.current_extreme_y = vE.current_extreme_y ∧
  (vA.current_extreme_x = -1 →
    vA.current_extreme_value = if p then -infinity else infinity) ∧
  (if p then
    vA.alpha = vA.current_extreme_value ∧ vA.beta = infinity ∧
      -infinity ≤ vA.current_extreme_value ∧ vA.current_extreme_value < infinity
  else
    vA.beta = vA.current_extreme_value ∧ vA.alpha = -infinity ∧
      -infinity < vA.current_extreme_value ∧ vA.current_extreme_value ≤ infinity)

end AI
namespace AI

/-- The cell `c` is the first best candidate of the listed cells: it is listed and legal,
its value is `best`, no legal listed cell has a better value (larger for the first
player, smaller for the second), and it is lexicographically smallest (lowest `x`, then
lowest `y`) among the legal listed cells of value `best`. -/
def FirstBest (p : Bool) (d : Desk) (value : Int × Int → Int) (cs : Cells) (c : Int × Int)
    (best : Int) : Prop :=
  c ∈ cs ∧ d.canMakeMove c.1 c.2 p = some true ∧ value c = best ∧
  ∀ c1 ∈ cs, d.canMakeMove c1.1 c1.2 p = some true →
    (if p then value c1 ≤ best else best ≤ value c1) ∧
    (value c1 = best → c.1 < c1.1 ∨ (c.1 = c1.1 ∧ c.2 ≤ c1.2))

end AI

namespace Examples

/-- A 3 x 1 board: an empty cell, a second-player token, a first-player token. -/
def line : Desk := ⟨[[ST_EMPTY], [ST_SECOND_PLAYER], [ST_FIRST_PLAYER]]⟩

/-- A 3 x 2 board whose row 0 is an empty cell, a second-player token and a first-player
token, and whose row 1 is empty. -/
def strip : Desk :=
  ⟨[[ST_EMPTY, ST_EMPTY], [ST_SECOND_PLAYER, ST_EMPTY], [ST_FIRST_PLAYER, ST_EMPTY]]⟩

/-- A 3 x 3 board on which the first player has three legal placements, `(1, 2)`,
`(2, 0)` and `(2, 2)`, the last two of equal worth.  Column `x` is the `x`-th list. -/
def fork : Desk :=
  ⟨[[ST_FIRST_PLAYER, ST_SECOND_PLAYER, ST_FIRST_PLAYER],
    [ST_FIRST_PLAYER, ST_SECOND_PLAYER, ST_EMPTY],
    [ST_EMPTY, ST_EMPTY, ST_EMPTY]]⟩

/-- A 3 x 3 board on which the first player has three legal placements, `(0, 1)`,
`(2, 0)` and `(2, 2)`, and the search below the last one is cut off before the second
player's replies have all been tried.  Column `x` is the `x`-th list. -/
def hook : Desk :=
  ⟨[[ST_FIRST_PLAYER, ST_EMPTY, ST_SECOND_PLAYER],
    [ST_SECOND_PLAYER, ST_SECOND_PLAYER, ST_EMPTY],
    [ST_EMPTY, ST_FIRST_PLAYER, ST_EMPTY]]⟩

end Examples

namespace Desk

/-- The function `Desk::newDesk()`: `newDesk(8, 8)`. -/
def newDeskStandard : Option Desk := newDesk 8 8

/-- A sequence of placements `(x, y, p)` each of which is legal on the board the
placements before it have produced. -/
def Playable : Desk → List (Int × Int × Bool) → Prop
  | _, [] => True
  | d, m :: rest => d.canMakeMove m.1 m.2.1 m.2.2 = some true ∧
      Playable (d.after m.1 m.2.1 m.2.2) rest

end Desk

namespace ConsoleInterface

/-- The value of a `char` that holds the byte `b`: plain `char` is signed on the x86
targets, so the bytes above 127 are the negative values. -/
def charValue (b : Nat) : Int :=
  if b % 256 < 128 then ((b % 256 : Nat) : Int) else ((b % 256 : Nat) : Int) - 256

/-- The condition of the `while` loop of `ConsoleInterface::input` on a token given by
its bytes: the token is rejected and another one is read.  The tests are evaluated left to
right, so no character is read from a token whose size is not 2. -/
def rejected (input_line : List Nat) : Bool :=
  match input_line with
  | [c0, c1] =>
    decide (charValue c0 < charValue 'a'.toNat) ||
      decide (charValue c1 > charValue 'h'.toNat) ||
      decide (charValue c0 < charValue '1'.toNat) ||
      decide (charValue c1 > charValue '8'.toNat)
  | _ => true

/-- The function `ConsoleInterface::input` on the tokens that `std::cin` delivers, in
order: the pair `(x, y)` computed from the first token that is not rejected; `none` when
every token is rejected and no token is left. -/
def input : List (List Nat) → Option (Int × Int)
  | [] => none
  | input_line :: rest =>
    if rejected input_line then input rest
    else
      match input_line with
      | [c0, c1] =>
        some (charValue c0 - charValue 'a'.toNat, charValue c1 - charValue '1'.toNat)
      | _ => none

end ConsoleInterface


theorem opponent_test (p : Bool) (s : CellState) :
    (if p then s = ST_SECOND_PLAYER else s = ST_FIRST_PLAYER) ↔ s = opponentState p := by
  cases p <;> simp [opponentState]

theorem player_write (p : Bool) :
    (if p then ST_FIRST_PLAYER else ST_SECOND_PLAYER) = playerState p := by
  cases p <;> simp [playerState]

theorem playerState_ne_opponentState (p : Bool) : playerState p ≠ opponentState p := by
  cases p <;> simp [playerState, opponentState]

theorem playerState_ne_empty (p : Bool) : playerState p ≠ ST_EMPTY := by
  cases p <;> simp [playerState]

theorem opponentState_ne_empty (p : Bool) : opponentState p ≠ ST_EMPTY := by
  cases p <;> simp [opponentState]

theorem opponentState_not (p : Bool) : opponentState (!p) = playerState p := by
  cases p <;> simp [playerState, opponentState]

theorem playerState_not (p : Bool) : playerState (!p) = opponentState p := by
  cases p <;> simp [playerState, opponentState]

namespace Directions

theorem all_eq : all = [0, 1, 2, 3, 4, 5, 6, 7] := by decide

theorem mem_all (direction : Nat) : direction ∈ all ↔ direction < 8 := by
  rw [all_eq]
  constructor
  · intro h
    simp at h
    omega
  · intro h
    interval_cases direction <;> simp

theorem moveInDirection_eq (direction : Nat) (x y : Int) :
    moveInDirection direction x y = (x + deltaX direction, y + deltaY direction) := by
  unfold deltaX deltaY moveInDirection
  split <;> simp <;> omega

theorem cellAt_eq (direction : Nat) (k : Nat) (x y : Int) :
    cellAt direction k x y = (x + k * deltaX direction, y + k * deltaY direction) := by
  induction k with
  | zero => simp [cellAt]
  | succ k ih =>
    simp only [cellAt, ih, moveInDirection_eq]
    ext <;> simp <;> ring

theorem cellAt_succ (direction : Nat) (k : Nat) (x y : Int) :
    cellAt direction (k + 1) x y =
      cellAt direction k (moveInDirection direction x y).1 (moveInDirection direction x y).2 := by
  simp only [cellAt_eq, moveInDirection_eq]
  ext <;> simp <;> ring

theorem delta_cases (direction : Nat) (h : direction < 8) :
    (deltaX direction = -1 ∨ deltaX direction = 0 ∨ deltaX direction = 1) ∧
    (deltaY direction = -1 ∨ deltaY direction = 0 ∨ deltaY direction = 1) ∧
    (deltaX direction ≠ 0 ∨ deltaY direction ≠ 0) := by
  interval_cases direction <;> simp [deltaX, deltaY, moveInDirection]

theorem delta_injective (d1 d2 : Nat) (h1 : d1 < 8) (h2 : d2 < 8)
    (hx : deltaX d1 = deltaX d2) (hy : deltaY d1 = deltaY d2) : d1 = d2 := by
  interval_cases d1 <;> interval_cases d2 <;> simp [deltaX, deltaY, moveInDirection] at hx hy ⊢

end Directions

namespace Directions

theorem cellAt_inj (d1 d2 : Nat) (h1 : d1 < 8) (h2 : d2 < 8) (k1 k2 : Nat)
    (hk1 : 1 ≤ k1) (hk2 : 1 ≤ k2) (x y : Int)
    (h : cellAt d1 k1 x y = cellAt d2 k2 x y) : d1 = d2 ∧ k1 = k2 := by
  rw [cellAt_eq, cellAt_eq] at h
  have hx : (k1 : Int) * deltaX d1 = k2 * deltaX d2 := by
    have := congrArg Prod.fst h
    simpa using this
  have hy : (k1 : Int) * deltaY d1 = k2 * deltaY d2 := by
    have := congrArg Prod.snd h
    simpa using this
  obtain ⟨a1, b1, c1⟩ := delta_cases d1 h1
  obtain ⟨a2, b2, c2⟩ := delta_cases d2 h2
  have key : deltaX d1 = deltaX d2 ∧ deltaY d1 = deltaY d2 ∧ k1 = k2 := by
    rcases a1 with a1 | a1 | a1 <;> rcases b1 with b1 | b1 | b1 <;>
    rcases a2 with a2 | a2 | a2 <;> rcases b2 with b2 | b2 | b2 <;>
    simp only [a1, b1, a2, b2, mul_neg, mul_one, mul_zero] at hx hy <;> omega
  exact ⟨delta_injective d1 d2 h1 h2 key.1 key.2.1, key.2.2⟩

theorem cellAt_ne_origin (direction : Nat) (h : direction < 8) (k : Nat) (hk : 1 ≤ k)
    (x y : Int) : cellAt direction k x y ≠ (x, y) := by
  rw [cellAt_eq]
  intro hc
  have hx : (k : Int) * deltaX direction = 0 := by
    have := congrArg Prod.fst hc
    simpa using this
  have hy : (k : Int) * deltaY direction = 0 := by
    have := congrArg Prod.snd hc
    simpa using this
  obtain ⟨a1, b1, c1⟩ := delta_cases direction h
  rcases a1 with a1 | a1 | a1 <;> rcases b1 with b1 | b1 | b1 <;>
    simp only [a1, b1, mul_neg, mul_one, mul_zero] at hx hy <;> omega

end Directions

namespace Desk

theorem isOnDesk_iff (d : Desk) (x y : Int) :
    d.isOnDesk x y = true ↔ 0 ≤ x ∧ x < d.getWidth ∧ 0 ≤ y ∧ y < d.getHeight := by
  simp [isOnDesk, and_assoc]

theorem getState_eq_some_iff (d : Desk) (x y : Int) (s : CellState) :
    d.getState x y = some s ↔
      0 ≤ x ∧ 0 ≤ y ∧ ∃ column, d.desk_states[x.toNat]? = some column ∧
        column[y.toNat]? = some s := by
  unfold getState
  split
  · rename_i h
    cases hc : d.desk_states[x.toNat]? with
    | none => simp
    | some column => simp [h.1, h.2]
  · rename_i h
    constructor
    · intro h'; cases h'
    · rintro ⟨h1, h2, -⟩; exact absurd ⟨h1, h2⟩ h

theorem column_length (d : Desk) (hr : d.Rectangular) (i : Nat) (column : List CellState)
    (h : d.desk_states[i]? = some column) : (column.length : Int) = d.getHeight := by
  apply hr
  rw [List.getElem?_eq_some_iff] at h
  obtain ⟨hi, rfl⟩ := h
  exact List.getElem_mem hi

theorem isOnDesk_of_getState (d : Desk) (hr : d.Rectangular) (x y : Int) (s : CellState)
    (h : d.getState x y = some s) : d.isOnDesk x y = true := by
  rw [getState_eq_some_iff] at h
  obtain ⟨hx, hy, column, hc, hs⟩ := h
  have hl := column_length d hr _ _ hc
  rw [List.getElem?_eq_some_iff] at hc hs
  obtain ⟨hi, -⟩ := hc
  obtain ⟨hj, -⟩ := hs
  rw [isOnDesk_iff]
  unfold getWidth
  omega

theorem getState_of_isOnDesk (d : Desk) (hr : d.Rectangular) (x y : Int)
    (h : d.isOnDesk x y = true) : ∃ s, d.getState x y = some s := by
  rw [isOnDesk_iff] at h
  obtain ⟨hx, hxw, hy, hyh⟩ := h
  unfold getWidth at hxw
  have hi : x.toNat < d.desk_states.length := by omega
  have hl := column_length d hr x.toNat (d.desk_states[x.toNat]) (List.getElem?_eq_getElem hi)
  have hj : y.toNat < (d.desk_states[x.toNat]).length := by omega
  refine ⟨(d.desk_states[x.toNat])[y.toNat], ?_⟩
  rw [getState_eq_some_iff]
  exact ⟨hx, hy, _, List.getElem?_eq_getElem hi, List.getElem?_eq_getElem hj⟩

theorem getState_eq_none_of_not_isOnDesk (d : Desk) (hr : d.Rectangular) (x y : Int)
    (h : d.isOnDesk x y = false) : d.getState x y = none := by
  cases hs : d.getState x y with
  | none => rfl
  | some s => rw [isOnDesk_of_getState d hr x y s hs] at h; cases h

theorem setCell_eq_some_iff (d d1 : Desk) (x y : Int) (state : CellState) :
    d.setCell x y state = some d1 ↔
      0 ≤ x ∧ 0 ≤ y ∧ ∃ column, d.desk_states[x.toNat]? = some column ∧
        y.toNat < column.length ∧
        d1 = ⟨d.desk_states.set x.toNat (column.set y.toNat state)⟩ := by
  unfold setCell
  split
  · rename_i h
    cases hc : d.desk_states[x.toNat]? with
    | none => simp
    | some column =>
      simp only [h.1, h.2, true_and, Option.some.injEq, exists_eq_left']
      split
      · rename_i hl
        simp [hl, eq_comm]
      · rename_i hl
        simp [hl]
  · rename_i h
    constructor
    · intro h'; cases h'
    · rintro ⟨h1, h2, -⟩; exact absurd ⟨h1, h2⟩ h

theorem setCell_of_getState (d : Desk) (x y : Int) (s state : CellState)
    (h : d.getState x y = some s) : ∃ d1, d.setCell x y state = some d1 := by
  rw [getState_eq_some_iff] at h
  obtain ⟨hx, hy, column, hc, hs⟩ := h
  refine ⟨⟨d.desk_states.set x.toNat (column.set y.toNat state)⟩, ?_⟩
  rw [setCell_eq_some_iff]
  refine ⟨hx, hy, column, hc, ?_, rfl⟩
  rw [List.getElem?_eq_some_iff] at hs
  exact hs.1

theorem getWidth_setCell (d d1 : Desk) (x y : Int) (state : CellState)
    (h : d.setCell x y state = some d1) : d1.getWidth = d.getWidth := by
  rw [setCell_eq_some_iff] at h
  obtain ⟨-, -, column, -, -, rfl⟩ := h
  simp [getWidth]

theorem getState_setCell (d d1 : Desk) (x y : Int) (state : CellState)
    (h : d.setCell x y state = some d1) (a b : Int) :
    d1.getState a b = if a = x ∧ b = y then some state else d.getState a b := by
  rw [setCell_eq_some_iff] at h
  obtain ⟨hx, hy, column, hc, hl, rfl⟩ := h
  have hi : x.toNat < d.desk_states.length := by
    rw [List.getElem?_eq_some_iff] at hc
    exact hc.1
  unfold getState
  by_cases hab : 0 ≤ a ∧ 0 ≤ b
  · simp only [hab, and_self, if_true]
    by_cases hax : a = x
    · subst hax
      simp only [true_and]
      rw [List.getElem?_set_self hi]
      simp only [hc]
      by_cases hby : b = y
      · subst hby
        simp [List.getElem?_set_self hl]
      · have : y.toNat ≠ b.toNat := by omega
        simp [hby, List.getElem?_set_ne this]
    · have : x.toNat ≠ a.toNat := by omega
      simp [hax, List.getElem?_set_ne this]
  · have : ¬ (a = x ∧ b = y) := by
      rintro ⟨rfl, rfl⟩
      exact hab ⟨hx, hy⟩
    simp [hab, this]

theorem getHeight_setCell (d d1 : Desk) (x y : Int) (state : CellState)
    (h : d.setCell x y state = some d1) : d1.getHeight = d.getHeight := by
  rw [setCell_eq_some_iff] at h
  obtain ⟨hx, hy, column, hc, hl, rfl⟩ := h
  unfold getHeight
  cases hd : d.desk_states with
  | nil => simp
  | cons c0 rest =>
    rw [hd] at hc
    cases hn : x.toNat with
    | zero =>
      rw [hn] at hc
      simp at hc
      subst hc
      simp
    | succ n => simp

theorem rectangular_setCell (d d1 : Desk) (hr : d.Rectangular) (x y : Int)
    (state : CellState) (h : d.setCell x y state = some d1) : d1.Rectangular := by
  have hh := getHeight_setCell d d1 x y state h
  rw [setCell_eq_some_iff] at h
  obtain ⟨hx, hy, column, hc, hl, rfl⟩ := h
  intro c hcm
  rw [hh]
  rcases List.mem_or_eq_of_mem_set hcm with h1 | h1
  · exact hr c h1
  · subst h1
    simp only [List.length_set]
    exact column_length d hr _ _ hc

theorem isOnDesk_setCell (d d1 : Desk) (x y : Int) (state : CellState)
    (h : d.setCell x y state = some d1) (a b : Int) : d1.isOnDesk a b = d.isOnDesk a b := by
  unfold isOnDesk
  rw [getWidth_setCell d d1 x y state h, getHeight_setCell d d1 x y state h]

/-- Two boards with the same number of columns and the same cell contents are equal. -/
theorem ext_getState (d1 d2 : Desk) (hw : d1.getWidth = d2.getWidth)
    (h : ∀ x y : Int, d1.getState x y = d2.getState x y) : d1 = d2 := by
  cases d1 with
  | mk l1 =>
    cases d2 with
    | mk l2 =>
      simp only [getWidth, Nat.cast_inj] at hw
      congr 1
      apply List.ext_getElem?
      intro i
      cases h1 : l1[i]? with
      | none =>
        have : l2.length ≤ i := by
          rw [← hw]; exact List.getElem?_eq_none_iff.mp h1
        rw [List.getElem?_eq_none this]
      | some c1 =>
        have hi : i < l2.length := by
          rw [← hw]; exact (List.getElem?_eq_some_iff.mp h1).1
        have h2 : l2[i]? = some l2[i] := List.getElem?_eq_getElem hi
        rw [h2]
        congr 1
        apply List.ext_getElem?
        intro j
        have := h (i : Int) (j : Int)
        simp only [getState, Int.toNat_ofNat, h1, h2] at this
        simpa using this

end Desk

namespace Desk

/-- On a rectangular board a line that starts on the board has left it after
`width + height` steps. -/
theorem off_desk_far (d : Desk) (direction : Nat) (hd : direction < 8) (x y : Int)
    (h : d.isOnDesk x y = true) :
    d.isOnDesk (Directions.cellAt direction (d.desk_states.length + d.getHeight.toNat) x y).1
      (Directions.cellAt direction (d.desk_states.length + d.getHeight.toNat) x y).2 = false := by
  rw [Bool.eq_false_iff]
  intro hc
  rw [isOnDesk_iff] at h hc
  rw [Directions.cellAt_eq] at hc
  simp only [getWidth] at h hc
  obtain ⟨a1, b1, c1⟩ := Directions.delta_cases direction hd
  have hH : (d.getHeight.toNat : Int) = d.getHeight := by
    apply Int.toNat_of_nonneg; omega
  rcases a1 with a1 | a1 | a1 <;> rcases b1 with b1 | b1 | b1 <;>
    simp only [a1, b1, mul_neg, mul_one, mul_zero, Nat.cast_add] at hc <;> omega

/-- Every line of opponent cells ends: there is a first distance at which the cell is
not an opponent cell, and it is below the fuel of the scanning loops. -/
theorem exists_run_end (d : Desk) (hr : d.Rectangular) (direction : Nat)
    (hd : direction < 8) (p : Bool) (x y : Int) :
    ∃ n : Nat, n < d.scanFuel ∧
      (∀ i : Nat, i < n →
        d.getState (Directions.cellAt direction i x y).1 (Directions.cellAt direction i x y).2 =
          some (opponentState p)) ∧
      d.getState (Directions.cellAt direction n x y).1 (Directions.cellAt direction n x y).2 ≠
        some (opponentState p) := by
  classical
  have hex : ∃ n : Nat,
      d.getState (Directions.cellAt direction n x y).1 (Directions.cellAt direction n x y).2 ≠
        some (opponentState p) := by
    by_cases h0 : d.isOnDesk x y = true
    · refine ⟨d.desk_states.length + d.getHeight.toNat, ?_⟩
      rw [getState_eq_none_of_not_isOnDesk d hr _ _ (off_desk_far d direction hd x y h0)]
      simp
    · refine ⟨0, ?_⟩
      simp only [Directions.cellAt]
      rw [getState_eq_none_of_not_isOnDesk d hr _ _ (by simpa using h0)]
      simp
  refine ⟨Nat.find hex, ?_, ?_, Nat.find_spec hex⟩
  · by_cases h0 : d.isOnDesk x y = true
    · have : Nat.find hex ≤ d.desk_states.length + d.getHeight.toNat := by
        apply Nat.find_min'
        rw [getState_eq_none_of_not_isOnDesk d hr _ _ (off_desk_far d direction hd x y h0)]
        simp
      unfold scanFuel
      omega
    · have : Nat.find hex ≤ 0 := by
        apply Nat.find_min'
        simp only [Directions.cellAt]
        rw [getState_eq_none_of_not_isOnDesk d hr _ _ (by simpa using h0)]
        simp
      unfold scanFuel
      omega
  · intro i hi
    have := Nat.find_min hex hi
    simpa using this

theorem skipOpponent_eq (d : Desk) (hr : d.Rectangular) (direction : Nat) (p : Bool) (n : Nat) :
    ∀ (fuel : Nat) (x y : Int),
      (∀ i : Nat, i < n →
        d.getState (Directions.cellAt direction i x y).1 (Directions.cellAt direction i x y).2 =
          some (opponentState p)) →
      d.getState (Directions.cellAt direction n x y).1 (Directions.cellAt direction n x y).2 ≠
        some (opponentState p) →
      n < fuel →
      d.skipOpponent direction p fuel x y = some (Directions.cellAt direction n x y) := by
  induction n with
  | zero =>
    intro fuel x y _ hstop hfuel
    obtain ⟨f, rfl⟩ : ∃ f, fuel = f + 1 := ⟨fuel - 1, by omega⟩
    simp only [Directions.cellAt] at hstop ⊢
    unfold skipOpponent
    by_cases h0 : d.isOnDesk x y = true
    · obtain ⟨s, hs⟩ := getState_of_isOnDesk d hr x y h0
      rw [hs] at hstop
      have hne : s ≠ opponentState p := fun h => hstop (by rw [h])
      simp [h0, hs, opponent_test, hne]
    · simp [h0]
  | succ n ih =>
    intro fuel x y hrun hstop hfuel
    obtain ⟨f, rfl⟩ : ∃ f, fuel = f + 1 := ⟨fuel - 1, by omega⟩
    have h0 := hrun 0 (by omega)
    simp only [Directions.cellAt] at h0
    have hon := isOnDesk_of_getState d hr x y _ h0
    unfold skipOpponent
    simp only [hon, if_true, h0, opponent_test]
    rw [Directions.cellAt_succ]
    apply ih
    · intro i hi
      rw [← Directions.cellAt_succ]
      exact hrun (i + 1) (by omega)
    · rw [← Directions.cellAt_succ]
      exact hstop
    · omega

/-- The length of the opponent run of a capturing direction is determined by the board. -/
theorem captures_run_length (d : Desk) (x y : Int) (direction : Nat) (p : Bool) (k n : Nat)
    (hk : d.Captures x y direction p k)
    (hrun : ∀ i : Nat, i < n →
      d.getState (Directions.cellAt direction (i + 1) x y).1
        (Directions.cellAt direction (i + 1) x y).2 = some (opponentState p))
    (hstop : d.getState (Directions.cellAt direction (n + 1) x y).1
        (Directions.cellAt direction (n + 1) x y).2 ≠ some (opponentState p)) : k = n := by
  obtain ⟨hk1, hopp, -, hown⟩ := hk
  rcases Nat.lt_trichotomy k n with h | h | h
  · have := hrun k h
    rw [hown] at this
    exact absurd (Option.some.inj this) (playerState_ne_opponentState p)
  · exact h
  · exact absurd (hopp (n + 1) (by omega) (by omega)).2 hstop

/-- What `isReversible` computes on a rectangular board, in terms of the run of opponent
cells from distance 1: the run has some length `n`, and the result tells whether `n ≥ 1`
and the cell after the run is the player's own. -/
theorem isReversible_run (d : Desk) (hr : d.Rectangular) (x y : Int) (direction : Nat)
    (hd : direction < 8) (p : Bool) :
    ∃ n : Nat, n + 1 < d.scanFuel + 1 ∧
      (∀ i : Nat, i < n →
        d.getState (Directions.cellAt direction (i + 1) x y).1
          (Directions.cellAt direction (i + 1) x y).2 = some (opponentState p)) ∧
      d.getState (Directions.cellAt direction (n + 1) x y).1
        (Directions.cellAt direction (n + 1) x y).2 ≠ some (opponentState p) ∧
      d.isReversible x y direction p =
        some (decide (1 ≤ n ∧
          d.getState (Directions.cellAt direction (n + 1) x y).1
            (Directions.cellAt direction (n + 1) x y).2 = some (playerState p))) := by
  obtain ⟨n, hn, hrun, hstop⟩ := exists_run_end d hr direction hd p
    (Directions.moveInDirection direction x y).1 (Directions.moveInDirection direction x y).2
  simp only [← Directions.cellAt_succ] at hrun hstop
  refine ⟨n, by omega, hrun, hstop, ?_⟩
  unfold isReversible
  simp only []
  have hc1 : Directions.cellAt direction 1 x y = Directions.moveInDirection direction x y := by
    simp [Directions.cellAt]
  by_cases h1 : d.isOnDesk (Directions.moveInDirection direction x y).1
      (Directions.moveInDirection direction x y).2 = true
  · obtain ⟨s, hs⟩ := getState_of_isOnDesk d hr _ _ h1
    simp only [h1, Bool.not_true, Bool.false_eq_true, if_false, hs]
    by_cases hso : s = opponentState p
    · subst hso
      have hn1 : 1 ≤ n := by
        rcases Nat.eq_zero_or_pos n with h0 | h0
        · subst h0
          rw [hc1, hs] at hstop
          exact absurd rfl hstop
        · exact h0
      have htest : ¬ (if p = true then opponentState p ≠ ST_SECOND_PLAYER
          else opponentState p ≠ ST_FIRST_PLAYER) := by
        cases p <;> simp [opponentState]
      simp only [htest, if_false]
      have hskip := skipOpponent_eq d hr direction p n d.scanFuel
        (Directions.moveInDirection direction x y).1 (Directions.moveInDirection direction x y).2
        (by intro i hi; rw [← Directions.cellAt_succ]; exact hrun i hi)
        (by rw [← Directions.cellAt_succ]; exact hstop) hn
      rw [hskip, ← Directions.cellAt_succ]
      simp only []
      by_cases h2 : d.isOnDesk (Directions.cellAt direction (n + 1) x y).1
          (Directions.cellAt direction (n + 1) x y).2 = true
      · obtain ⟨s2, hs2⟩ := getState_of_isOnDesk d hr _ _ h2
        simp only [h2, Bool.not_true, Bool.false_eq_true, if_false, hs2]
        cases p <;> simp [playerState, hn1]
      · have h2' : d.isOnDesk (Directions.cellAt direction (n + 1) x y).1
          (Directions.cellAt direction (n + 1) x y).2 = false := by simpa using h2
        rw [getState_eq_none_of_not_isOnDesk d hr _ _ h2']
        simp [h2']
    · have hn0 : n = 0 := by
        rcases Nat.eq_zero_or_pos n with h0 | h0
        · exact h0
        · have := hrun 0 h0
          rw [hc1, hs] at this
          exact absurd (Option.some.inj this) hso
      have htest : (if p = true then s ≠ ST_SECOND_PLAYER else s ≠ ST_FIRST_PLAYER) := by
        cases p <;> simpa [opponentState] using hso
      simp [htest, hn0]
  · have h1' : d.isOnDesk (Directions.moveInDirection direction x y).1
      (Directions.moveInDirection direction x y).2 = false := by simpa using h1
    have hn0 : n = 0 := by
      rcases Nat.eq_zero_or_pos n with h0 | h0
      · exact h0
      · have := hrun 0 h0
        rw [hc1, getState_eq_none_of_not_isOnDesk d hr _ _ h1'] at this
        cases this
    simp [h1', hn0]

/-- The function `isReversible` returns, and it returns `true` exactly for a capturing direction. -/
theorem isReversible_iff (d : Desk) (hr : d.Rectangular) (x y : Int) (direction : Nat)
    (hd : direction < 8) (p : Bool) :
    ∃ b : Bool, d.isReversible x y direction p = some b ∧
      (b = true ↔ ∃ k : Nat, d.Captures x y direction p k) := by
  obtain ⟨n, -, hrun, hstop, hres⟩ := isReversible_run d hr x y direction hd p
  refine ⟨_, hres, ?_⟩
  rw [decide_eq_true_iff]
  constructor
  · rintro ⟨hn1, hown⟩
    refine ⟨n, hn1, ?_, isOnDesk_of_getState d hr _ _ _ hown, hown⟩
    intro i hi1 hin
    obtain ⟨j, rfl⟩ : ∃ j, i = j + 1 := ⟨i - 1, by omega⟩
    have := hrun j (by omega)
    exact ⟨isOnDesk_of_getState d hr _ _ _ this, this⟩
  · rintro ⟨k, hk⟩
    have hkn := captures_run_length d x y direction p k n hk hrun hstop
    subst hkn
    exact ⟨hk.1, hk.2.2.2⟩

end Desk

namespace Desk

theorem canMakeMoveLoop_iff (d : Desk) (hr : d.Rectangular) (x y : Int) (p : Bool)
    (dirs : List Nat) (hdirs : ∀ direction ∈ dirs, direction < 8) :
    ∃ b : Bool, d.canMakeMoveLoop x y p dirs = some b ∧
      (b = true ↔ ∃ direction ∈ dirs, ∃ k : Nat, d.Captures x y direction p k) := by
  induction dirs with
  | nil => exact ⟨false, rfl, by simp⟩
  | cons direction rest ih =>
    obtain ⟨b, hb, hiff⟩ := isReversible_iff d hr x y direction
      (hdirs direction (List.mem_cons_self _ _)) p
    obtain ⟨b', hb', hiff'⟩ := ih (fun e he => hdirs e (List.mem_cons_of_mem _ he))
    unfold canMakeMoveLoop
    rw [hb]
    cases b with
    | true =>
      refine ⟨true, rfl, ?_⟩
      simp only [true_iff]
      exact ⟨direction, List.mem_cons_self _ _, hiff.mp rfl⟩
    | false =>
      refine ⟨b', hb', ?_⟩
      rw [hiff']
      constructor
      · rintro ⟨e, he, hk⟩
        exact ⟨e, List.mem_cons_of_mem _ he, hk⟩
      · rintro ⟨e, he, hk⟩
        rcases List.mem_cons.mp he with rfl | he'
        · have := hiff.mpr hk
          cases this
        · exact ⟨e, he', hk⟩

/-- The function `canMakeMove(x, y, p)` returns, and it returns `true` exactly when the cell is on the
grid, empty, and some direction captures. -/
theorem canMakeMove_spec (d : Desk) (hr : d.Rectangular) (x y : Int) (p : Bool) :
    ∃ b : Bool, d.canMakeMove x y p = some b ∧
      (b = true ↔
        d.isOnDesk x y = true ∧ d.getState x y = some ST_EMPTY ∧
          ∃ direction : Nat, direction < 8 ∧ ∃ k : Nat, d.Captures x y direction p k) := by
  unfold canMakeMove
  by_cases h0 : d.isOnDesk x y = true
  · obtain ⟨s, hs⟩ := getState_of_isOnDesk d hr x y h0
    simp only [h0, Bool.not_true, Bool.false_eq_true, if_false, hs]
    by_cases hse : s = ST_EMPTY
    · subst hse
      simp only [ne_eq, not_true_eq_false, if_false, true_and]
      obtain ⟨b, hb, hiff⟩ := canMakeMoveLoop_iff d hr x y p Directions.all
        (fun e he => (Directions.mem_all e).mp he)
      refine ⟨b, hb, ?_⟩
      rw [hiff]
      constructor
      · rintro ⟨e, he, hk⟩
        exact ⟨e, (Directions.mem_all e).mp he, hk⟩
      · rintro ⟨e, he, hk⟩
        exact ⟨e, (Directions.mem_all e).mpr he, hk⟩
    · refine ⟨false, by simp [hse], ?_⟩
      simp [hse]
  · refine ⟨false, by simp [h0], ?_⟩
    simp [h0]

theorem canMakeMove_isSome (d : Desk) (hr : d.Rectangular) (x y : Int) (p : Bool) :
    ∃ b : Bool, d.canMakeMove x y p = some b := by
  obtain ⟨b, hb, -⟩ := canMakeMove_spec d hr x y p
  exact ⟨b, hb⟩

theorem canMakeMove_true_iff (d : Desk) (hr : d.Rectangular) (x y : Int) (p : Bool) :
    d.canMakeMove x y p = some true ↔
      d.isOnDesk x y = true ∧ d.getState x y = some ST_EMPTY ∧
        ∃ direction : Nat, direction < 8 ∧ ∃ k : Nat, d.Captures x y direction p k := by
  obtain ⟨b, hb, hiff⟩ := canMakeMove_spec d hr x y p
  rw [hb, ← hiff]
  simp

theorem canMakeMoveColumn_iff (d : Desk) (hr : d.Rectangular) (p : Bool) (i : Int)
    (js : List Nat) :
    ∃ b : Bool, d.canMakeMoveColumn p i js = some b ∧
      (b = true ↔ ∃ j ∈ js, d.canMakeMove i (j : Nat) p = some true) := by
  induction js with
  | nil => exact ⟨false, rfl, by simp⟩
  | cons j rest ih =>
    obtain ⟨b, hb⟩ := canMakeMove_isSome d hr i j p
    obtain ⟨b', hb', hiff'⟩ := ih
    unfold canMakeMoveColumn
    rw [hb]
    cases b with
    | true => exact ⟨true, rfl, by simp [hb]⟩
    | false =>
      refine ⟨b', hb', ?_⟩
      rw [hiff']
      simp [hb]

theorem canMakeMoveColumns_iff (d : Desk) (hr : d.Rectangular) (p : Bool) (is : List Nat) :
    ∃ b : Bool, d.canMakeMoveColumns p is = some b ∧
      (b = true ↔ ∃ i ∈ is, ∃ j ∈ List.range d.getHeight.toNat,
        d.canMakeMove (i : Nat) (j : Nat) p = some true) := by
  induction is with
  | nil => exact ⟨false, rfl, by simp⟩
  | cons i rest ih =>
    obtain ⟨b, hb, hiff⟩ := canMakeMoveColumn_iff d hr p i (List.range d.getHeight.toNat)
    obtain ⟨b', hb', hiff'⟩ := ih
    unfold canMakeMoveColumns
    rw [hb]
    cases b with
    | true =>
      refine ⟨true, rfl, ?_⟩
      simp only [true_iff]
      obtain ⟨j, hj, hc⟩ := hiff.mp rfl
      exact ⟨i, List.mem_cons_self _ _, j, hj, hc⟩
    | false =>
      refine ⟨b', hb', ?_⟩
      rw [hiff']
      constructor
      · rintro ⟨e, he, hk⟩
        exact ⟨e, List.mem_cons_of_mem _ he, hk⟩
      · rintro ⟨e, he, j, hj, hc⟩
        rcases List.mem_cons.mp he with rfl | he'
        · have := hiff.mpr ⟨j, hj, hc⟩
          cases this
        · exact ⟨e, he', j, hj, hc⟩

/-- A legal placement lies on the board. -/
theorem isOnDesk_of_canMakeMove (d : Desk) (x y : Int) (p : Bool)
    (h : d.canMakeMove x y p = some true) : d.isOnDesk x y = true := by
  unfold canMakeMove at h
  by_cases h0 : d.isOnDesk x y = true
  · exact h0
  · simp [h0] at h

theorem canMakeMoveAnywhere_spec (d : Desk) (hr : d.Rectangular) (p : Bool) :
    ∃ b : Bool, d.canMakeMoveAnywhere p = some b ∧
      (b = true ↔ ∃ x y : Int, d.canMakeMove x y p = some true) := by
  obtain ⟨b, hb, hiff⟩ := canMakeMoveColumns_iff d hr p (List.range d.getWidth.toNat)
  refine ⟨b, hb, ?_⟩
  rw [hiff]
  constructor
  · rintro ⟨i, -, j, -, hc⟩
    exact ⟨i, j, hc⟩
  · rintro ⟨x, y, hc⟩
    have hon := isOnDesk_of_canMakeMove d x y p hc
    rw [isOnDesk_iff] at hon
    obtain ⟨hx, hxw, hy, hyh⟩ := hon
    refine ⟨x.toNat, ?_, y.toNat, ?_, ?_⟩
    · rw [List.mem_range]; omega
    · rw [List.mem_range]; omega
    · rw [Int.toNat_of_nonneg hx, Int.toNat_of_nonneg hy]
      exact hc

end Desk

namespace Directions

theorem mem_runCells (direction k : Nat) (x y : Int) (c : Int × Int) :
    c ∈ runCells direction k x y ↔ ∃ i : Nat, 1 ≤ i ∧ i ≤ k ∧ c = cellAt direction i x y := by
  unfold runCells
  simp only [List.mem_map, List.mem_range]
  constructor
  · rintro ⟨i, hi, rfl⟩
    exact ⟨i + 1, by omega, by omega, rfl⟩
  · rintro ⟨i, h1, h2, rfl⟩
    exact ⟨i - 1, by omega, by rw [Nat.sub_add_cancel h1]⟩

theorem runCells_succ (direction k : Nat) (x y : Int) :
    runCells direction (k + 1) x y =
      (moveInDirection direction x y) ::
        runCells direction k (moveInDirection direction x y).1 (moveInDirection direction x y).2 := by
  unfold runCells
  rw [List.range_succ_eq_map, List.map_cons, List.map_map, List.cons.injEq]
  constructor
  · simp [cellAt]
  · apply List.map_congr_left
    intro i _
    exact cellAt_succ direction (i + 1) x y

theorem runCells_nodup (direction : Nat) (hd : direction < 8) (k : Nat) (x y : Int) :
    (runCells direction k x y).Nodup := by
  unfold runCells
  apply List.Nodup.map_on
  · intro i _ j _ h
    have := (cellAt_inj direction direction hd hd (i + 1) (j + 1) (by omega) (by omega) x y h).2
    omega
  · exact List.nodup_range k

end Directions

namespace Desk

theorem reverseLoop_succ (direction : Nat) (p : Bool) (fuel : Nat) (d : Desk) (x y : Int)
    (changed_cells : Option Cells) :
    reverseLoop direction p (fuel + 1) d x y changed_cells =
      if d.isOnDesk x y then
        match d.getState x y with
        | none => none
        | some s =>
          if (if p then s = ST_SECOND_PLAYER else s = ST_FIRST_PLAYER) then
            match d.setCell x y (if p then ST_FIRST_PLAYER else ST_SECOND_PLAYER) with
            | none => none
            | some d1 =>
              reverseLoop direction p fuel d1
                (Directions.moveInDirection direction x y).1
                (Directions.moveInDirection direction x y).2
                (changed_cells.map (fun cells => cells ++ [(x, y)]))
          else some (d, changed_cells)
      else some (d, changed_cells) := rfl

theorem reverseLoop_eq (direction : Nat) (hd : direction < 8) (p : Bool) (n : Nat) :
    ∀ (fuel : Nat) (d : Desk) (_ : d.Rectangular) (x y : Int) (log : Option Cells),
      (∀ i : Nat, i < n →
        d.getState (Directions.cellAt direction i x y).1 (Directions.cellAt direction i x y).2 =
          some (opponentState p)) →
      d.getState (Directions.cellAt direction n x y).1 (Directions.cellAt direction n x y).2 ≠
        some (opponentState p) →
      n < fuel →
      ∃ d1 : Desk,
        reverseLoop direction p fuel d x y log =
          some (d1, log.map (fun cells =>
            cells ++ (List.range n).map (fun i => Directions.cellAt direction i x y))) ∧
        d1.Rectangular ∧ d1.getWidth = d.getWidth ∧ d1.getHeight = d.getHeight ∧
        ∀ a b : Int, d1.getState a b =
          if (a, b) ∈ (List.range n).map (fun i => Directions.cellAt direction i x y)
          then some (playerState p) else d.getState a b := by
  induction n with
  | zero =>
    intro fuel d hr x y log _ hstop hfuel
    obtain ⟨f, rfl⟩ : ∃ f, fuel = f + 1 := ⟨fuel - 1, by omega⟩
    simp only [Directions.cellAt] at hstop
    refine ⟨d, ?_, hr, rfl, rfl, by simp⟩
    rw [reverseLoop_succ]
    have hlog : Option.map (fun cells : Cells => cells ++
        List.map (fun i => Directions.cellAt direction i x y) (List.range 0)) log = log := by
      cases log <;> simp
    rw [hlog]
    by_cases h0 : d.isOnDesk x y = true
    · obtain ⟨s, hs⟩ := getState_of_isOnDesk d hr x y h0
      rw [hs] at hstop
      have hne : s ≠ opponentState p := fun h => hstop (by rw [h])
      simp [h0, hs, opponent_test, hne]
    · simp [h0]
  | succ n ih =>
    intro fuel d hr x y log hrun hstop hfuel
    obtain ⟨f, rfl⟩ : ∃ f, fuel = f + 1 := ⟨fuel - 1, by omega⟩
    have h0 := hrun 0 (by omega)
    simp only [Directions.cellAt] at h0
    have hon := isOnDesk_of_getState d hr x y _ h0
    obtain ⟨d1, hd1⟩ := setCell_of_getState d x y _ (playerState p) h0
    have hg1 := getState_setCell d d1 x y _ hd1
    have hne : ∀ i : Nat, Directions.cellAt direction (i + 1) x y ≠ (x, y) := fun i =>
      Directions.cellAt_ne_origin direction hd (i + 1) (by omega) x y
    have hsame : ∀ i : Nat,
        d1.getState (Directions.cellAt direction (i + 1) x y).1
          (Directions.cellAt direction (i + 1) x y).2 =
        d.getState (Directions.cellAt direction (i + 1) x y).1
          (Directions.cellAt direction (i + 1) x y).2 := by
      intro i
      rw [hg1]
      have := hne i
      have h' : ¬ ((Directions.cellAt direction (i + 1) x y).1 = x ∧
          (Directions.cellAt direction (i + 1) x y).2 = y) := by
        rintro ⟨h1, h2⟩
        exact this (Prod.ext h1 h2)
      simp [h']
    obtain ⟨d2, hd2, hr2, hw2, hh2, hg2⟩ := ih f d1 (rectangular_setCell d d1 hr x y _ hd1)
      (Directions.moveInDirection direction x y).1 (Directions.moveInDirection direction x y).2
      (log.map (fun cells => cells ++ [(x, y)]))
      (by
        intro i hi
        rw [← Directions.cellAt_succ, hsame]
        exact hrun (i + 1) (by omega))
      (by
        rw [← Directions.cellAt_succ, hsame]
        exact hstop)
      (by omega)
    have hlist : (List.range (n + 1)).map (fun i => Directions.cellAt direction i x y) =
        (x, y) :: (List.range n).map (fun i => Directions.cellAt direction i
          (Directions.moveInDirection direction x y).1
          (Directions.moveInDirection direction x y).2) := by
      rw [List.range_succ_eq_map, List.map_cons, List.map_map, List.cons.injEq]
      constructor
      · simp [Directions.cellAt]
      · apply List.map_congr_left
        intro i _
        exact Directions.cellAt_succ direction i x y
    refine ⟨d2, ?_, hr2, ?_, ?_, ?_⟩
    · rw [reverseLoop_succ]
      simp only [hon, if_true, h0, opponent_test, player_write, hd1]
      rw [hd2, hlist]
      cases log <;> simp
    · rw [hw2, getWidth_setCell d d1 x y _ hd1]
    · rw [hh2, getHeight_setCell d d1 x y _ hd1]
    · intro a b
      rw [hg2, hg1, hlist]
      by_cases hab : a = x ∧ b = y
      · obtain ⟨rfl, rfl⟩ := hab
        simp
      · have : (a, b) ≠ (x, y) := fun h => hab ⟨congrArg Prod.fst h, congrArg Prod.snd h⟩
        simp [hab, this]

theorem reverse_eq (d : Desk) (hr : d.Rectangular) (x y : Int) (direction : Nat)
    (hd : direction < 8) (p : Bool) (log : Option Cells) (n : Nat)
    (hrun : ∀ i : Nat, i < n →
      d.getState (Directions.cellAt direction (i + 1) x y).1
        (Directions.cellAt direction (i + 1) x y).2 = some (opponentState p))
    (hstop : d.getState (Directions.cellAt direction (n + 1) x y).1
        (Directions.cellAt direction (n + 1) x y).2 ≠ some (opponentState p))
    (hn : n < d.scanFuel) :
    ∃ d1 : Desk,
      d.reverse x y direction p log =
        some (d1, log.map (fun cells => cells ++ Directions.runCells direction n x y)) ∧
      d1.Rectangular ∧ d1.getWidth = d.getWidth ∧ d1.getHeight = d.getHeight ∧
      ∀ a b : Int, d1.getState a b =
        if (a, b) ∈ Directions.runCells direction n x y then some (playerState p)
        else d.getState a b := by
  have hcells : (List.range n).map (fun i => Directions.cellAt direction i
      (Directions.moveInDirection direction x y).1
      (Directions.moveInDirection direction x y).2) = Directions.runCells direction n x y := by
    unfold Directions.runCells
    apply List.map_congr_left
    intro i _
    rw [Directions.cellAt_succ]
  have := reverseLoop_eq direction hd p n d.scanFuel d hr
    (Directions.moveInDirection direction x y).1 (Directions.moveInDirection direction x y).2 log
    (by intro i hi; rw [← Directions.cellAt_succ]; exact hrun i hi)
    (by rw [← Directions.cellAt_succ]; exact hstop) hn
  rw [hcells] at this
  exact this

end Desk

namespace Desk

theorem makeMoveLoop_nil (x y : Int) (p : Bool) (d : Desk) (log : Option Cells) :
    makeMoveLoop x y p [] d log = some (d, log) := rfl

theorem makeMoveLoop_cons (x y : Int) (p : Bool) (direction : Nat) (rest : List Nat)
    (d : Desk) (log : Option Cells) :
    makeMoveLoop x y p (direction :: rest) d log =
      match d.isReversible x y direction p with
      | none => none
      | some true =>
        match d.reverse x y direction p log with
        | none => none
        | some (d1, cells1) => makeMoveLoop x y p rest d1 cells1
      | some false => makeMoveLoop x y p rest d log := rfl

/-- The direction loop of `makeMove`, started on a board that still agrees with the
original board `d0` along the directions left to visit, flips exactly the capture log
of `d0` over those directions. -/
theorem makeMoveLoop_spec (d0 : Desk) (hr0 : d0.Rectangular) (x y : Int) (p : Bool)
    (dirs : List Nat) (hdirs : ∀ e ∈ dirs, e < 8) (hnd : dirs.Nodup) :
    ∀ (d1 : Desk) (log : Option Cells), d1.Rectangular →
      (∀ e ∈ dirs, ∀ k : Nat, 1 ≤ k →
        d1.getState (Directions.cellAt e k x y).1 (Directions.cellAt e k x y).2 =
          d0.getState (Directions.cellAt e k x y).1 (Directions.cellAt e k x y).2) →
      ∃ (d2 : Desk) (flips : Cells),
        makeMoveLoop x y p dirs d1 log = some (d2, log.map (fun cells => cells ++ flips)) ∧
        d0.CaptureLog x y p dirs flips ∧
        d2.Rectangular ∧ d2.getWidth = d1.getWidth ∧ d2.getHeight = d1.getHeight ∧
        ∀ a b : Int, d2.getState a b =
          if (a, b) ∈ flips then some (playerState p) else d1.getState a b := by
  induction dirs with
  | nil =>
    intro d1 log hr1 _
    refine ⟨d1, [], ?_, CaptureLog.nil, hr1, rfl, rfl, by simp⟩
    rw [makeMoveLoop_nil]
    cases log <;> simp
  | cons e rest ih =>
    intro d1 log hr1 hagree
    have he : e < 8 := hdirs e (List.mem_cons_self _ _)
    have hrest : ∀ e' ∈ rest, e' < 8 := fun e' h => hdirs e' (List.mem_cons_of_mem _ h)
    have hnd' : rest.Nodup := (List.nodup_cons.mp hnd).2
    have hnotin : e ∉ rest := (List.nodup_cons.mp hnd).1
    have hag_e := hagree e (List.mem_cons_self _ _)
    obtain ⟨n, hn, hrun, hstop, hres⟩ := isReversible_run d1 hr1 x y e he p
    rw [makeMoveLoop_cons, hres]
    have hrun0 : ∀ i : Nat, i < n →
        d0.getState (Directions.cellAt e (i + 1) x y).1 (Directions.cellAt e (i + 1) x y).2 =
          some (opponentState p) := by
      intro i hi
      rw [← hag_e (i + 1) (by omega)]
      exact hrun i hi
    have hstop0 : d0.getState (Directions.cellAt e (n + 1) x y).1
        (Directions.cellAt e (n + 1) x y).2 ≠ some (opponentState p) := by
      rw [← hag_e (n + 1) (by omega)]
      exact hstop
    by_cases hcap : 1 ≤ n ∧ d1.getState (Directions.cellAt e (n + 1) x y).1
        (Directions.cellAt e (n + 1) x y).2 = some (playerState p)
    · simp only [hcap, and_self, decide_True]
      obtain ⟨d1', hrev, hr1', hw1', hh1', hg1'⟩ :=
        reverse_eq d1 hr1 x y e he p log n hrun hstop (by omega)
      rw [hrev]
      simp only []
      have hown0 : d0.getState (Directions.cellAt e (n + 1) x y).1
          (Directions.cellAt e (n + 1) x y).2 = some (playerState p) := by
        rw [← hag_e (n + 1) (by omega)]
        exact hcap.2
      have hcap0 : d0.Captures x y e p n := by
        refine ⟨hcap.1, ?_, isOnDesk_of_getState d0 hr0 _ _ _ hown0, hown0⟩
        intro i hi1 hin
        obtain ⟨j, rfl⟩ : ∃ j, i = j + 1 := ⟨i - 1, by omega⟩
        have := hrun0 j (by omega)
        exact ⟨isOnDesk_of_getState d0 hr0 _ _ _ this, this⟩
      obtain ⟨d2, flips, hloop, hlog, hr2, hw2, hh2, hg2⟩ := ih hrest hnd' d1'
        (log.map (fun cells => cells ++ Directions.runCells e n x y)) hr1'
        (by
          intro e' he' k hk
          rw [hg1']
          have hnm : (Directions.cellAt e' k x y).1 ≠ (Directions.cellAt e' k x y).1 ∨
              (Directions.cellAt e' k x y) ∉ Directions.runCells e n x y := by
            right
            rw [Directions.mem_runCells]
            rintro ⟨i, hi1, _, hc⟩
            have := (Directions.cellAt_inj e' e (hrest e' he') he k i hk hi1 x y hc).1
            exact hnotin (this ▸ he')
          rcases hnm with h | h
          · exact absurd rfl h
          · rw [if_neg h]
            exact hagree e' (List.mem_cons_of_mem _ he') k hk)
      refine ⟨d2, Directions.runCells e n x y ++ flips, ?_, CaptureLog.capture e n rest flips hcap0 hlog,
        hr2, by rw [hw2, hw1'], by rw [hh2, hh1'], ?_⟩
      · rw [hloop]
        cases log <;> simp
      · intro a b
        rw [hg2, hg1']
        by_cases h1 : (a, b) ∈ flips
        · simp [h1]
        · by_cases h2 : (a, b) ∈ Directions.runCells e n x y
          · simp [h2]
          · simp [h1, h2]
    · have hdec : decide (1 ≤ n ∧ d1.getState (Directions.cellAt e (n + 1) x y).1
          (Directions.cellAt e (n + 1) x y).2 = some (playerState p)) = false := by
        simpa using hcap
      rw [hdec]
      simp only []
      obtain ⟨d2, flips, hloop, hlog, hr2, hw2, hh2, hg2⟩ := ih hrest hnd' d1 log hr1
        (fun e' he' k hk => hagree e' (List.mem_cons_of_mem _ he') k hk)
      refine ⟨d2, flips, hloop, CaptureLog.skip e rest flips ?_ hlog, hr2, hw2, hh2, hg2⟩
      rintro ⟨k, hk⟩
      have hkn := captures_run_length d0 x y e p k n hk hrun0 hstop0
      subst hkn
      apply hcap
      refine ⟨hk.1, ?_⟩
      rw [hag_e (k + 1) (by omega)]
      exact hk.2.2.2

theorem mem_captureLog (d : Desk) (x y : Int) (p : Bool) (dirs : List Nat) (flips : Cells)
    (h : d.CaptureLog x y p dirs flips) (c : Int × Int) :
    c ∈ flips ↔ ∃ e ∈ dirs, ∃ k i : Nat, d.Captures x y e p k ∧ 1 ≤ i ∧ i ≤ k ∧
      c = Directions.cellAt e i x y := by
  induction h with
  | nil => simp
  | capture e k rest cells hcap _ ih =>
    rw [List.mem_append, ih, Directions.mem_runCells]
    constructor
    · rintro (⟨i, h1, h2, rfl⟩ | ⟨e', he', k', i, hc, h1, h2, rfl⟩)
      · exact ⟨e, List.mem_cons_self _ _, k, i, hcap, h1, h2, rfl⟩
      · exact ⟨e', List.mem_cons_of_mem _ he', k', i, hc, h1, h2, rfl⟩
    · rintro ⟨e', he', k', i, hc, h1, h2, rfl⟩
      rcases List.mem_cons.mp he' with rfl | he''
      · left
        have hkk : k' = k := by
          apply captures_run_length d x y e' p k' k hc
          · intro j hj
            exact (hcap.2.1 (j + 1) (by omega) (by omega)).2
          · rw [hcap.2.2.2]
            intro hh
            exact playerState_ne_opponentState p (Option.some.inj hh)
        subst hkk
        exact ⟨i, h1, h2, rfl⟩
      · right
        exact ⟨e', he'', k', i, hc, h1, h2, rfl⟩
  | skip e rest cells hno _ ih =>
    rw [ih]
    constructor
    · rintro ⟨e', he', k', i, hc, h1, h2, rfl⟩
      exact ⟨e', List.mem_cons_of_mem _ he', k', i, hc, h1, h2, rfl⟩
    · rintro ⟨e', he', k', i, hc, h1, h2, rfl⟩
      rcases List.mem_cons.mp he' with rfl | he''
      · exact absurd ⟨k', hc⟩ hno
      · exact ⟨e', he'', k', i, hc, h1, h2, rfl⟩

theorem captureLog_opponent (d : Desk) (x y : Int) (p : Bool) (dirs : List Nat)
    (flips : Cells) (h : d.CaptureLog x y p dirs flips) (c : Int × Int) (hc : c ∈ flips) :
    d.getState c.1 c.2 = some (opponentState p) := by
  rw [mem_captureLog d x y p dirs flips h] at hc
  obtain ⟨e, -, k, i, hcap, h1, h2, rfl⟩ := hc
  exact (hcap.2.1 i h1 h2).2

theorem captureLog_nodup (d : Desk) (x y : Int) (p : Bool) (dirs : List Nat)
    (hdirs : ∀ e ∈ dirs, e < 8) (hnd : dirs.Nodup)
    (flips : Cells) (h : d.CaptureLog x y p dirs flips) : flips.Nodup := by
  induction h with
  | nil => exact List.nodup_nil
  | capture e k rest cells hcap hlog ih =>
    have he : e < 8 := hdirs e (List.mem_cons_self _ _)
    have hrest : ∀ e' ∈ rest, e' < 8 := fun e' h => hdirs e' (List.mem_cons_of_mem _ h)
    rw [List.nodup_append]
    refine ⟨Directions.runCells_nodup e he k x y, ih hrest (List.nodup_cons.mp hnd).2, ?_⟩
    intro c hc1 hc2
    rw [Directions.mem_runCells] at hc1
    rw [mem_captureLog d x y p rest cells hlog] at hc2
    obtain ⟨i, hi1, -, rfl⟩ := hc1
    obtain ⟨e', he', k', i', -, hi1', -, hc⟩ := hc2
    have := (Directions.cellAt_inj e e' he (hrest e' he') i i' hi1 hi1' x y hc).1
    exact (List.nodup_cons.mp hnd).1 (this ▸ he')
  | skip e rest cells _ _ ih =>
    exact ih (fun e' h => hdirs e' (List.mem_cons_of_mem _ h)) (List.nodup_cons.mp hnd).2

theorem captureLog_ne_nil (d : Desk) (x y : Int) (p : Bool) (dirs : List Nat)
    (flips : Cells) (h : d.CaptureLog x y p dirs flips)
    (hex : ∃ e ∈ dirs, ∃ k : Nat, d.Captures x y e p k) : flips ≠ [] := by
  obtain ⟨e, he, k, hk⟩ := hex
  intro hnil
  have : Directions.cellAt e 1 x y ∈ flips := by
    rw [mem_captureLog d x y p dirs flips h]
    exact ⟨e, he, k, 1, hk, le_refl 1, hk.1, rfl⟩
  rw [hnil] at this
  cases this

theorem captureLog_unique (d : Desk) (x y : Int) (p : Bool) (dirs : List Nat)
    (flips1 flips2 : Cells) (h1 : d.CaptureLog x y p dirs flips1)
    (h2 : d.CaptureLog x y p dirs flips2) : flips1 = flips2 := by
  induction h1 generalizing flips2 with
  | nil => cases h2; rfl
  | capture e k rest cells hcap _ ih =>
    cases h2 with
    | capture _ k' _ cells' hcap' hlog' =>
      have hkk : k' = k := by
        apply captures_run_length d x y e p k' k hcap'
        · intro j hj
          exact (hcap.2.1 (j + 1) (by omega) (by omega)).2
        · rw [hcap.2.2.2]
          intro hh
          exact playerState_ne_opponentState p (Option.some.inj hh)
      subst hkk
      rw [ih cells' hlog']
    | skip _ _ _ hno _ => exact absurd ⟨k, hcap⟩ hno
  | skip e rest cells hno _ ih =>
    cases h2 with
    | capture _ k' _ cells' hcap' hlog' => exact absurd ⟨k', hcap'⟩ hno
    | skip _ _ _ _ hlog' => exact ih flips2 hlog'

end Desk

namespace Desk

theorem makeMove_eq (d : Desk) (x y : Int) (p : Bool) (log : Option Cells) :
    d.makeMove x y p log =
      match d.canMakeMove x y p with
      | none => none
      | some false => some (false, d, log)
      | some true =>
        match d.setCell x y (if p then ST_FIRST_PLAYER else ST_SECOND_PLAYER) with
        | none => none
        | some d1 =>
          match makeMoveLoop x y p Directions.all d1 log with
          | none => none
          | some (d2, cells2) => some (true, d2, cells2) := rfl

/-- An illegal placement: `makeMove` returns `false` and changes nothing. -/
theorem makeMove_illegal (d : Desk) (x y : Int) (p : Bool) (log : Option Cells)
    (h : d.canMakeMove x y p = some false) : d.makeMove x y p log = some (false, d, log) := by
  rw [makeMove_eq, h]

/-- A legal placement: `makeMove` returns `true`; the placed cell and the cells of the
capture log of the original board become the player's, nothing else changes, and the
capture log is appended to the supplied log. -/
theorem makeMove_legal (d : Desk) (hr : d.Rectangular) (x y : Int) (p : Bool)
    (log : Option Cells) (h : d.canMakeMove x y p = some true) :
    ∃ (d2 : Desk) (flips : Cells),
      d.makeMove x y p log = some (true, d2, log.map (fun cells => cells ++ flips)) ∧
      d.CaptureLog x y p Directions.all flips ∧
      d2.Rectangular ∧ d2.getWidth = d.getWidth ∧ d2.getHeight = d.getHeight ∧
      ∀ a b : Int, d2.getState a b =
        if (a, b) = (x, y) ∨ (a, b) ∈ flips then some (playerState p) else d.getState a b := by
  have hlegal := (canMakeMove_true_iff d hr x y p).mp h
  obtain ⟨hon, hempty, -⟩ := hlegal
  obtain ⟨d1, hd1⟩ := setCell_of_getState d x y _ (playerState p) hempty
  have hg1 := getState_setCell d d1 x y _ hd1
  have hall : ∀ e ∈ Directions.all, e < 8 := fun e he => (Directions.mem_all e).mp he
  have hnd : Directions.all.Nodup := by rw [Directions.all_eq]; decide
  obtain ⟨d2, flips, hloop, hlog, hr2, hw2, hh2, hg2⟩ :=
    makeMoveLoop_spec d hr x y p Directions.all hall hnd d1 log
      (rectangular_setCell d d1 hr x y _ hd1)
      (by
        intro e he k hk
        rw [hg1]
        have hne := Directions.cellAt_ne_origin e (hall e he) k hk x y
        have h' : ¬ ((Directions.cellAt e k x y).1 = x ∧ (Directions.cellAt e k x y).2 = y) := by
          rintro ⟨h1, h2⟩
          exact hne (Prod.ext h1 h2)
        rw [if_neg h'])
  refine ⟨d2, flips, ?_, hlog, hr2, ?_, ?_, ?_⟩
  · rw [makeMove_eq, h]
    simp only [player_write, hd1, hloop]
  · rw [hw2, getWidth_setCell d d1 x y _ hd1]
  · rw [hh2, getHeight_setCell d d1 x y _ hd1]
  · intro a b
    rw [hg2, hg1]
    by_cases h1 : (a, b) ∈ flips
    · simp [h1]
    · by_cases h2 : a = x ∧ b = y
      · obtain ⟨rfl, rfl⟩ := h2
        simp
      · have : (a, b) ≠ (x, y) := fun h => h2 ⟨congrArg Prod.fst h, congrArg Prod.snd h⟩
        simp [h1, h2, this]

theorem changeCells_nil (d : Desk) : d.changeCells [] = some d := rfl

theorem changeCells_cons (d : Desk) (cell : Int × Int) (rest : Cells) :
    d.changeCells (cell :: rest) =
      match d.getState cell.1 cell.2 with
      | none => none
      | some s =>
        match d.setCell cell.1 cell.2
            (if s = ST_FIRST_PLAYER then ST_SECOND_PLAYER else ST_FIRST_PLAYER) with
        | none => none
        | some d1 => changeCells d1 rest := rfl

theorem toggle_playerState (p : Bool) :
    (if playerState p = ST_FIRST_PLAYER then ST_SECOND_PLAYER else ST_FIRST_PLAYER) =
      opponentState p := by
  cases p <;> simp [playerState, opponentState]

/-- The function `changeCells` on distinct cells that all hold the player's state turns exactly those
cells into the opponent's state. -/
theorem changeCells_spec (p : Bool) (cells : Cells) :
    ∀ (d : Desk), d.Rectangular → cells.Nodup →
      (∀ c ∈ cells, d.getState c.1 c.2 = some (playerState p)) →
      ∃ d1 : Desk, d.changeCells cells = some d1 ∧ d1.Rectangular ∧
        d1.getWidth = d.getWidth ∧ d1.getHeight = d.getHeight ∧
        ∀ a b : Int, d1.getState a b =
          if (a, b) ∈ cells then some (opponentState p) else d.getState a b := by
  induction cells with
  | nil =>
    intro d hr _ _
    exact ⟨d, rfl, hr, rfl, rfl, by simp⟩
  | cons c rest ih =>
    intro d hr hnd hall
    have hc := hall c (List.mem_cons_self _ _)
    obtain ⟨d1, hd1⟩ := setCell_of_getState d c.1 c.2 _ (opponentState p) hc
    have hg1 := getState_setCell d d1 c.1 c.2 _ hd1
    have hnotin : c ∉ rest := (List.nodup_cons.mp hnd).1
    obtain ⟨d2, hd2, hr2, hw2, hh2, hg2⟩ := ih d1 (rectangular_setCell d d1 hr c.1 c.2 _ hd1)
      (List.nodup_cons.mp hnd).2
      (by
        intro c' hc'
        rw [hg1]
        have hne : ¬ (c'.1 = c.1 ∧ c'.2 = c.2) := by
          rintro ⟨h1, h2⟩
          exact hnotin ((Prod.ext h1 h2 : c' = c) ▸ hc')
        rw [if_neg hne]
        exact hall c' (List.mem_cons_of_mem _ hc'))
    refine ⟨d2, ?_, hr2, ?_, ?_, ?_⟩
    · rw [changeCells_cons, hc]
      simp only [toggle_playerState, hd1, hd2]
    · rw [hw2, getWidth_setCell d d1 c.1 c.2 _ hd1]
    · rw [hh2, getHeight_setCell d d1 c.1 c.2 _ hd1]
    · intro a b
      rw [hg2, hg1]
      by_cases h1 : (a, b) ∈ rest
      · simp [h1]
      · by_cases h2 : a = c.1 ∧ b = c.2
        · obtain ⟨rfl, rfl⟩ := h2
          simp
        · have : (a, b) ≠ c := fun h => h2 ⟨congrArg Prod.fst h, congrArg Prod.snd h⟩
          simp [h1, h2, this]

/-- The round trip of a legal placement: the move with a fresh log, then `changeCells` on
the recorded log, then clearing the placed cell, gives back the original board. -/
theorem makeMove_roundtrip (d : Desk) (hr : d.Rectangular) (x y : Int) (p : Bool)
    (h : d.canMakeMove x y p = some true) :
    ∃ (d2 : Desk) (flips : Cells) (d3 : Desk),
      d.makeMove x y p (some []) = some (true, d2, some flips) ∧
      d2.changeCells flips = some d3 ∧
      d3.setCell x y ST_EMPTY = some d := by
  obtain ⟨d2, flips, hmove, hlog, hr2, hw2, hh2, hg2⟩ := makeMove_legal d hr x y p (some []) h
  have hlegal := (canMakeMove_true_iff d hr x y p).mp h
  obtain ⟨hon, hempty, -⟩ := hlegal
  have hall : ∀ e ∈ Directions.all, e < 8 := fun e he => (Directions.mem_all e).mp he
  have hnd : Directions.all.Nodup := by rw [Directions.all_eq]; decide
  have hflnd := captureLog_nodup d x y p Directions.all hall hnd flips hlog
  have hopp := captureLog_opponent d x y p Directions.all flips hlog
  obtain ⟨d3, hd3, hr3, hw3, hh3, hg3⟩ := changeCells_spec p flips d2 hr2 hflnd
    (by
      intro c hc
      rw [hg2]
      simp [hc])
  have hx3 : ∃ s, d3.getState x y = some s := by
    rw [hg3, hg2]
    by_cases hm : (x, y) ∈ flips
    · exact ⟨opponentState p, by simp [hm]⟩
    · exact ⟨playerState p, by simp [hm]⟩
  obtain ⟨s3, hs3⟩ := hx3
  obtain ⟨d4, hd4⟩ := setCell_of_getState d3 x y s3 ST_EMPTY hs3
  have hg4 := getState_setCell d3 d4 x y _ hd4
  have heq : d4 = d := by
    apply ext_getState
    · rw [getWidth_setCell d3 d4 x y _ hd4, hw3, hw2]
    · intro a b
      rw [hg4]
      by_cases h1 : a = x ∧ b = y
      · obtain ⟨rfl, rfl⟩ := h1
        simp [hempty]
      · rw [if_neg h1, hg3]
        by_cases h2 : (a, b) ∈ flips
        · rw [if_pos h2]
          exact (hopp (a, b) h2).symm
        · rw [if_neg h2, hg2]
          have : (a, b) ≠ (x, y) := fun h => h1 ⟨congrArg Prod.fst h, congrArg Prod.snd h⟩
          simp [h2, this]
  refine ⟨d2, flips, d3, ?_, hd3, ?_⟩
  · rw [hmove]; simp
  · rw [hd4, heq]

end Desk

namespace AI

theorem makeVirtualMove_eq (s : State) (x y : Int) (p : Bool) :
    makeVirtualMove s x y p =
      match s.ai_calculation_desk.makeMove x y p (some []) with
      | none => none
      | some (_, d1, cells) =>
        some { s with
          ai_calculation_desk := d1
          virtual_moves_history :=
            s.virtual_moves_history ++
              [{ reversed_cells := cells.getD [], move_coordinate_x := x,
                 move_coordiante_y := y }] } := rfl

theorem undoLastVirtualMove_eq (s : State) :
    undoLastVirtualMove s =
      match s.virtual_moves_history.getLast? with
      | none => none
      | some last_move =>
        match s.ai_calculation_desk.changeCells last_move.reversed_cells with
        | none => none
        | some d1 =>
          match d1.setCell last_move.move_coordinate_x last_move.move_coordiante_y ST_EMPTY with
          | none => none
          | some d2 => deleteLastVirtualMoveFromHistory { s with ai_calculation_desk := d2 } :=
  rfl

/-- Undoing on top of a history whose last record is that of a legal placement on `d`
restores `d` and pops the record, whatever the rest of the state is. -/
theorem undo_after_move (depth : Nat) (d : Desk) (hr : d.Rectangular) (history : List Move)
    (x y : Int) (p : Bool) (h : d.canMakeMove x y p = some true) :
    ∃ (d2 : Desk) (flips : Cells),
      d.makeMove x y p (some []) = some (true, d2, some flips) ∧
      d2.Rectangular ∧ d2.getWidth = d.getWidth ∧ d2.getHeight = d.getHeight ∧
      makeVirtualMove ⟨depth, d, history⟩ x y p =
        some ⟨depth, d2, history ++ [⟨flips, x, y⟩]⟩ ∧
      undoLastVirtualMove ⟨depth, d2, history ++ [⟨flips, x, y⟩]⟩ =
        some ⟨depth, d, history⟩ := by
  obtain ⟨d2, flips, d3, hmove, hch, hset⟩ := Desk.makeMove_roundtrip d hr x y p h
  obtain ⟨d2', flips', hmove', -, hr2, hw2, hh2, -⟩ := Desk.makeMove_legal d hr x y p (some []) h
  have hsame : d2' = d2 := by
    rw [hmove] at hmove'
    simp at hmove'
    exact hmove'.1.symm
  subst hsame
  refine ⟨d2', flips, hmove, hr2, hw2, hh2, ?_, ?_⟩
  · rw [makeVirtualMove_eq]
    simp only [hmove, Option.getD_some]
  · rw [undoLastVirtualMove_eq]
    simp only [List.getLast?_concat, hch, hset, deleteLastVirtualMoveFromHistory,
      List.dropLast_concat]

end AI

namespace Desk

theorem mem_cells (d : Desk) (c : Int × Int) :
    c ∈ d.cells ↔ d.isOnDesk c.1 c.2 = true := by
  unfold cells
  rw [isOnDesk_iff]
  simp only [List.mem_flatMap, List.mem_map, List.mem_range]
  constructor
  · rintro ⟨i, hi, j, hj, rfl⟩
    simp only
    omega
  · rintro ⟨h1, h2, h3, h4⟩
    refine ⟨c.1.toNat, by omega, c.2.toNat, by omega, ?_⟩
    ext
    · simp [Int.toNat_of_nonneg h1]
    · simp [Int.toNat_of_nonneg h3]

theorem countOver_nil (d : Desk) (q : Int → Int → Bool) (state : CellState) :
    d.countOver q state [] = 0 := rfl

theorem countOver_cons (d : Desk) (q : Int → Int → Bool) (state : CellState)
    (c : Int × Int) (cs : Cells) :
    d.countOver q state (c :: cs) =
      (if q c.1 c.2 = true ∧ d.getState c.1 c.2 = some state then 1 else 0) +
        d.countOver q state cs := by
  unfold countOver
  rw [List.filter_cons]
  by_cases h : q c.1 c.2 = true ∧ d.getState c.1 c.2 = some state
  · simp [h]
    ring
  · have : (q c.1 c.2 && decide (d.getState c.1 c.2 = some state)) = false := by
      simpa using h
    simp [this, h]

theorem countOver_append (d : Desk) (q : Int → Int → Bool) (state : CellState)
    (cs1 cs2 : Cells) :
    d.countOver q state (cs1 ++ cs2) = d.countOver q state cs1 + d.countOver q state cs2 := by
  unfold countOver
  rw [List.filter_append, List.length_append]
  push_cast
  rfl

theorem countOver_nonneg (d : Desk) (q : Int → Int → Bool) (state : CellState) (cs : Cells) :
    0 ≤ d.countOver q state cs := by
  unfold countOver
  exact Int.natCast_nonneg _

theorem scoreOver_nil (d : Desk) : d.scoreOver [] = 0 := by
  simp [scoreOver, countOver_nil]

theorem scoreOver_append (d : Desk) (cs1 cs2 : Cells) :
    d.scoreOver (cs1 ++ cs2) = d.scoreOver cs1 + d.scoreOver cs2 := by
  unfold scoreOver
  simp only [countOver_append]
  ring

theorem scoreOver_cons (d : Desk) (c : Int × Int) (cs : Cells) (s : CellState)
    (hs : d.getState c.1 c.2 = some s) :
    d.scoreOver (c :: cs) = AI.evaluateCell d c.1 c.2 s 0 + d.scoreOver cs := by
  unfold scoreOver AI.evaluateCell
  simp only [countOver_cons, hs, Option.some.injEq]
  cases s <;> cases hq : AI.isCorner d c.1 c.2 <;> simp <;> ring

theorem evaluateCell_add (d : Desk) (i j : Int) (s : CellState) (r : Int) :
    AI.evaluateCell d i j s r = r + AI.evaluateCell d i j s 0 := by
  unfold AI.evaluateCell
  cases s <;> cases hq : AI.isCorner d i j <;> simp <;> ring

/-- The score of a list of cells is at most eleven a cell in absolute value. -/
theorem scoreOver_bound (d : Desk) (cs : Cells) :
    -(11 * (cs.length : Int)) ≤ d.scoreOver cs ∧ d.scoreOver cs ≤ 11 * (cs.length : Int) := by
  induction cs with
  | nil => simp [scoreOver_nil]
  | cons c rest ih =>
    unfold scoreOver at ih ⊢
    simp only [countOver_cons, List.length_cons, Nat.cast_add, Nat.cast_one]
    obtain ⟨ih1, ih2⟩ := ih
    constructor
    · split_ifs <;> simp_all <;> omega
    · split_ifs <;> simp_all <;> omega

theorem length_flatMap_const {α β : Type} (l : List α) (f : α → List β) (m : Nat)
    (h : ∀ a, (f a).length = m) : (l.flatMap f).length = l.length * m := by
  induction l with
  | nil => simp
  | cons a rest ih =>
    rw [List.flatMap_cons, List.length_append, ih, h, List.length_cons]
    ring

theorem length_cells (d : Desk) :
    (d.cells.length : Int) = d.getWidth.toNat * d.getHeight.toNat := by
  unfold cells
  rw [length_flatMap_const _ _ d.getHeight.toNat (by intro a; simp)]
  simp

end Desk

namespace AI

theorem evaluateColumn_eq (d : Desk) (i : Int) (js : List Nat) :
    ∀ r : Int, (∀ j ∈ js, ∃ s, d.getState i (j : Nat) = some s) →
      evaluateColumn d i js r =
        some (r + d.scoreOver (js.map (fun (j : Nat) => (i, (j : Int))))) := by
  induction js with
  | nil =>
    intro r _
    simp [evaluateColumn, Desk.scoreOver_nil]
  | cons j rest ih =>
    intro r hall
    obtain ⟨s, hs⟩ := hall j (List.mem_cons_self _ _)
    unfold evaluateColumn
    rw [hs]
    simp only
    rw [ih _ (fun j' hj' => hall j' (List.mem_cons_of_mem _ hj'))]
    rw [List.map_cons, Desk.scoreOver_cons d (i, (j : Int)) _ s hs,
      Desk.evaluateCell_add]
    congr 1
    ring

theorem evaluateColumns_eq (d : Desk) (hr : d.Rectangular) (is : List Nat)
    (his : ∀ i ∈ is, i < d.getWidth.toNat) :
    ∀ r : Int, evaluateColumns d is r =
      some (r + d.scoreOver (is.flatMap
        (fun (i : Nat) => (List.range d.getHeight.toNat).map (fun (j : Nat) => ((i : Int), (j : Int)))))) := by
  induction is with
  | nil =>
    intro r
    simp [evaluateColumns, Desk.scoreOver_nil]
  | cons i rest ih =>
    intro r
    unfold evaluateColumns
    have hcol := evaluateColumn_eq d i (List.range d.getHeight.toNat) r
      (by
        intro j hj
        apply Desk.getState_of_isOnDesk d hr
        rw [Desk.isOnDesk_iff]
        have := his i (List.mem_cons_self _ _)
        rw [List.mem_range] at hj
        omega)
    rw [hcol]
    simp only
    rw [ih (fun i' hi' => his i' (List.mem_cons_of_mem _ hi'))]
    rw [List.flatMap_cons, Desk.scoreOver_append]
    congr 1
    ring

/-- The function `evaluatePosition` returns the score of the working board. -/
theorem evaluatePosition_eq (s : State) (hr : s.ai_calculation_desk.Rectangular) :
    evaluatePosition s = some s.ai_calculation_desk.score := by
  unfold evaluatePosition
  rw [evaluateColumns_eq s.ai_calculation_desk hr _ (fun i hi => List.mem_range.mp hi)]
  simp [Desk.score, Desk.cells]

/-- Boards of size below `infinity / 11` cells have bounded scores. -/
theorem evalBounded_of_small (d : Desk)
    (h : 11 * ((d.getWidth.toNat : Int) * d.getHeight.toNat) < infinity) : EvalBounded d := by
  intro d1 hd1
  obtain ⟨-, hw, hh⟩ := hd1
  have hb := Desk.scoreOver_bound d1 d1.cells
  rw [Desk.length_cells, hw, hh] at hb
  unfold Desk.score
  constructor <;> omega

end AI

namespace Desk

/-- The board after a legal placement does not depend on the log supplied. -/
theorem makeMove_after (d : Desk) (hr : d.Rectangular) (x y : Int) (p : Bool)
    (log : Option Cells) (h : d.canMakeMove x y p = some true) :
    ∃ flips : Cells,
      d.makeMove x y p log = some (true, d.after x y p, log.map (fun cells => cells ++ flips)) ∧
      d.CaptureLog x y p Directions.all flips ∧
      (d.after x y p).Rectangular ∧ (d.after x y p).getWidth = d.getWidth ∧
      (d.after x y p).getHeight = d.getHeight ∧
      ∀ a b : Int, (d.after x y p).getState a b =
        if (a, b) = (x, y) ∨ (a, b) ∈ flips then some (playerState p) else d.getState a b := by
  obtain ⟨d2, flips, hmove, hlog, hr2, hw2, hh2, hg2⟩ := makeMove_legal d hr x y p log h
  obtain ⟨d2', flips', hmove', hlog', hr2', hw2', hh2', hg2'⟩ := makeMove_legal d hr x y p none h
  have hfl : flips' = flips := captureLog_unique d x y p Directions.all flips' flips hlog' hlog
  subst hfl
  have hd : d2' = d2 := by
    apply ext_getState
    · rw [hw2, hw2']
    · intro a b
      rw [hg2, hg2']
  subst hd
  have hafter : d.after x y p = d2' := by
    unfold after
    rw [hmove']
  rw [hafter]
  exact ⟨flips', hmove, hlog, hr2, hw2, hh2, hg2⟩

end Desk

namespace AI

theorem candidate_eq_def (cutoff : Bool) (descend : Descend) (p : Bool) (i j : Int) (v : Scan) :
    candidate cutoff descend p i j v =
      match v.ai.ai_calculation_desk.canMakeMove i j p with
      | none => none
      | some false => some v
      | some true =>
        match makeVirtualMove v.ai i j p with
        | none => none
        | some ai1 =>
          match descend ai1 v.chosen v.locals.alpha v.locals.beta with
          | none => none
          | some (current_turn_evaluation, ai2, chosen2) =>
            match undoLastVirtualMove ai2 with
            | none => none
            | some ai3 =>
              some { ai := ai3, chosen := chosen2
                     locals := improve cutoff p i j current_turn_evaluation v.locals } := rfl

theorem candidateColumn_nil (cutoff : Bool) (descend : Descend) (p : Bool) (i : Int)
    (v : Scan) : candidateColumn cutoff descend p i [] v = some v := rfl

theorem candidateColumn_cons (cutoff : Bool) (descend : Descend) (p : Bool) (i : Int)
    (j : Nat) (rest : List Nat) (v : Scan) :
    candidateColumn cutoff descend p i (j :: rest) v =
      if v.locals.alpha_beta_interruption then some v
      else
        match candidate cutoff descend p i j v with
        | none => none
        | some v1 => candidateColumn cutoff descend p i rest v1 := rfl

theorem candidateColumns_nil (cutoff : Bool) (descend : Descend) (p : Bool) (v : Scan) :
    candidateColumns cutoff descend p [] v = some v := rfl

theorem candidateColumns_cons (cutoff : Bool) (descend : Descend) (p : Bool)
    (i : Nat) (rest : List Nat) (v : Scan) :
    candidateColumns cutoff descend p (i :: rest) v =
      if v.locals.alpha_beta_interruption then some v
      else
        match candidateColumn cutoff descend p i
            (List.range v.ai.ai_calculation_desk.getHeight.toNat) v with
        | none => none
        | some v1 => candidateColumns cutoff descend p rest v1 := rfl

theorem scanStep_interrupted (cutoff : Bool) (below : Desk → Int → Int → Int) (p : Bool)
    (d : Desk) (v : Locals) (c : Int × Int) (h : v.alpha_beta_interruption = true) :
    scanStep cutoff below p d v c = v := by
  unfold scanStep
  simp [h]

theorem foldl_scanStep_interrupted (cutoff : Bool) (below : Desk → Int → Int → Int)
    (p : Bool) (d : Desk) (cs : Cells) (v : Locals) (h : v.alpha_beta_interruption = true) :
    cs.foldl (scanStep cutoff below p d) v = v := by
  induction cs with
  | nil => rfl
  | cons c rest ih => rw [List.foldl_cons, scanStep_interrupted cutoff below p d v c h, ih]

/-- One candidate: the state is restored and the locals are updated as `scanStep` says. -/
theorem candidate_eq (cutoff : Bool) (descend : Descend) (below : Desk → Int → Int → Int)
    (K : Nat → Prop) (p : Bool)
    (hdesc : ∀ (s1 : State) (ch1 : Int × Int) (a b : Int),
      s1.ai_calculation_desk.Rectangular →
      ∃ ch2, descend s1 ch1 a b = some (below s1.ai_calculation_desk a b, s1, ch2) ∧
        (K s1.minimax_depth → ch2 = ch1))
    (i j : Int) (v : Scan) (hr : v.ai.ai_calculation_desk.Rectangular)
    (hni : v.locals.alpha_beta_interruption = false) :
    ∃ ch2, candidate cutoff descend p i j v =
        some { ai := v.ai, chosen := ch2
               locals := scanStep cutoff below p v.ai.ai_calculation_desk v.locals (i, j) } ∧
      (K v.ai.minimax_depth → ch2 = v.chosen) := by
  obtain ⟨ai, chosen, locals⟩ := v
  obtain ⟨depth, d, history⟩ := ai
  simp only at hr hni ⊢
  rw [candidate_eq_def]
  simp only
  obtain ⟨b, hb⟩ := Desk.canMakeMove_isSome d hr i j p
  cases b with
  | false =>
    refine ⟨chosen, ?_, fun _ => rfl⟩
    rw [hb]
    simp [scanStep, hni, hb]
  | true =>
    obtain ⟨d2, flips, hmove, hr2, hw2, hh2, hvirt, hundo⟩ :=
      undo_after_move depth d hr history i j p hb
    obtain ⟨flips', hmove', -, -, -, -, -⟩ := Desk.makeMove_after d hr i j p (some []) hb
    have hd2 : d.after i j p = d2 := by
      rw [hmove] at hmove'
      simp at hmove'
      exact hmove'.1.symm
    obtain ⟨ch2, hdes, hch⟩ := hdesc ⟨depth, d2, history ++ [⟨flips, i, j⟩]⟩ chosen
      locals.alpha locals.beta hr2
    refine ⟨ch2, ?_, hch⟩
    rw [hb]
    simp only [hvirt, hdes, hundo]
    simp [scanStep, hni, hb, hd2]

theorem candidateColumn_eq (cutoff : Bool) (descend : Descend)
    (below : Desk → Int → Int → Int) (K : Nat → Prop) (p : Bool)
    (hdesc : ∀ (s1 : State) (ch1 : Int × Int) (a b : Int),
      s1.ai_calculation_desk.Rectangular →
      ∃ ch2, descend s1 ch1 a b = some (below s1.ai_calculation_desk a b, s1, ch2) ∧
        (K s1.minimax_depth → ch2 = ch1))
    (i : Int) (js : List Nat) :
    ∀ (v : Scan), v.ai.ai_calculation_desk.Rectangular →
      ∃ ch2, candidateColumn cutoff descend p i js v =
          some { ai := v.ai, chosen := ch2
                 locals := (js.map (fun (j : Nat) => (i, (j : Int)))).foldl
                   (scanStep cutoff below p v.ai.ai_calculation_desk) v.locals } ∧
        (K v.ai.minimax_depth → ch2 = v.chosen) := by
  induction js with
  | nil =>
    intro v _
    exact ⟨v.chosen, rfl, fun _ => rfl⟩
  | cons j rest ih =>
    intro v hr
    rw [candidateColumn_cons]
    cases hni : v.locals.alpha_beta_interruption with
    | true =>
      refine ⟨v.chosen, ?_, fun _ => rfl⟩
      rw [foldl_scanStep_interrupted cutoff below p _ _ _ hni]
      simp
    | false =>
      obtain ⟨ch2, hc, hk⟩ := candidate_eq cutoff descend below K p hdesc i j v hr hni
      obtain ⟨ch3, hc3, hk3⟩ := ih
        { ai := v.ai, chosen := ch2
          locals := scanStep cutoff below p v.ai.ai_calculation_desk v.locals (i, j) } hr
      refine ⟨ch3, ?_, fun hK => (hk3 hK).trans (hk hK)⟩
      simp only [Bool.false_eq_true, if_false, hc, hc3, List.map_cons, List.foldl_cons]

theorem candidateColumns_eq (cutoff : Bool) (descend : Descend)
    (below : Desk → Int → Int → Int) (K : Nat → Prop) (p : Bool)
    (hdesc : ∀ (s1 : State) (ch1 : Int × Int) (a b : Int),
      s1.ai_calculation_desk.Rectangular →
      ∃ ch2, descend s1 ch1 a b = some (below s1.ai_calculation_desk a b, s1, ch2) ∧
        (K s1.minimax_depth → ch2 = ch1))
    (is : List Nat) :
    ∀ (v : Scan), v.ai.ai_calculation_desk.Rectangular →
      ∃ ch2, candidateColumns cutoff descend p is v =
          some { ai := v.ai, chosen := ch2
                 locals := (is.flatMap (fun (i : Nat) =>
                     (List.range v.ai.ai_calculation_desk.getHeight.toNat).map
                       (fun (j : Nat) => ((i : Int), (j : Int))))).foldl
                   (scanStep cutoff below p v.ai.ai_calculation_desk) v.locals } ∧
        (K v.ai.minimax_depth → ch2 = v.chosen) := by
  induction is with
  | nil =>
    intro v _
    exact ⟨v.chosen, rfl, fun _ => rfl⟩
  | cons i rest ih =>
    intro v hr
    rw [candidateColumns_cons]
    cases hni : v.locals.alpha_beta_interruption with
    | true =>
      refine ⟨v.chosen, ?_, fun _ => rfl⟩
      rw [foldl_scanStep_interrupted cutoff below p _ _ _ hni]
      simp
    | false =>
      obtain ⟨ch2, hc, hk⟩ := candidateColumn_eq cutoff descend below K p hdesc i
        (List.range v.ai.ai_calculation_desk.getHeight.toNat) v hr
      obtain ⟨ch3, hc3, hk3⟩ := ih
        { ai := v.ai, chosen := ch2
          locals := ((List.range v.ai.ai_calculation_desk.getHeight.toNat).map
              (fun (j : Nat) => ((i : Int), (j : Int)))).foldl
            (scanStep cutoff below p v.ai.ai_calculation_desk) v.locals } hr
      refine ⟨ch3, ?_, fun hK => (hk3 hK).trans (hk hK)⟩
      simp only [Bool.false_eq_true, if_false, hc, hc3, List.flatMap_cons, List.foldl_append]

theorem searchNode_eq_def (cutoff : Bool) (descend : Descend) (current_depth : Nat)
    (s : State) (chosen : Int × Int) (p : Bool) (alpha beta : Int) :
    searchNode cutoff descend current_depth s chosen p alpha beta =
      match candidateColumns cutoff descend p
          (List.range s.ai_calculation_desk.getWidth.toNat)
          { ai := s, chosen := chosen, locals := initialLocals p alpha beta } with
      | none => none
      | some v =>
        match (if v.locals.current_extreme_x = -1 then
                 descend v.ai v.chosen v.locals.alpha v.locals.beta
               else some (v.locals.current_extreme_value, v.ai, v.chosen)) with
        | none => none
        | some (value, s1, chosen1) =>
          some (value, s1,
            if current_depth = s1.minimax_depth then
              (v.locals.current_extreme_x, v.locals.current_extreme_y)
            else chosen1) := rfl

/-- One node of the search: the state is restored, the value is `nodeValue` of the
board, and the reference parameters are overwritten at the root depth only. -/
theorem searchNode_eq (cutoff : Bool) (descend : Descend) (below : Desk → Int → Int → Int)
    (K : Nat → Prop) (p : Bool)
    (hdesc : ∀ (s1 : State) (ch1 : Int × Int) (a b : Int),
      s1.ai_calculation_desk.Rectangular →
      ∃ ch2, descend s1 ch1 a b = some (below s1.ai_calculation_desk a b, s1, ch2) ∧
        (K s1.minimax_depth → ch2 = ch1))
    (depth : Nat) (s : State) (hr : s.ai_calculation_desk.Rectangular) (chosen : Int × Int)
    (alpha beta : Int) :
    ∃ ch2, searchNode cutoff descend depth s chosen p alpha beta =
        some (nodeValue cutoff below p s.ai_calculation_desk alpha beta, s, ch2) ∧
      (depth = s.minimax_depth → ch2 =
        ((nodeLocals cutoff below p s.ai_calculation_desk alpha beta).current_extreme_x,
         (nodeLocals cutoff below p s.ai_calculation_desk alpha beta).current_extreme_y)) ∧
      (depth ≠ s.minimax_depth → K s.minimax_depth → ch2 = chosen) := by
  obtain ⟨ch1, hloop, hk1⟩ := candidateColumns_eq cutoff descend below K p hdesc
    (List.range s.ai_calculation_desk.getWidth.toNat)
    { ai := s, chosen := chosen, locals := initialLocals p alpha beta } hr
  simp only at hloop hk1
  have hlocals : (List.foldl (scanStep cutoff below p s.ai_calculation_desk)
      (initialLocals p alpha beta)
      ((List.range s.ai_calculation_desk.getWidth.toNat).flatMap (fun (i : Nat) =>
        (List.range s.ai_calculation_desk.getHeight.toNat).map
          (fun (j : Nat) => ((i : Int), (j : Int)))))) =
      nodeLocals cutoff below p s.ai_calculation_desk alpha beta := rfl
  rw [hlocals] at hloop
  rw [searchNode_eq_def, hloop]
  simp only
  by_cases hx : (nodeLocals cutoff below p s.ai_calculation_desk alpha beta).current_extreme_x = -1
  · obtain ⟨ch2, hd2, hk2⟩ := hdesc s ch1
      (nodeLocals cutoff below p s.ai_calculation_desk alpha beta).alpha
      (nodeLocals cutoff below p s.ai_calculation_desk alpha beta).beta hr
    by_cases hdep : depth = s.minimax_depth
    · refine ⟨_, ?_, fun _ => rfl, fun h => absurd hdep h⟩
      simp [hx, hd2, nodeValue, hdep]
    · refine ⟨ch2, ?_, fun h => absurd h hdep, fun _ hK => (hk2 hK).trans (hk1 hK)⟩
      simp [hx, hd2, nodeValue, hdep]
  · by_cases hdep : depth = s.minimax_depth
    · refine ⟨_, ?_, fun _ => rfl, fun h => absurd hdep h⟩
      simp [hx, nodeValue, hdep]
    · refine ⟨ch1, ?_, fun h => absurd h hdep, fun _ hK => hk1 hK⟩
      simp [hx, nodeValue, hdep]

theorem searchValue_eq (cutoff : Bool) (depth : Nat) (d : Desk) (p : Bool) (alpha beta : Int) :
    searchValue cutoff depth d p alpha beta =
      nodeValue cutoff (below cutoff depth p) p d alpha beta := by
  cases depth <;> rfl

/-- The search restores the state, returns `searchValue` of the working board, overwrites
the reference parameters with `searchMove` at the root depth and leaves them alone below
the root depth. -/
theorem miniMaxWith_eq (cutoff : Bool) (depth : Nat) :
    ∀ (s : State) (chosen : Int × Int) (p : Bool) (alpha beta : Int),
      s.ai_calculation_desk.Rectangular →
      ∃ ch2, miniMaxWith cutoff depth s chosen p alpha beta =
          some (searchValue cutoff depth s.ai_calculation_desk p alpha beta, s, ch2) ∧
        (depth = s.minimax_depth →
          ch2 = searchMove cutoff depth s.ai_calculation_desk p alpha beta) ∧
        (depth < s.minimax_depth → ch2 = chosen) := by
  induction depth with
  | zero =>
    intro s chosen p alpha beta hr
    obtain ⟨ch2, h1, h2, h3⟩ := searchNode_eq cutoff
      (fun s1 chosen1 _ _ => (evaluatePosition s1).map (fun e => (e, s1, chosen1)))
      (below cutoff 0 p) (fun _ => True) p
      (by
        intro s1 ch1 a b hr1
        refine ⟨ch1, ?_, fun _ => rfl⟩
        simp only [evaluatePosition_eq s1 hr1, Option.map_some', below])
      0 s hr chosen alpha beta
    refine ⟨ch2, ?_, h2, ?_⟩
    · rw [searchValue_eq]
      exact h1
    · intro hlt
      exact h3 (by omega) trivial
  | succ n ih =>
    intro s chosen p alpha beta hr
    obtain ⟨ch2, h1, h2, h3⟩ := searchNode_eq cutoff
      (fun s1 chosen1 alpha1 beta1 => miniMaxWith cutoff n s1 chosen1 (!p) alpha1 beta1)
      (below cutoff (n + 1) p) (fun md => n < md) p
      (by
        intro s1 ch1 a b hr1
        obtain ⟨ch2, e1, -, e3⟩ := ih s1 ch1 (!p) a b hr1
        exact ⟨ch2, e1, e3⟩)
      (n + 1) s hr chosen alpha beta
    refine ⟨ch2, ?_, h2, ?_⟩
    · rw [searchValue_eq]
      exact h1
    · intro hlt
      exact h3 (by omega) (by omega)

end AI

namespace AI

theorem failSoft_refl (alpha beta v : Int) : FailSoft alpha beta v v := by
  unfold FailSoft
  omega

theorem improve_first_lt (cutoff : Bool) (i j e : Int) (v : Locals)
    (h : v.current_extreme_value < e) :
    improve cutoff true i j e v =
      { alpha := max e v.alpha, beta := v.beta, current_extreme_value := e
        current_extreme_x := i, current_extreme_y := j
        alpha_beta_interruption :=
          if cutoff && decide (max e v.alpha > v.beta) then true
          else v.alpha_beta_interruption } := by
  unfold improve
  simp [h]

theorem improve_first_not_lt (cutoff : Bool) (i j e : Int) (v : Locals)
    (h : ¬ v.current_extreme_value < e) : improve cutoff true i j e v = v := by
  unfold improve
  simp [h]

theorem improve_second_gt (cutoff : Bool) (i j e : Int) (v : Locals)
    (h : e < v.current_extreme_value) :
    improve cutoff false i j e v =
      { alpha := v.alpha, beta := min e v.beta, current_extreme_value := e
        current_extreme_x := i, current_extreme_y := j
        alpha_beta_interruption :=
          if cutoff && decide (v.alpha > min e v.beta) then true
          else v.alpha_beta_interruption } := by
  unfold improve
  simp [h]

theorem improve_second_not_gt (cutoff : Bool) (i j e : Int) (v : Locals)
    (h : ¬ e < v.current_extreme_value) : improve cutoff false i j e v = v := by
  unfold improve
  simp [h]

theorem prunedInv_step_first (alpha beta : Int) (ha : -infinity ≤ alpha)
    (hab : alpha ≤ beta) (_hb : beta ≤ infinity) (vA vE : Locals)
    (h : PrunedInv true alpha beta vA vE) (i j : Int) (hi : 0 ≤ i) (w s : Int)
    (hw : -infinity < w ∧ w < infinity) (hs : -infinity < s ∧ s < infinity)
    (hfs : vA.alpha_beta_interruption = false → FailSoft vA.alpha vA.beta w s) :
    PrunedInv true alpha beta
      (if vA.alpha_beta_interruption then vA else improve true true i j s vA)
      (improve false true i j w vE) := by
  obtain ⟨aA, bA, cA, xA, yA, stA⟩ := vA
  obtain ⟨aE, bE, cE, xE, yE, stE⟩ := vE
  unfold PrunedInv at h
  simp only [if_true] at h hfs
  obtain ⟨h1, h2, h3, h4, h5⟩ := h
  subst h1
  have hne : i ≠ -1 := by omega
  cases stA with
  | true =>
    simp only [if_true] at h5 ⊢
    have hx : xA ≠ -1 := by
      intro hx
      have := (h3 hx).2.2.1
      cases this
    have hxE : xE ≠ -1 := fun hh => hx (h2.mpr hh)
    by_cases hE : cE < w
    · rw [improve_first_lt false i j w _ hE]
      unfold PrunedInv
      simp only [Bool.false_and, Bool.false_eq_true, if_false, if_true, hx, hne, false_iff,
        false_implies, true_and, not_false_eq_true]
      omega
    · rw [improve_first_not_lt false i j w _ hE]
      unfold PrunedInv
      simp only [if_true, hx, hxE, false_implies, true_and, iff_self]
      omega
  | false =>
    simp only [Bool.false_eq_true, if_false, true_implies] at h5 hfs ⊢
    unfold FailSoft at h5 hfs
    have hcE : xE = -1 → cA = -infinity ∧ cE = -infinity ∧ aA = alpha ∧ bA = beta := by
      intro hh
      have := h3 (h2.mpr hh)
      have := h4 hh
      simp only [if_true] at *
      omega
    have hxx : xA = -1 → cA = -infinity ∧ cE = -infinity ∧ aA = alpha ∧ bA = beta := by
      intro hh
      exact hcE (h2.mp hh)
    by_cases hE : cE < w
    · rw [improve_first_lt false i j w _ hE]
      by_cases hA : cA < s
      · rw [improve_first_lt true i j s _ hA]
        unfold PrunedInv FailSoft
        by_cases hcut : max s aA > bA
        · simp only [Bool.false_and, Bool.false_eq_true, if_false, if_true, hne, iff_self,
            false_implies, true_and, Bool.true_and, decide_eq_true_eq, hcut]
          omega
        · simp only [Bool.false_and, Bool.false_eq_true, if_false, if_true, hne, iff_self,
            false_implies, true_and, Bool.true_and, decide_eq_true_eq, hcut]
          omega
      · rw [improve_first_not_lt true i j s _ hA]
        have hxA : xA ≠ -1 := by
          intro hh
          have := hxx hh
          omega
        unfold PrunedInv FailSoft
        simp only [Bool.false_and, Bool.false_eq_true, if_false, if_true, hne, hxA, iff_self,
          false_implies, true_and]
        omega
    · rw [improve_first_not_lt false i j w _ hE]
      have hxE : xE ≠ -1 := by
        intro hh
        have := hcE hh
        omega
      by_cases hA : cA < s
      · rw [improve_first_lt true i j s _ hA]
        unfold PrunedInv FailSoft
        by_cases hcut : max s aA > bA
        · simp only [Bool.false_eq_true, if_false, if_true, hne, hxE, iff_self,
            false_implies, true_and, Bool.true_and, decide_eq_true_eq, hcut]
          omega
        · simp only [Bool.false_eq_true, if_false, if_true, hne, hxE, iff_self,
            false_implies, true_and, Bool.true_and, decide_eq_true_eq, hcut]
          omega
      · rw [improve_first_not_lt true i j s _ hA]
        unfold PrunedInv FailSoft
        simp only [Bool.false_eq_true, if_false, if_true, true_and]
        exact ⟨h2, fun hh => ⟨(h3 hh).1, (h3 hh).2.1, (h3 hh).2.2.2⟩, h4, h5⟩

theorem prunedInv_step_second (alpha beta : Int) (_ha : -infinity ≤ alpha)
    (hab : alpha ≤ beta) (hb : beta ≤ infinity) (vA vE : Locals)
    (h : PrunedInv false alpha beta vA vE) (i j : Int) (hi : 0 ≤ i) (w s : Int)
    (hw : -infinity < w ∧ w < infinity) (hs : -infinity < s ∧ s < infinity)
    (hfs : vA.alpha_beta_interruption = false → FailSoft vA.alpha vA.beta w s) :
    PrunedInv false alpha beta
      (if vA.alpha_beta_interruption then vA else improve true false i j s vA)
      (improve false false i j w vE) := by
  obtain ⟨aA, bA, cA, xA, yA, stA⟩ := vA
  obtain ⟨aE, bE, cE, xE, yE, stE⟩ := vE
  unfold PrunedInv at h
  simp only [Bool.false_eq_true, if_false] at h hfs
  obtain ⟨h1, h2, h3, h4, h5⟩ := h
  subst h1
  have hne : i ≠ -1 := by omega
  cases stA with
  | true =>
    simp only [if_true] at h5 ⊢
    have hx : xA ≠ -1 := by
      intro hx
      have := (h3 hx).2.2.1
      cases this
    have hxE : xE ≠ -1 := fun hh => hx (h2.mpr hh)
    by_cases hE : w < cE
    · rw [improve_second_gt false i j w _ hE]
      unfold PrunedInv
      simp only [Bool.false_and, Bool.false_eq_true, if_false, if_true, hx, hne, false_iff,
        false_implies, true_and, not_false_eq_true]
      omega
    · rw [improve_second_not_gt false i j w _ hE]
      unfold PrunedInv
      simp only [Bool.false_eq_true, if_false, if_true, hx, hxE, false_implies, true_and, iff_self]
      omega
  | false =>
    simp only [Bool.false_eq_true, if_false, true_implies] at h5 hfs ⊢
    unfold FailSoft at h5 hfs
    have hcE : xE = -1 → cA = infinity ∧ cE = infinity ∧ aA = alpha ∧ bA = beta := by
      intro hh
      have := h3 (h2.mpr hh)
      have := h4 hh
      simp only [Bool.false_eq_true, if_false] at *
      omega
    have hxx : xA = -1 → cA = infinity ∧ cE = infinity ∧ aA = alpha ∧ bA = beta := by
      intro hh
      exact hcE (h2.mp hh)
    by_cases hE : w < cE
    · rw [improve_second_gt false i j w _ hE]
      by_cases hA : s < cA
      · rw [improve_second_gt true i j s _ hA]
        unfold PrunedInv FailSoft
        by_cases hcut : aA > min s bA
        · simp only [Bool.false_and, Bool.false_eq_true, if_false, if_true, hne, iff_self,
            false_implies, true_and, Bool.true_and, decide_eq_true_eq, hcut]
          omega
        · simp only [Bool.false_and, Bool.false_eq_true, if_false, if_true, hne, iff_self,
            false_implies, true_and, Bool.true_and, decide_eq_true_eq, hcut]
          omega
      · rw [improve_second_not_gt true i j s _ hA]
        have hxA : xA ≠ -1 := by
          intro hh
          have := hxx hh
          omega
        unfold PrunedInv FailSoft
        simp only [Bool.false_and, Bool.false_eq_true, if_false, if_true, hne, hxA, iff_self,
          false_implies, true_and]
        omega
    · rw [improve_second_not_gt false i j w _ hE]
      have hxE : xE ≠ -1 := by
        intro hh
        have := hcE hh
        omega
      by_cases hA : s < cA
      · rw [improve_second_gt true i j s _ hA]
        unfold PrunedInv FailSoft
        by_cases hcut : aA > min s bA
        · simp only [Bool.false_eq_true, if_false, if_true, hne, hxE, iff_self,
            false_implies, true_and, Bool.true_and, decide_eq_true_eq, hcut]
          omega
        · simp only [Bool.false_eq_true, if_false, if_true, hne, hxE, iff_self,
            false_implies, true_and, Bool.true_and, decide_eq_true_eq, hcut]
          omega
      · rw [improve_second_not_gt true i j s _ hA]
        unfold PrunedInv FailSoft
        simp only [Bool.false_eq_true, if_false, if_true, true_and]
        exact ⟨h2, fun hh => ⟨(h3 hh).1, (h3 hh).2.1, (h3 hh).2.2.2⟩, h4, h5⟩

end AI

namespace AI

theorem prunedInv_step (p : Bool) (alpha beta : Int) (ha : -infinity ≤ alpha)
    (hab : alpha ≤ beta) (hb : beta ≤ infinity) (vA vE : Locals)
    (h : PrunedInv p alpha beta vA vE) (i j : Int) (hi : 0 ≤ i) (w s : Int)
    (hw : -infinity < w ∧ w < infinity) (hs : -infinity < s ∧ s < infinity)
    (hfs : vA.alpha_beta_interruption = false → FailSoft vA.alpha vA.beta w s) :
    PrunedInv p alpha beta
      (if vA.alpha_beta_interruption then vA else improve true p i j s vA)
      (improve false p i j w vE) := by
  cases p
  · exact prunedInv_step_second alpha beta ha hab hb vA vE h i j hi w s hw hs hfs
  · exact prunedInv_step_first alpha beta ha hab hb vA vE h i j hi w s hw hs hfs

theorem prunedInv_window (p : Bool) (alpha beta : Int) (ha : -infinity ≤ alpha)
    (hab : alpha ≤ beta) (hb : beta ≤ infinity) (vA vE : Locals)
    (h : PrunedInv p alpha beta vA vE) (hst : vA.alpha_beta_interruption = false) :
    -infinity ≤ vA.alpha ∧ vA.alpha ≤ vA.beta ∧ vA.beta ≤ infinity := by
  unfold PrunedInv at h
  obtain ⟨-, -, -, -, h5⟩ := h
  cases p <;> simp only [hst, Bool.false_eq_true, if_false, if_true] at h5 <;> omega

theorem prunedInv_initial (p : Bool) (alpha beta a b : Int) (ha : -infinity ≤ alpha)
    (hab : alpha ≤ beta) (hb : beta ≤ infinity) :
    PrunedInv p alpha beta (initialLocals p alpha beta) (initialLocals p a b) := by
  unfold PrunedInv initialLocals FailSoft
  cases p <;> simp <;> omega

theorem prunedInv_final (p : Bool) (alpha beta : Int) (hab : alpha ≤ beta) (vA vE : Locals)
    (h : PrunedInv p alpha beta vA vE) :
    FailSoft alpha beta vE.current_extreme_value vA.current_extreme_value := by
  unfold PrunedInv at h
  obtain ⟨-, -, -, -, h5⟩ := h
  cases p <;> cases hst : vA.alpha_beta_interruption <;>
    simp only [hst, Bool.false_eq_true, if_false, if_true] at h5
  · exact h5.2.2.2
  · unfold FailSoft; omega
  · exact h5.2.2.2
  · unfold FailSoft; omega

theorem improve_cases (cutoff p : Bool) (i j e : Int) (v : Locals) :
    improve cutoff p i j e v = v ∨
      ((improve cutoff p i j e v).current_extreme_value = e ∧
       (improve cutoff p i j e v).current_extreme_x = i ∧
       (improve cutoff p i j e v).current_extreme_y = j) := by
  unfold improve
  split
  · right; exact ⟨rfl, rfl, rfl⟩
  · left; rfl

/-- A legal placement leads to a board of the same shape. -/
theorem sameShape_after (d0 d : Desk) (hd : SameShape d0 d) (x y : Int) (p : Bool)
    (h : d.canMakeMove x y p = some true) : SameShape d0 (d.after x y p) := by
  obtain ⟨hr, hw, hh⟩ := hd
  obtain ⟨_, -, -, hr2, hw2, hh2, -⟩ := Desk.makeMove_after d hr x y p none h
  exact ⟨hr2, hw2.trans hw, hh2.trans hh⟩

theorem scanStep_legal (cutoff : Bool) (below : Desk → Int → Int → Int) (p : Bool) (d : Desk)
    (v : Locals) (c : Int × Int) (hst : v.alpha_beta_interruption = false)
    (h : d.canMakeMove c.1 c.2 p = some true) :
    scanStep cutoff below p d v c =
      improve cutoff p c.1 c.2 (below (d.after c.1 c.2 p) v.alpha v.beta) v := by
  unfold scanStep
  simp [hst, h]

theorem scanStep_illegal (cutoff : Bool) (below : Desk → Int → Int → Int) (p : Bool)
    (d : Desk) (v : Locals) (c : Int × Int) (h : d.canMakeMove c.1 c.2 p ≠ some true) :
    scanStep cutoff below p d v c = v := by
  unfold scanStep
  simp [h]

/-- The value a node holds after any part of its scan is an evaluation found below it,
once a candidate has been recorded. -/
theorem foldl_scanStep_bounded (cutoff : Bool) (below : Desk → Int → Int → Int)
    (d0 : Desk)
    (hbelow : ∀ (d1 : Desk) (a b : Int), SameShape d0 d1 →
      -infinity < below d1 a b ∧ below d1 a b < infinity)
    (p : Bool) (d : Desk) (hd : SameShape d0 d) (cs : Cells) :
    ∀ v : Locals,
      (v.current_extreme_x = -1 ∨
        (-infinity < v.current_extreme_value ∧ v.current_extreme_value < infinity)) →
      ((cs.foldl (scanStep cutoff below p d) v).current_extreme_x = -1 ∨
        (-infinity < (cs.foldl (scanStep cutoff below p d) v).current_extreme_value ∧
          (cs.foldl (scanStep cutoff below p d) v).current_extreme_value < infinity)) := by
  induction cs with
  | nil => intro v hv; exact hv
  | cons c rest ih =>
    intro v hv
    rw [List.foldl_cons]
    apply ih
    by_cases hst : v.alpha_beta_interruption = true
    · rw [scanStep_interrupted cutoff below p d v c hst]
      exact hv
    · by_cases hl : d.canMakeMove c.1 c.2 p = some true
      · rw [scanStep_legal cutoff below p d v c (by simpa using hst) hl]
        rcases improve_cases cutoff p c.1 c.2 (below (d.after c.1 c.2 p) v.alpha v.beta) v
          with h | h
        · rw [h]; exact hv
        · right
          rw [h.1]
          exact hbelow _ _ _ (sameShape_after d0 d hd c.1 c.2 p hl)
      · rw [scanStep_illegal cutoff below p d v c hl]
        exact hv

theorem nodeValue_bounded (cutoff : Bool) (below : Desk → Int → Int → Int) (d0 : Desk)
    (hbelow : ∀ (d1 : Desk) (a b : Int), SameShape d0 d1 →
      -infinity < below d1 a b ∧ below d1 a b < infinity)
    (p : Bool) (d : Desk) (hd : SameShape d0 d) (alpha beta : Int) :
    -infinity < nodeValue cutoff below p d alpha beta ∧
      nodeValue cutoff below p d alpha beta < infinity := by
  have h := foldl_scanStep_bounded cutoff below d0 hbelow p d hd d.cells
    (initialLocals p alpha beta) (Or.inl rfl)
  unfold nodeValue
  split
  · exact hbelow _ _ _ hd
  · rename_i hx
    rcases h with h | h
    · exact absurd h hx
    · exact h

theorem below_bounded_of (cutoff : Bool) (d0 : Desk) (hb : EvalBounded d0) (depth : Nat)
    (p : Bool)
    (ih : ∀ (n : Nat), depth = n + 1 → ∀ (d1 : Desk) (q : Bool) (a b : Int),
      SameShape d0 d1 →
      -infinity < searchValue cutoff n d1 q a b ∧ searchValue cutoff n d1 q a b < infinity) :
    ∀ (d1 : Desk) (a b : Int), SameShape d0 d1 →
      -infinity < below cutoff depth p d1 a b ∧ below cutoff depth p d1 a b < infinity := by
  intro d1 a b hd1
  cases depth with
  | zero => exact hb d1 hd1
  | succ n => exact ih n rfl d1 (!p) a b hd1

/-- Every value the search returns lies strictly between `-infinity` and `infinity`. -/
theorem searchValue_bounded (cutoff : Bool) (d0 : Desk) (hb : EvalBounded d0) (depth : Nat) :
    ∀ (d : Desk) (p : Bool) (alpha beta : Int), SameShape d0 d →
      -infinity < searchValue cutoff depth d p alpha beta ∧
        searchValue cutoff depth d p alpha beta < infinity := by
  induction depth with
  | zero =>
    intro d p alpha beta hd
    rw [searchValue_eq]
    exact nodeValue_bounded cutoff _ d0
      (below_bounded_of cutoff d0 hb 0 p (fun n h => by omega)) p d hd alpha beta
  | succ n ih =>
    intro d p alpha beta hd
    rw [searchValue_eq]
    exact nodeValue_bounded cutoff _ d0
      (below_bounded_of cutoff d0 hb (n + 1) p
        (fun m h => by
          have : m = n := by omega
          subst this
          exact ih))
      p d hd alpha beta

theorem below_bounded (cutoff : Bool) (d0 : Desk) (hb : EvalBounded d0) (depth : Nat)
    (p : Bool) (d1 : Desk) (a b : Int) (hd1 : SameShape d0 d1) :
    -infinity < below cutoff depth p d1 a b ∧ below cutoff depth p d1 a b < infinity :=
  below_bounded_of cutoff d0 hb depth p
    (fun n _ d2 q a2 b2 hd2 => searchValue_bounded cutoff d0 hb n d2 q a2 b2 hd2) d1 a b hd1

theorem prunedInv_fold (p : Bool) (alpha beta : Int) (ha : -infinity ≤ alpha)
    (hab : alpha ≤ beta) (hb : beta ≤ infinity)
    (belowA belowE : Desk → Int → Int → Int) (d0 : Desk)
    (hA : ∀ (d1 : Desk) (a b : Int), SameShape d0 d1 →
      -infinity < belowA d1 a b ∧ belowA d1 a b < infinity)
    (hE : ∀ (d1 : Desk) (a b : Int), SameShape d0 d1 →
      -infinity < belowE d1 a b ∧ belowE d1 a b < infinity)
    (hfs : ∀ (d1 : Desk) (a b a1 b1 : Int), SameShape d0 d1 →
      -infinity ≤ a → a ≤ b → b ≤ infinity → FailSoft a b (belowE d1 a1 b1) (belowA d1 a b))
    (d : Desk) (hd : SameShape d0 d) (cs : Cells) (hcs : ∀ c ∈ cs, 0 ≤ c.1) :
    ∀ vA vE : Locals, PrunedInv p alpha beta vA vE →
      PrunedInv p alpha beta (cs.foldl (scanStep true belowA p d) vA)
        (cs.foldl (scanStep false belowE p d) vE) := by
  induction cs with
  | nil => intro vA vE h; exact h
  | cons c rest ih =>
    intro vA vE h
    rw [List.foldl_cons, List.foldl_cons]
    apply ih (fun c' hc' => hcs c' (List.mem_cons_of_mem _ hc'))
    have hEst : vE.alpha_beta_interruption = false := h.1
    by_cases hl : d.canMakeMove c.1 c.2 p = some true
    · rw [scanStep_legal false belowE p d vE c hEst hl]
      have hshape := sameShape_after d0 d hd c.1 c.2 p hl
      have hstep := prunedInv_step p alpha beta ha hab hb vA vE h c.1 c.2
        (hcs c (List.mem_cons_self _ _))
        (belowE (d.after c.1 c.2 p) vE.alpha vE.beta)
        (belowA (d.after c.1 c.2 p) vA.alpha vA.beta)
        (hE _ _ _ hshape) (hA _ _ _ hshape)
        (by
          intro hst
          obtain ⟨w1, w2, w3⟩ := prunedInv_window p alpha beta ha hab hb vA vE h hst
          exact hfs _ _ _ _ _ hshape w1 w2 w3)
      cases hst : vA.alpha_beta_interruption with
      | true =>
        rw [scanStep_interrupted true belowA p d vA c hst]
        simpa [hst] using hstep
      | false =>
        rw [scanStep_legal true belowA p d vA c hst hl]
        simpa [hst] using hstep
    · rw [scanStep_illegal false belowE p d vE c hl, scanStep_illegal true belowA p d vA c hl]
      exact h

theorem cells_nonneg (d : Desk) : ∀ c ∈ d.cells, 0 ≤ c.1 := by
  intro c hc
  rw [Desk.mem_cells, Desk.isOnDesk_iff] at hc
  exact hc.1

/-- The value of a pruned node is related to the value of the exhaustive node on the same
board as `FailSoft` says, when this holds below the node. -/
theorem nodeValue_failSoft (p : Bool) (alpha beta a1 b1 : Int) (ha : -infinity ≤ alpha)
    (hab : alpha ≤ beta) (hb : beta ≤ infinity)
    (belowA belowE : Desk → Int → Int → Int) (d0 : Desk)
    (hA : ∀ (d1 : Desk) (a b : Int), SameShape d0 d1 →
      -infinity < belowA d1 a b ∧ belowA d1 a b < infinity)
    (hE : ∀ (d1 : Desk) (a b : Int), SameShape d0 d1 →
      -infinity < belowE d1 a b ∧ belowE d1 a b < infinity)
    (hfs : ∀ (d1 : Desk) (a b a1 b1 : Int), SameShape d0 d1 →
      -infinity ≤ a → a ≤ b → b ≤ infinity → FailSoft a b (belowE d1 a1 b1) (belowA d1 a b))
    (d : Desk) (hd : SameShape d0 d) :
    FailSoft alpha beta (nodeValue false belowE p d a1 b1)
      (nodeValue true belowA p d alpha beta) := by
  have hinv := prunedInv_fold p alpha beta ha hab hb belowA belowE d0 hA hE hfs d hd d.cells
    (cells_nonneg d) (initialLocals p alpha beta) (initialLocals p a1 b1)
    (prunedInv_initial p alpha beta a1 b1 ha hab hb)
  have hfin := prunedInv_final p alpha beta hab _ _ hinv
  unfold nodeValue
  unfold nodeLocals
  obtain ⟨-, h2, h3, -, -⟩ := hinv
  by_cases hx : (List.foldl (scanStep true belowA p d) (initialLocals p alpha beta)
      d.cells).current_extreme_x = -1
  · have hxE := h2.mp hx
    obtain ⟨e1, e2, -, -⟩ := h3 hx
    rw [if_pos hx, if_pos hxE, e1, e2]
    exact hfs d _ _ _ _ hd ha hab hb
  · have hxE : ¬ (List.foldl (scanStep false belowE p d) (initialLocals p a1 b1)
        d.cells).current_extreme_x = -1 := fun hh => hx (h2.mpr hh)
    rw [if_neg hx, if_neg hxE]
    exact hfin

/-- The value the pruned search returns for a window is related to the exhaustive value
as `FailSoft` says. -/
theorem searchValue_failSoft (d0 : Desk) (hb0 : EvalBounded d0) (depth : Nat) :
    ∀ (d : Desk) (p : Bool) (alpha beta a1 b1 : Int), SameShape d0 d →
      -infinity ≤ alpha → alpha ≤ beta → beta ≤ infinity →
      FailSoft alpha beta (searchValue false depth d p a1 b1)
        (searchValue true depth d p alpha beta) := by
  induction depth with
  | zero =>
    intro d p alpha beta a1 b1 hd ha hab hb
    rw [searchValue_eq, searchValue_eq]
    apply nodeValue_failSoft p alpha beta a1 b1 ha hab hb _ _ d0
      (below_bounded true d0 hb0 0 p) (below_bounded false d0 hb0 0 p) _ d hd
    intro d1 a b a2 b2 _ _ _ _
    exact failSoft_refl _ _ _
  | succ n ih =>
    intro d p alpha beta a1 b1 hd ha hab hb
    rw [searchValue_eq, searchValue_eq]
    apply nodeValue_failSoft p alpha beta a1 b1 ha hab hb _ _ d0
      (below_bounded true d0 hb0 (n + 1) p) (below_bounded false d0 hb0 (n + 1) p) _ d hd
    intro d1 a b a2 b2 hd1 h1 h2 h3
    exact ih d1 (!p) a b a2 b2 hd1 h1 h2 h3

theorem below_failSoft (d0 : Desk) (hb0 : EvalBounded d0) (depth : Nat) (p : Bool)
    (d1 : Desk) (a b a1 b1 : Int) (hd1 : SameShape d0 d1)
    (h1 : -infinity ≤ a) (h2 : a ≤ b) (h3 : b ≤ infinity) :
    FailSoft a b (below false depth p d1 a1 b1) (below true depth p d1 a b) := by
  cases depth with
  | zero => exact failSoft_refl _ _ _
  | succ n => exact searchValue_failSoft d0 hb0 n d1 (!p) a b a1 b1 hd1 h1 h2 h3

end AI

namespace AI

theorem rootInv_step (p : Bool) (vA vE : Locals) (h : RootInv p vA vE) (i j : Int)
    (hi : 0 ≤ i) (w s : Int) (hw : -infinity < w ∧ w < infinity)
    (hfs : FailSoft vA.alpha vA.beta w s) :
    RootInv p (improve true p i j s vA) (improve false p i j w vE) := by
  obtain ⟨aA, bA, cA, xA, yA, stA⟩ := vA
  obtain ⟨aE, bE, cE, xE, yE, stE⟩ := vE
  unfold RootInv at h
  unfold FailSoft at hfs
  simp only at h hfs
  obtain ⟨h1, h2, h3, h4, h5, h6, h7⟩ := h
  subst h1 h2 h3 h4 h5
  have hne : i ≠ -1 := by omega
  cases p with
  | true =>
    simp only [if_true] at h6 h7
    by_cases hE : cA < w
    · have hA : cA < s := by omega
      have hsw : s = w := by omega
      subst hsw
      rw [improve_first_lt true i j s _ hA, improve_first_lt false i j s _ hE]
      unfold RootInv
      have hcut : ¬ (max s aA > bA) := by omega
      simp only [Bool.false_and, Bool.false_eq_true, if_false, if_true, hne,
        false_implies, true_and, Bool.true_and, decide_eq_true_eq, hcut]
      omega
    · have hA : ¬ cA < s := by omega
      rw [improve_first_not_lt true i j s _ hA, improve_first_not_lt false i j w _ hE]
      unfold RootInv
      simp only [if_true, true_and]
      exact ⟨h6, h7⟩
  | false =>
    simp only [Bool.false_eq_true, if_false] at h6 h7
    by_cases hE : w < cA
    · have hA : s < cA := by omega
      have hsw : s = w := by omega
      subst hsw
      rw [improve_second_gt true i j s _ hA, improve_second_gt false i j s _ hE]
      unfold RootInv
      have hcut : ¬ (aA > min s bA) := by omega
      simp only [Bool.false_and, Bool.false_eq_true, if_false, if_true, hne,
        false_implies, true_and, Bool.true_and, decide_eq_true_eq, hcut]
      omega
    · have hA : ¬ s < cA := by omega
      rw [improve_second_not_gt true i j s _ hA, improve_second_not_gt false i j w _ hE]
      unfold RootInv
      simp only [Bool.false_eq_true, if_false, true_and]
      exact ⟨h6, h7⟩

theorem rootInv_window (p : Bool) (vA vE : Locals) (h : RootInv p vA vE) :
    -infinity ≤ vA.alpha ∧ vA.alpha ≤ vA.beta ∧ vA.beta ≤ infinity := by
  unfold RootInv at h
  obtain ⟨-, -, -, -, -, -, h7⟩ := h
  cases p <;> simp only [Bool.false_eq_true, if_false, if_true] at h7 <;> omega

theorem rootInv_fold (p : Bool) (belowA belowE : Desk → Int → Int → Int) (d0 : Desk)
    (hE : ∀ (d1 : Desk) (a b : Int), SameShape d0 d1 →
      -infinity < belowE d1 a b ∧ belowE d1 a b < infinity)
    (hfs : ∀ (d1 : Desk) (a b a1 b1 : Int), SameShape d0 d1 →
      -infinity ≤ a → a ≤ b → b ≤ infinity → FailSoft a b (belowE d1 a1 b1) (belowA d1 a b))
    (d : Desk) (hd : SameShape d0 d) (cs : Cells) (hcs : ∀ c ∈ cs, 0 ≤ c.1) :
    ∀ vA vE : Locals, RootInv p vA vE →
      RootInv p (cs.foldl (scanStep true belowA p d) vA)
        (cs.foldl (scanStep false belowE p d) vE) := by
  induction cs with
  | nil => intro vA vE h; exact h
  | cons c rest ih =>
    intro vA vE h
    rw [List.foldl_cons, List.foldl_cons]
    apply ih (fun c' hc' => hcs c' (List.mem_cons_of_mem _ hc'))
    by_cases hl : d.canMakeMove c.1 c.2 p = some true
    · rw [scanStep_legal false belowE p d vE c h.2.1 hl,
        scanStep_legal true belowA p d vA c h.1 hl]
      have hshape := sameShape_after d0 d hd c.1 c.2 p hl
      obtain ⟨w1, w2, w3⟩ := rootInv_window p vA vE h
      exact rootInv_step p vA vE h c.1 c.2 (hcs c (List.mem_cons_self _ _)) _ _
        (hE _ _ _ hshape) (hfs _ _ _ _ _ hshape w1 w2 w3)
    · rw [scanStep_illegal false belowE p d vE c hl, scanStep_illegal true belowA p d vA c hl]
      exact h

theorem rootInv_initial (p : Bool) :
    RootInv p (initialLocals p (-infinity) infinity) (initialLocals p (-infinity) infinity) := by
  unfold RootInv initialLocals
  cases p <;> simp [infinity]

/-- At the root window the pruned search and the exhaustive search end their scans with
the same value and the same coordinate, and return the same value. -/
theorem search_root_eq (d0 : Desk) (hb0 : EvalBounded d0) (depth : Nat) (d : Desk) (p : Bool)
    (hd : SameShape d0 d) :
    searchValue true depth d p (-infinity) infinity =
        searchValue false depth d p (-infinity) infinity ∧
      searchMove true depth d p (-infinity) infinity =
        searchMove false depth d p (-infinity) infinity := by
  have hinv := rootInv_fold p (below true depth p) (below false depth p) d0
    (below_bounded false d0 hb0 depth p)
    (fun d1 a b a1 b1 hd1 h1 h2 h3 => below_failSoft d0 hb0 depth p d1 a b a1 b1 hd1 h1 h2 h3)
    d hd d.cells (cells_nonneg d) _ _ (rootInv_initial p)
  have hw := rootInv_window p _ _ hinv
  obtain ⟨-, -, h3, h4, h5, h6, h7⟩ := hinv
  constructor
  · rw [searchValue_eq, searchValue_eq]
    unfold nodeValue nodeLocals
    by_cases hx : (List.foldl (scanStep true (below true depth p) p d)
        (initialLocals p (-infinity) infinity) d.cells).current_extreme_x = -1
    · have hxE : (List.foldl (scanStep false (below false depth p) p d)
          (initialLocals p (-infinity) infinity) d.cells).current_extreme_x = -1 := by
        rw [← h4]; exact hx
      rw [if_pos hx, if_pos hxE]
      have hval := h6 hx
      have hfs := below_failSoft d0 hb0 depth p d
        (List.foldl (scanStep true (below true depth p) p d)
          (initialLocals p (-infinity) infinity) d.cells).alpha
        (List.foldl (scanStep true (below true depth p) p d)
          (initialLocals p (-infinity) infinity) d.cells).beta
        (List.foldl (scanStep false (below false depth p) p d)
          (initialLocals p (-infinity) infinity) d.cells).alpha
        (List.foldl (scanStep false (below false depth p) p d)
          (initialLocals p (-infinity) infinity) d.cells).beta hd hw.1 hw.2.1 hw.2.2
      have hbE := below_bounded false d0 hb0 depth p d
        (List.foldl (scanStep false (below false depth p) p d)
          (initialLocals p (-infinity) infinity) d.cells).alpha
        (List.foldl (scanStep false (below false depth p) p d)
          (initialLocals p (-infinity) infinity) d.cells).beta hd
      unfold FailSoft at hfs
      cases p <;> simp only [Bool.false_eq_true, if_false, if_true] at h7 hval <;> omega
    · have hxE : ¬ (List.foldl (scanStep false (below false depth p) p d)
          (initialLocals p (-infinity) infinity) d.cells).current_extreme_x = -1 := by
        rw [← h4]; exact hx
      rw [if_neg hx, if_neg hxE]
      exact h3
  · unfold searchMove nodeLocals
    rw [h4, h5]

theorem improve_false_interruption (p : Bool) (i j e : Int) (v : Locals) :
    (improve false p i j e v).alpha_beta_interruption = v.alpha_beta_interruption := by
  unfold improve
  split <;> simp

/-- The exhaustive search does not depend on the window it is entered with. -/
theorem nodeLocals_exhaustive_window (below : Desk → Int → Int → Int)
    (hind : ∀ (d1 : Desk) (a b a1 b1 : Int), below d1 a b = below d1 a1 b1)
    (p : Bool) (d : Desk) (cs : Cells) :
    ∀ v v1 : Locals,
      v.alpha_beta_interruption = false → v1.alpha_beta_interruption = false →
      v.current_extreme_value = v1.current_extreme_value →
      v.current_extreme_x = v1.current_extreme_x →
      v.current_extreme_y = v1.current_extreme_y →
      (cs.foldl (scanStep false below p d) v).current_extreme_value =
          (cs.foldl (scanStep false below p d) v1).current_extreme_value ∧
        (cs.foldl (scanStep false below p d) v).current_extreme_x =
          (cs.foldl (scanStep false below p d) v1).current_extreme_x ∧
        (cs.foldl (scanStep false below p d) v).current_extreme_y =
          (cs.foldl (scanStep false below p d) v1).current_extreme_y := by
  induction cs with
  | nil => intro v v1 _ _ h1 h2 h3; exact ⟨h1, h2, h3⟩
  | cons c rest ih =>
    intro v v1 hs hs1 h1 h2 h3
    rw [List.foldl_cons, List.foldl_cons]
    by_cases hl : d.canMakeMove c.1 c.2 p = some true
    · rw [scanStep_legal false below p d v c hs hl, scanStep_legal false below p d v1 c hs1 hl]
      rw [hind (d.after c.1 c.2 p) v.alpha v.beta v1.alpha v1.beta]
      apply ih
      · rw [improve_false_interruption]; exact hs
      · rw [improve_false_interruption]; exact hs1
      · unfold improve; rw [h1]; split <;> simp [h1]
      · unfold improve; rw [h1]; split <;> simp [h2]
      · unfold improve; rw [h1]; split <;> simp [h3]
    · rw [scanStep_illegal false below p d v c hl, scanStep_illegal false below p d v1 c hl]
      exact ih v v1 hs hs1 h1 h2 h3

theorem searchValue_exhaustive_window (depth : Nat) :
    ∀ (d : Desk) (p : Bool) (a b a1 b1 : Int),
      searchValue false depth d p a b = searchValue false depth d p a1 b1 := by
  induction depth with
  | zero =>
    intro d p a b a1 b1
    rw [searchValue_eq, searchValue_eq]
    have h := nodeLocals_exhaustive_window (below false 0 p) (fun _ _ _ _ _ => rfl) p d d.cells
      (initialLocals p a b) (initialLocals p a1 b1) rfl rfl rfl rfl rfl
    unfold nodeValue nodeLocals
    rw [h.1, h.2.1]
    rfl
  | succ n ih =>
    intro d p a b a1 b1
    rw [searchValue_eq, searchValue_eq]
    have hind : ∀ (d1 : Desk) (a b a1 b1 : Int),
        below false (n + 1) p d1 a b = below false (n + 1) p d1 a1 b1 :=
      fun d1 a b a1 b1 => ih d1 (!p) a b a1 b1
    have h := nodeLocals_exhaustive_window (below false (n + 1) p) hind p d d.cells
      (initialLocals p a b) (initialLocals p a1 b1) rfl rfl rfl rfl rfl
    unfold nodeValue nodeLocals
    rw [h.1, h.2.1]
    split
    · exact hind _ _ _ _ _
    · rfl

theorem below_exhaustive_window (depth : Nat) (p : Bool) (d1 : Desk) (a b a1 b1 : Int) :
    below false depth p d1 a b = below false depth p d1 a1 b1 := by
  cases depth with
  | zero => rfl
  | succ n => exact searchValue_exhaustive_window n d1 (!p) a b a1 b1

end AI

namespace Desk

/-- The scan order of the grid is the lexicographic order: lowest `x`, then lowest `y`. -/
theorem cells_sorted (d : Desk) :
    d.cells.Pairwise (fun a b => a.1 < b.1 ∨ (a.1 = b.1 ∧ a.2 < b.2)) := by
  unfold cells
  rw [List.pairwise_flatMap]
  constructor
  · intro i _
    rw [List.pairwise_map]
    apply List.Pairwise.imp _ (List.pairwise_lt_range _)
    intro a b hab
    right
    exact ⟨rfl, by simpa using hab⟩
  · apply List.Pairwise.imp _ (List.pairwise_lt_range _)
    intro a b hab x hx y hy
    left
    simp only [List.mem_map, List.mem_range] at hx hy
    obtain ⟨_, _, rfl⟩ := hx
    obtain ⟨_, _, rfl⟩ := hy
    simpa using hab

end Desk

namespace AI

/-- The scan of the exhaustive node keeps the first best candidate of the cells scanned
so far. -/
theorem exhaustive_fold_firstBest (below : Desk → Int → Int → Int) (d0 : Desk)
    (hE : ∀ (d1 : Desk) (a b : Int), SameShape d0 d1 →
      -infinity < below d1 a b ∧ below d1 a b < infinity)
    (hind : ∀ (d1 : Desk) (a b a1 b1 : Int), below d1 a b = below d1 a1 b1)
    (p : Bool) (d : Desk) (hd : SameShape d0 d) (cs : Cells) :
    ∀ (pre : Cells) (v : Locals),
      (pre ++ cs).Pairwise (fun a b => a.1 < b.1 ∨ (a.1 = b.1 ∧ a.2 < b.2)) →
      (∀ c ∈ pre ++ cs, 0 ≤ c.1) →
      v.alpha_beta_interruption = false →
      (v.current_extreme_x = -1 →
        (v.current_extreme_value = if p then -infinity else infinity) ∧
          ∀ c ∈ pre, d.canMakeMove c.1 c.2 p ≠ some true) →
      (v.current_extreme_x ≠ -1 →
        FirstBest p d (fun c => below (d.after c.1 c.2 p) (-infinity) infinity) pre
          (v.current_extreme_x, v.current_extreme_y) v.current_extreme_value) →
      ((cs.foldl (scanStep false below p d) v).current_extreme_x = -1 →
        ∀ c ∈ pre ++ cs, d.canMakeMove c.1 c.2 p ≠ some true) ∧
      ((cs.foldl (scanStep false below p d) v).current_extreme_x ≠ -1 →
        FirstBest p d (fun c => below (d.after c.1 c.2 p) (-infinity) infinity) (pre ++ cs)
          ((cs.foldl (scanStep false below p d) v).current_extreme_x,
           (cs.foldl (scanStep false below p d) v).current_extreme_y)
          (cs.foldl (scanStep false below p d) v).current_extreme_value) := by
  induction cs with
  | nil =>
    intro pre v _ _ _ h1 h2
    simp only [List.append_nil, List.foldl_nil]
    exact ⟨fun hx => (h1 hx).2, h2⟩
  | cons c rest ih =>
    intro pre v hsort hnn hst h1 h2
    rw [List.foldl_cons]
    have happ : pre ++ c :: rest = (pre ++ [c]) ++ rest := by simp
    rw [happ] at hsort hnn ⊢
    have hc0 : 0 ≤ c.1 := hnn c (by simp)
    have hcne : c.1 ≠ -1 := by omega
    have hpre_lt : ∀ c' ∈ pre, c'.1 < c.1 ∨ (c'.1 = c.1 ∧ c'.2 < c.2) := by
      intro c' hc'
      have h := (List.pairwise_append.mp (List.pairwise_append.mp hsort).1).2.2
      exact h c' hc' c (by simp)
    by_cases hl : d.canMakeMove c.1 c.2 p = some true
    · have hshape := sameShape_after d0 d hd c.1 c.2 p hl
      have hval : below (d.after c.1 c.2 p) v.alpha v.beta =
          below (d.after c.1 c.2 p) (-infinity) infinity := hind _ _ _ _ _
      have hbd := hE (d.after c.1 c.2 p) (-infinity) infinity hshape
      rw [scanStep_legal false below p d v c hst hl, hval]
      apply ih (pre ++ [c]) _ hsort hnn
      · rw [improve_false_interruption]; exact hst
      · intro hx
        exfalso
        by_cases hvx : v.current_extreme_x = -1
        · have hv := (h1 hvx).1
          cases p with
          | true =>
            simp only [if_true] at hv
            rw [improve_first_lt false _ _ _ _ (by omega)] at hx
            exact hcne hx
          | false =>
            simp only [Bool.false_eq_true, if_false] at hv
            rw [improve_second_gt false _ _ _ _ (by omega)] at hx
            exact hcne hx
        · rcases improve_cases false p c.1 c.2
            (below (d.after c.1 c.2 p) (-infinity) infinity) v with h | h
          · rw [h] at hx
            exact hvx hx
          · rw [h.2.1] at hx
            exact hcne hx
      · intro _
        by_cases hvx : v.current_extreme_x = -1
        · obtain ⟨hv, hnone⟩ := h1 hvx
          have himp : improve false p c.1 c.2
              (below (d.after c.1 c.2 p) (-infinity) infinity) v =
              { alpha := (improve false p c.1 c.2
                  (below (d.after c.1 c.2 p) (-infinity) infinity) v).alpha
                beta := (improve false p c.1 c.2
                  (below (d.after c.1 c.2 p) (-infinity) infinity) v).beta
                current_extreme_value := below (d.after c.1 c.2 p) (-infinity) infinity
                current_extreme_x := c.1, current_extreme_y := c.2
                alpha_beta_interruption := false } := by
            cases p with
            | true =>
              simp only [if_true] at hv
              rw [improve_first_lt false _ _ _ _ (by omega)]
              simp [hst]
            | false =>
              simp only [Bool.false_eq_true, if_false] at hv
              rw [improve_second_gt false _ _ _ _ (by omega)]
              simp [hst]
          rw [himp]
          simp only
          refine ⟨by simp, hl, rfl, ?_⟩
          intro c1 hc1 hl1
          rcases List.mem_append.mp hc1 with hc1 | hc1
          · exact absurd hl1 (hnone c1 hc1)
          · simp only [List.mem_singleton] at hc1
            subst hc1
            constructor
            · cases p <;> simp
            · intro _
              right
              exact ⟨rfl, le_refl _⟩
        · obtain ⟨hmem, hleg, hvv, hall⟩ := h2 hvx
          simp only at hmem hleg hvv hall
          have hbest_lt := hpre_lt _ hmem
          simp only at hbest_lt
          cases p with
          | true =>
            by_cases hlt : v.current_extreme_value <
                below (d.after c.1 c.2 true) (-infinity) infinity
            · rw [improve_first_lt false _ _ _ _ hlt]
              simp only
              refine ⟨by simp, hl, rfl, ?_⟩
              intro c1 hc1 hl1
              rcases List.mem_append.mp hc1 with hc1 | hc1
              · have := (hall c1 hc1 hl1).1
                simp only [if_true] at this ⊢
                constructor
                · omega
                · intro heq
                  omega
              · simp only [List.mem_singleton] at hc1
                subst hc1
                simp
            · rw [improve_first_not_lt false _ _ _ _ hlt]
              refine ⟨by simp [hmem], hleg, hvv, ?_⟩
              intro c1 hc1 hl1
              rcases List.mem_append.mp hc1 with hc1 | hc1
              · exact hall c1 hc1 hl1
              · simp only [List.mem_singleton] at hc1
                subst hc1
                simp only [if_true]
                constructor
                · omega
                · intro _
                  omega
          | false =>
            by_cases hlt : below (d.after c.1 c.2 false) (-infinity) infinity <
                v.current_extreme_value
            · rw [improve_second_gt false _ _ _ _ hlt]
              simp only
              refine ⟨by simp, hl, rfl, ?_⟩
              intro c1 hc1 hl1
              rcases List.mem_append.mp hc1 with hc1 | hc1
              · have := (hall c1 hc1 hl1).1
                simp only [Bool.false_eq_true, if_false] at this ⊢
                constructor
                · omega
                · intro heq
                  omega
              · simp only [List.mem_singleton] at hc1
                subst hc1
                simp
            · rw [improve_second_not_gt false _ _ _ _ hlt]
              refine ⟨by simp [hmem], hleg, hvv, ?_⟩
              intro c1 hc1 hl1
              rcases List.mem_append.mp hc1 with hc1 | hc1
              · exact hall c1 hc1 hl1
              · simp only [List.mem_singleton] at hc1
                subst hc1
                simp only [Bool.false_eq_true, if_false]
                constructor
                · omega
                · intro _
                  omega
    · rw [scanStep_illegal false below p d v c hl]
      apply ih (pre ++ [c]) v hsort hnn hst
      · intro hx
        refine ⟨(h1 hx).1, ?_⟩
        intro c1 hc1
        rcases List.mem_append.mp hc1 with hc1 | hc1
        · exact (h1 hx).2 c1 hc1
        · simp only [List.mem_singleton] at hc1
          subst hc1
          exact hl
      · intro hx
        obtain ⟨hmem, hleg, hvv, hall⟩ := h2 hx
        refine ⟨by simp [hmem], hleg, hvv, ?_⟩
        intro c1 hc1 hl1
        rcases List.mem_append.mp hc1 with hc1 | hc1
        · exact hall c1 hc1 hl1
        · simp only [List.mem_singleton] at hc1
          subst hc1
          exact absurd hl1 hl

/-- The coordinate the exhaustive root ends its scan with is the first best candidate of
the grid when there is a legal placement, and `(-1, -1)` when there is none. -/
theorem searchMove_exhaustive (d0 : Desk) (hb0 : EvalBounded d0) (depth : Nat) (d : Desk)
    (p : Bool) (hd : SameShape d0 d) (alpha beta : Int) :
    ((nodeLocals false (below false depth p) p d alpha beta).current_extreme_x = -1 →
      ∀ c ∈ d.cells, d.canMakeMove c.1 c.2 p ≠ some true) ∧
    ((nodeLocals false (below false depth p) p d alpha beta).current_extreme_x ≠ -1 →
      FirstBest p d (fun c => below false depth p (d.after c.1 c.2 p) (-infinity) infinity)
        d.cells (searchMove false depth d p alpha beta)
        (nodeLocals false (below false depth p) p d alpha beta).current_extreme_value) := by
  have h := exhaustive_fold_firstBest (below false depth p) d0
    (below_bounded false d0 hb0 depth p) (below_exhaustive_window depth p) p d hd d.cells []
    (initialLocals p alpha beta)
    (by simpa using Desk.cells_sorted d)
    (by simpa using cells_nonneg d)
    rfl
    (by intro _; exact ⟨rfl, by simp⟩)
    (by intro hx; exact absurd rfl hx)
  simpa using h

end AI

namespace Desk

theorem blank_rectangular (w h : Nat) :
    (⟨List.replicate w (List.replicate h ST_EMPTY)⟩ : Desk).Rectangular := by
  intro column hc
  have := List.eq_of_mem_replicate hc
  subst this
  unfold getHeight
  cases w with
  | zero => simp at hc
  | succ n => simp [List.replicate_succ]

theorem blank_getWidth (w h : Nat) :
    (⟨List.replicate w (List.replicate h ST_EMPTY)⟩ : Desk).getWidth = w := by
  simp [getWidth]

theorem blank_getHeight (w h : Nat) (hw : 0 < w) :
    (⟨List.replicate w (List.replicate h ST_EMPTY)⟩ : Desk).getHeight = h := by
  unfold getHeight
  cases w with
  | zero => omega
  | succ n => simp [List.replicate_succ]

theorem setCell_on_desk (d : Desk) (hr : d.Rectangular) (x y : Int) (state : CellState)
    (h : d.isOnDesk x y = true) :
    ∃ d1, d.setCell x y state = some d1 ∧ d1.Rectangular ∧ d1.getWidth = d.getWidth ∧
      d1.getHeight = d.getHeight ∧
      ∀ a b : Int, d1.getState a b = if a = x ∧ b = y then some state else d.getState a b := by
  obtain ⟨s, hs⟩ := getState_of_isOnDesk d hr x y h
  obtain ⟨d1, hd1⟩ := setCell_of_getState d x y s state hs
  exact ⟨d1, hd1, rectangular_setCell d d1 hr x y state hd1, getWidth_setCell d d1 x y state hd1,
    getHeight_setCell d d1 x y state hd1, getState_setCell d d1 x y state hd1⟩

/-- The function `newDesk(width, height)` succeeds for a board at least two cells wide and high, and
gives a rectangular board of those dimensions. -/
theorem newDesk_shape (width height : Int) (hw : 2 ≤ width) (hh : 2 ≤ height) :
    ∃ d, newDesk width height = some d ∧ d.Rectangular ∧ d.getWidth = width ∧
      d.getHeight = height := by
  have hw0 : (width.toNat : Int) = width := Int.toNat_of_nonneg (by omega)
  have hh0 : (height.toNat : Int) = height := Int.toNat_of_nonneg (by omega)
  have hx : (width - 1).tdiv 2 = (width - 1) / 2 := Int.tdiv_eq_ediv (by omega) (by omega)
  have hy : (height - 1).tdiv 2 = (height - 1) / 2 := Int.tdiv_eq_ediv (by omega) (by omega)
  have hr0 := blank_rectangular width.toNat height.toNat
  have hW0 := blank_getWidth width.toNat height.toNat
  have hH0 := blank_getHeight width.toNat height.toNat (by omega)
  obtain ⟨d1, e1, r1, w1, h1, -⟩ := setCell_on_desk _ hr0 ((width - 1).tdiv 2)
    ((height - 1).tdiv 2) ST_SECOND_PLAYER
    (by rw [isOnDesk_iff, hW0, hH0, hx, hy]; omega)
  obtain ⟨d2, e2, r2, w2, h2, -⟩ := setCell_on_desk d1 r1 ((width - 1).tdiv 2 + 1)
    ((height - 1).tdiv 2 + 1) ST_SECOND_PLAYER
    (by rw [isOnDesk_iff, w1, h1, hW0, hH0, hx, hy]; omega)
  obtain ⟨d3, e3, r3, w3, h3, -⟩ := setCell_on_desk d2 r2 ((width - 1).tdiv 2)
    ((height - 1).tdiv 2 + 1) ST_FIRST_PLAYER
    (by rw [isOnDesk_iff, w2, h2, w1, h1, hW0, hH0, hx, hy]; omega)
  obtain ⟨d4, e4, r4, w4, h4, -⟩ := setCell_on_desk d3 r3 ((width - 1).tdiv 2 + 1)
    ((height - 1).tdiv 2) ST_FIRST_PLAYER
    (by rw [isOnDesk_iff, w3, h3, w2, h2, w1, h1, hW0, hH0, hx, hy]; omega)
  refine ⟨d4, ?_, r4, ?_, ?_⟩
  · unfold newDesk assign emptyColumn
    simp only [e1, e2, e3, e4]
  · rw [w4, w3, w2, w1, hW0, hw0]
  · rw [h4, h3, h2, h1, hH0, hh0]

/-- A cell write that succeeds on a rectangular board is at a coordinate of the grid. -/
theorem isOnDesk_of_setCell (d d1 : Desk) (hr : d.Rectangular) (x y : Int) (state : CellState)
    (h : d.setCell x y state = some d1) : d.isOnDesk x y = true := by
  rw [setCell_eq_some_iff] at h
  obtain ⟨hx, hy, column, hc, hlt, -⟩ := h
  have hs : d.getState x y = some (column.get ⟨y.toNat, hlt⟩) := by
    rw [getState_eq_some_iff]
    exact ⟨hx, hy, column, hc, List.getElem?_eq_getElem hlt⟩
  exact isOnDesk_of_getState d hr x y _ hs

/-- The function `newDesk(width, height)` builds a board only from 2 x 2 upward: for a
smaller width or height one of its centre writes is outside the grid. -/
theorem newDesk_some_dims (width height : Int) (d : Desk)
    (h : newDesk width height = some d) : 2 ≤ width ∧ 2 ≤ height := by
  have hr0 := blank_rectangular width.toNat height.toNat
  have hW0 := blank_getWidth width.toNat height.toNat
  unfold newDesk assign emptyColumn at h
  simp only at h
  cases e1 : (⟨List.replicate width.toNat (List.replicate height.toNat ST_EMPTY)⟩ :
      Desk).setCell ((width - 1).tdiv 2) ((height - 1).tdiv 2) ST_SECOND_PLAYER with
  | none => rw [e1] at h; cases h
  | some d1 =>
    rw [e1] at h
    simp only at h
    have on1 := isOnDesk_of_setCell _ d1 hr0 _ _ _ e1
    have r1 := rectangular_setCell _ d1 hr0 _ _ _ e1
    have w1 := getWidth_setCell _ d1 _ _ _ e1
    have h1 := getHeight_setCell _ d1 _ _ _ e1
    cases e2 : d1.setCell ((width - 1).tdiv 2 + 1) ((height - 1).tdiv 2 + 1)
        ST_SECOND_PLAYER with
    | none => rw [e2] at h; cases h
    | some d2 =>
      have on2 := isOnDesk_of_setCell d1 d2 r1 _ _ _ e2
      rw [isOnDesk_iff] at on1 on2
      rw [w1, h1] at on2
      rw [hW0] at on1 on2
      have hpos : 0 < width.toNat := by omega
      rw [blank_getHeight width.toNat height.toNat hpos] at on1 on2
      omega

theorem copyColumn_nil (other : Desk) (i : Int) (d : Desk) :
    copyColumn other i [] d = some d := rfl

theorem copyColumn_cons (other : Desk) (i : Int) (j : Nat) (rest : List Nat) (d : Desk) :
    copyColumn other i (j :: rest) d =
      match other.getState i j with
      | none => none
      | some s =>
        match d.setCell i j s with
        | none => none
        | some d1 => copyColumn other i rest d1 := rfl

theorem copyColumn_spec (other : Desk) (hro : other.Rectangular) (i : Int) (js : List Nat) :
    ∀ d : Desk, AI.SameShape other d →
      (∀ j ∈ js, other.isOnDesk i (j : Nat) = true) →
      ∃ d1, copyColumn other i js d = some d1 ∧ AI.SameShape other d1 ∧
        ∀ a b : Int, d1.getState a b =
          if a = i ∧ ∃ j ∈ js, b = (j : Nat) then other.getState a b else d.getState a b := by
  induction js with
  | nil =>
    intro d hd _
    exact ⟨d, rfl, hd, by simp⟩
  | cons j rest ih =>
    intro d hd hon
    have hj := hon j (List.mem_cons_self _ _)
    obtain ⟨s, hs⟩ := getState_of_isOnDesk other hro i j hj
    obtain ⟨hr, hw, hh⟩ := hd
    obtain ⟨d1, e1, r1, w1, h1, g1⟩ := setCell_on_desk d hr i j s
      (by unfold isOnDesk at hj ⊢; rw [hw, hh]; exact hj)
    obtain ⟨d2, e2, s2, g2⟩ := ih d1 ⟨r1, w1.trans hw, h1.trans hh⟩
      (fun j' hj' => hon j' (List.mem_cons_of_mem _ hj'))
    refine ⟨d2, ?_, s2, ?_⟩
    · rw [copyColumn_cons, hs]
      simp only [e1, e2]
    · intro a b
      rw [g2, g1]
      by_cases h1 : a = i ∧ ∃ j' ∈ rest, b = (j' : Nat)
      · obtain ⟨ha, j', hj', hb⟩ := h1
        have : a = i ∧ ∃ j'' ∈ j :: rest, b = (j'' : Nat) :=
          ⟨ha, j', List.mem_cons_of_mem _ hj', hb⟩
        rw [if_pos ⟨ha, j', hj', hb⟩, if_pos this]
      · rw [if_neg h1]
        by_cases h2 : a = i ∧ b = (j : Nat)
        · obtain ⟨ha, hb⟩ := h2
          have : a = i ∧ ∃ j'' ∈ j :: rest, b = (j'' : Nat) :=
            ⟨ha, j, List.mem_cons_self _ _, hb⟩
          rw [if_pos ⟨ha, hb⟩, if_pos this, ha, hb, hs]
        · rw [if_neg h2]
          have : ¬ (a = i ∧ ∃ j'' ∈ j :: rest, b = (j'' : Nat)) := by
            rintro ⟨ha, j'', hj'', hb⟩
            rcases List.mem_cons.mp hj'' with rfl | hj''
            · exact h2 ⟨ha, hb⟩
            · exact h1 ⟨ha, j'', hj'', hb⟩
          rw [if_neg this]

theorem copyColumns_nil (other : Desk) (d : Desk) : copyColumns other [] d = some d := rfl

theorem copyColumns_cons (other : Desk) (i : Nat) (rest : List Nat) (d : Desk) :
    copyColumns other (i :: rest) d =
      match copyColumn other i (List.range d.getHeight.toNat) d with
      | none => none
      | some d1 => copyColumns other rest d1 := rfl

theorem copyColumns_spec (other : Desk) (hro : other.Rectangular) (is : List Nat)
    (his : ∀ i ∈ is, (i : Int) < other.getWidth) :
    ∀ d : Desk, AI.SameShape other d →
      ∃ d1, copyColumns other is d = some d1 ∧ AI.SameShape other d1 ∧
        ∀ a b : Int, d1.getState a b =
          if (∃ i ∈ is, a = (i : Nat)) ∧ 0 ≤ b ∧ b < other.getHeight
          then other.getState a b else d.getState a b := by
  induction is with
  | nil =>
    intro d hd
    exact ⟨d, rfl, hd, by simp⟩
  | cons i rest ih =>
    intro d hd
    have hi := his i (List.mem_cons_self _ _)
    obtain ⟨d1, e1, s1, g1⟩ := copyColumn_spec other hro i (List.range d.getHeight.toNat) d hd
      (by
        intro j hj
        rw [List.mem_range] at hj
        rw [isOnDesk_iff]
        have := hd.2.2
        omega)
    obtain ⟨d2, e2, s2, g2⟩ := ih (fun i' hi' => his i' (List.mem_cons_of_mem _ hi')) d1 s1
    refine ⟨d2, ?_, s2, ?_⟩
    · rw [copyColumns_cons, e1]
      simp only [e2]
    · intro a b
      rw [g2, g1]
      have hh := hd.2.2
      by_cases h1 : (∃ i' ∈ rest, a = (i' : Nat)) ∧ 0 ≤ b ∧ b < other.getHeight
      · obtain ⟨⟨i', hi', ha⟩, hb⟩ := h1
        have : (∃ i'' ∈ i :: rest, a = (i'' : Nat)) ∧ 0 ≤ b ∧ b < other.getHeight :=
          ⟨⟨i', List.mem_cons_of_mem _ hi', ha⟩, hb⟩
        rw [if_pos ⟨⟨i', hi', ha⟩, hb⟩, if_pos this]
      · rw [if_neg h1]
        by_cases h2 : a = (i : Nat) ∧ ∃ j ∈ List.range d.getHeight.toNat, b = (j : Nat)
        · obtain ⟨ha, j, hj, hb⟩ := h2
          rw [List.mem_range] at hj
          have : (∃ i'' ∈ i :: rest, a = (i'' : Nat)) ∧ 0 ≤ b ∧ b < other.getHeight :=
            ⟨⟨i, List.mem_cons_self _ _, ha⟩, by omega, by omega⟩
          rw [if_pos ⟨ha, j, List.mem_range.mpr hj, hb⟩, if_pos this]
        · rw [if_neg h2]
          have : ¬ ((∃ i'' ∈ i :: rest, a = (i'' : Nat)) ∧ 0 ≤ b ∧ b < other.getHeight) := by
            rintro ⟨⟨i'', hi'', ha⟩, hb0, hb1⟩
            rcases List.mem_cons.mp hi'' with rfl | hi''
            · apply h2
              refine ⟨ha, b.toNat, ?_, ?_⟩
              · rw [List.mem_range]; omega
              · omega
            · exact h1 ⟨⟨i'', hi'', ha⟩, hb0, hb1⟩
          rw [if_neg this]

/-- The function `copyDesk` of a rectangular board at least two cells wide and high is that board. -/
theorem copyDesk_eq (other : Desk) (hro : other.Rectangular) (hw : 2 ≤ other.getWidth)
    (hh : 2 ≤ other.getHeight) : copyDesk other = some other := by
  obtain ⟨d, e, r, w, h⟩ := newDesk_shape other.getWidth other.getHeight hw hh
  obtain ⟨d1, e1, s1, g1⟩ := copyColumns_spec other hro (List.range d.getWidth.toNat)
    (by intro i hi; rw [List.mem_range] at hi; omega) d ⟨r, w, h⟩
  have heq : d1 = other := by
    apply ext_getState
    · exact s1.2.1
    · intro a b
      rw [g1]
      by_cases hon : other.isOnDesk a b = true
      · rw [isOnDesk_iff] at hon
        have : (∃ i ∈ List.range d.getWidth.toNat, a = (i : Nat)) ∧ 0 ≤ b ∧
            b < other.getHeight := by
          refine ⟨⟨a.toNat, ?_, ?_⟩, hon.2.2.1, hon.2.2.2⟩
          · rw [List.mem_range]; omega
          · omega
        rw [if_pos this]
      · have hoff : other.isOnDesk a b = false := by simpa using hon
        have hoffd : d.isOnDesk a b = false := by
          unfold isOnDesk at hoff ⊢
          rw [w, h]
          exact hoff
        have : ¬ ((∃ i ∈ List.range d.getWidth.toNat, a = (i : Nat)) ∧ 0 ≤ b ∧
            b < other.getHeight) := by
          rintro ⟨⟨i, hi, ha⟩, hb0, hb1⟩
          rw [List.mem_range] at hi
          apply hon
          rw [isOnDesk_iff]
          omega
        rw [if_neg this, getState_eq_none_of_not_isOnDesk d r a b hoffd,
          getState_eq_none_of_not_isOnDesk other hro a b hoff]
  unfold copyDesk
  rw [e]
  simp only [e1, heq]

end Desk

namespace AI

theorem sameShape_self (d : Desk) (hr : d.Rectangular) : SameShape d d := ⟨hr, rfl, rfl⟩

/-- The root call of the pruned search: it returns, restores the state, and records the
coordinate `searchMove`. -/
theorem miniMax_root (D : Nat) (s : State) (chosen : Int × Int) (p : Bool) (alpha beta : Int)
    (hr : s.ai_calculation_desk.Rectangular) (hroot : s.minimax_depth = D) (cutoff : Bool) :
    miniMaxWith cutoff D s chosen p alpha beta =
      some (searchValue cutoff D s.ai_calculation_desk p alpha beta, s,
        searchMove cutoff D s.ai_calculation_desk p alpha beta) := by
  obtain ⟨ch2, h1, h2, -⟩ := miniMaxWith_eq cutoff D s chosen p alpha beta hr
  rw [h1, h2 hroot.symm]

/-- With a legal placement on the board, the coordinate the pruned root records is the
first best candidate of the grid with respect to the exhaustive values below the root. -/
theorem searchMove_root (d : Desk) (hr : d.Rectangular) (hb : EvalBounded d) (D : Nat)
    (p : Bool) (hex : ∃ x y : Int, d.canMakeMove x y p = some true) :
    FirstBest p d (fun c => below false D p (d.after c.1 c.2 p) (-infinity) infinity)
      d.cells (searchMove true D d p (-infinity) infinity)
      (searchValue true D d p (-infinity) infinity) := by
  obtain ⟨hv, hm⟩ := search_root_eq d hb D d p (sameShape_self d hr)
  obtain ⟨h1, h2⟩ := searchMove_exhaustive d hb D d p (sameShape_self d hr)
    (-infinity) infinity
  have hx : (nodeLocals false (below false D p) p d (-infinity) infinity).current_extreme_x ≠
      -1 := by
    intro hx
    obtain ⟨x, y, hl⟩ := hex
    have hmem : (x, y) ∈ d.cells := by
      rw [Desk.mem_cells]
      exact Desk.isOnDesk_of_canMakeMove d x y p hl
    exact h1 hx (x, y) hmem hl
  have := h2 hx
  rw [hv, hm, searchValue_eq]
  unfold nodeValue
  rw [if_neg hx]
  exact this

/-- What `subtreeValue` is on a rectangular board after a legal placement. -/
theorem subtreeValue_eq (D : Nat) (s : State) (p : Bool) (x y : Int)
    (hr : s.ai_calculation_desk.Rectangular)
    (hl : s.ai_calculation_desk.canMakeMove x y p = some true) :
    subtreeValue D s p x y =
      some (below false D p (s.ai_calculation_desk.after x y p) (-infinity) infinity) := by
  obtain ⟨_, -, -, hr2, -, -, -⟩ := Desk.makeMove_after s.ai_calculation_desk hr x y p none hl
  cases D with
  | zero =>
    unfold subtreeValue
    simp only
    rw [evaluatePosition_eq _ hr2]
    rfl
  | succ n =>
    unfold subtreeValue exhaustiveMiniMax
    simp only
    obtain ⟨ch2, h1, -, -⟩ := miniMaxWith_eq false n
      { s with ai_calculation_desk := s.ai_calculation_desk.after x y p } (-1, -1) (!p)
      (-infinity) infinity hr2
    rw [h1]
    rfl

/-- Without a legal placement the scan leaves the locals as they were. -/
theorem foldl_scanStep_no_move (cutoff : Bool) (below : Desk → Int → Int → Int) (p : Bool)
    (d : Desk) (hno : ∀ x y : Int, d.canMakeMove x y p ≠ some true) (cs : Cells)
    (v : Locals) : cs.foldl (scanStep cutoff below p d) v = v := by
  induction cs with
  | nil => rfl
  | cons c rest ih =>
    rw [List.foldl_cons, scanStep_illegal cutoff below p d v c (hno c.1 c.2), ih]

theorem nodeValue_no_move (cutoff : Bool) (below : Desk → Int → Int → Int) (p : Bool)
    (d : Desk) (hno : ∀ x y : Int, d.canMakeMove x y p ≠ some true) (alpha beta : Int) :
    nodeValue cutoff below p d alpha beta = below d alpha beta := by
  unfold nodeValue nodeLocals
  rw [foldl_scanStep_no_move cutoff below p d hno]
  simp [initialLocals]

theorem deepen_succ (clock : Nat → Int) (t0 : Int) (p : Bool) (fuel k : Nat) (s : State)
    (chosen : Int × Int) :
    deepen clock t0 p (fuel + 1) k s chosen =
      if within_budget t0 (clock k) && decide (s.minimax_depth < minimax_max_depth) then
        match miniMax (s.minimax_depth + 1) { s with minimax_depth := s.minimax_depth + 1 }
            chosen p (-infinity) infinity with
        | none => none
        | some (_, s1, chosen1) => deepen clock t0 p fuel (k + 1) s1 chosen1
      else some (s, chosen) := rfl

/-- The deepening loop ends within its fuel, at some depth up to the maximum, with the
coordinate the root search of that depth records (or the given one if it never ran). -/
theorem deepen_spec (clock : Nat → Int) (t0 : Int) (p : Bool) (d : Desk) (hr : d.Rectangular)
    (history : List Move) (fuel : Nat) :
    ∀ (k D : Nat) (chosen : Int × Int), minimax_max_depth - D < fuel →
      ∃ D1 : Nat, D ≤ D1 ∧ (D ≤ minimax_max_depth → D1 ≤ minimax_max_depth) ∧
        deepen clock t0 p fuel k ⟨D, d, history⟩ chosen =
          some (⟨D1, d, history⟩,
            if D1 = D then chosen else searchMove true D1 d p (-infinity) infinity) := by
  induction fuel with
  | zero => intro k D chosen h; omega
  | succ fuel ih =>
    intro k D chosen hfuel
    rw [deepen_succ]
    by_cases hc : (within_budget t0 (clock k) && decide (D < minimax_max_depth)) = true
    · simp only [hc, if_true]
      have hD : D < minimax_max_depth := by
        simp only [Bool.and_eq_true, decide_eq_true_eq] at hc
        exact hc.2
      have hroot := miniMax_root (D + 1) ⟨D + 1, d, history⟩ chosen p (-infinity) infinity hr rfl
        true
      unfold miniMax
      simp only at hroot ⊢
      rw [hroot]
      simp only
      obtain ⟨D1, h1, h2, h3⟩ := ih (k + 1) (D + 1)
        (searchMove true (D + 1) d p (-infinity) infinity) (by omega)
      refine ⟨D1, by omega, fun _ => h2 (by omega), ?_⟩
      rw [h3]
      by_cases h4 : D1 = D + 1
      · subst h4
        simp
      · have : D1 ≠ D := by omega
        simp [h4, this]
    · simp only [hc, Bool.false_eq_true, if_false]
      exact ⟨D, le_refl _, fun h => h, by simp⟩

theorem chooseMove_eq_def (clock : Nat → Int) (s : State) (chosen : Int × Int)
    (desk : Desk) (p : Bool) :
    chooseMove clock s chosen desk p =
      match Desk.copyDesk desk with
      | none => none
      | some d =>
        match miniMax minimax_base_depth
            { s with minimax_depth := minimax_base_depth, ai_calculation_desk := d }
            chosen p (-infinity) infinity with
        | none => none
        | some (_, s1, chosen1) =>
          deepen clock (clock 0) p (minimax_max_depth + 1) 1 s1 chosen1 := rfl

/-- The function `chooseMove` on a rectangular board at least two cells wide and high returns the
coordinate that the root search of some depth between the base depth and the maximum
depth records on that board. -/
theorem chooseMove_spec (clock : Nat → Int) (s : State) (chosen : Int × Int)
    (desk : Desk) (p : Bool) (hr : desk.Rectangular) (hw : 2 ≤ desk.getWidth)
    (hh : 2 ≤ desk.getHeight) :
    ∃ D : Nat, minimax_base_depth ≤ D ∧ D ≤ minimax_max_depth ∧
      chooseMove clock s chosen desk p =
        some (⟨D, desk, s.virtual_moves_history⟩,
          searchMove true D desk p (-infinity) infinity) := by
  rw [chooseMove_eq_def, Desk.copyDesk_eq desk hr hw hh]
  simp only
  have hroot := miniMax_root minimax_base_depth
    ⟨minimax_base_depth, desk, s.virtual_moves_history⟩ chosen p (-infinity) infinity hr rfl true
  unfold miniMax
  simp only at hroot ⊢
  rw [hroot]
  simp only
  obtain ⟨D1, h1, h2, h3⟩ := deepen_spec clock (clock 0) p desk hr s.virtual_moves_history
    (minimax_max_depth + 1) 1 minimax_base_depth
    (searchMove true minimax_base_depth desk p (-infinity) infinity)
    (by unfold minimax_max_depth minimax_base_depth; omega)
  refine ⟨D1, h1, h2 (by unfold minimax_max_depth minimax_base_depth; omega), ?_⟩
  rw [h3]
  by_cases h4 : D1 = minimax_base_depth
  · subst h4
    simp
  · simp [h4]

end AI

namespace Examples

theorem line_rectangular : line.Rectangular := by decide

theorem strip_rectangular : strip.Rectangular := by decide

theorem strip_evalBounded : AI.EvalBounded strip :=
  AI.evalBounded_of_small strip (by decide)

theorem line_evalBounded : AI.EvalBounded line :=
  AI.evalBounded_of_small line (by decide)

theorem line_second_blocked : ∀ x y : Int, line.canMakeMove x y false ≠ some true := by
  intro x y h
  obtain ⟨b, hb, hiff⟩ := Desk.canMakeMoveAnywhere_spec line line_rectangular false
  have hfalse : line.canMakeMoveAnywhere false = some false := by decide
  rw [hfalse] at hb
  have hb' : b = false := (Option.some.inj hb).symm
  subst hb'
  have := hiff.mpr ⟨x, y, h⟩
  cases this

end Examples

namespace Desk

/-- C1: on a rectangular board, for all integers `x`, `y` and both players,
`canMakeMove(x, y, p)` returns, and returns `true` if and only if `(x, y)` is on the
grid, the cell is empty, and for one of the eight directions and some `k ≥ 1` the `k`
cells at distances `1..k` are on the grid and the opponent's and the cell at distance
`k + 1` is on the grid and the player's own.  Each direction contributes (`isReversible`
is `true`) exactly when it satisfies that capture condition; in particular a direction
whose adjacent cell is not an opponent cell, or whose opponent run reaches the grid
boundary or an empty cell first, does not contribute. -/
theorem canMakeMove_iff_captures (d : Desk) (hr : d.Rectangular) (x y : Int) (p : Bool) :
    (∃ b : Bool, d.canMakeMove x y p = some b ∧
      (b = true ↔
        d.isOnDesk x y = true ∧ d.getState x y = some ST_EMPTY ∧
          ∃ direction ∈ Directions.all, ∃ k : Nat, d.Captures x y direction p k)) ∧
    (∀ direction ∈ Directions.all, ∃ b : Bool, d.isReversible x y direction p = some b ∧
      (b = true ↔ ∃ k : Nat, d.Captures x y direction p k)) ∧
    (∀ direction ∈ Directions.all,
      ¬ (d.isOnDesk (Directions.cellAt direction 1 x y).1
            (Directions.cellAt direction 1 x y).2 = true ∧
          d.getState (Directions.cellAt direction 1 x y).1
            (Directions.cellAt direction 1 x y).2 = some (opponentState p)) →
      d.isReversible x y direction p = some false) ∧
    (∀ direction ∈ Directions.all, ∀ n : Nat,
      (∀ i : Nat, 1 ≤ i → i ≤ n →
        d.getState (Directions.cellAt direction i x y).1
          (Directions.cellAt direction i x y).2 = some (opponentState p)) →
      (d.isOnDesk (Directions.cellAt direction (n + 1) x y).1
            (Directions.cellAt direction (n + 1) x y).2 = false ∨
        d.getState (Directions.cellAt direction (n + 1) x y).1
            (Directions.cellAt direction (n + 1) x y).2 = some ST_EMPTY) →
      d.isReversible x y direction p = some false) := by
  refine ⟨?_, ?_, ?_, ?_⟩
  · obtain ⟨b, hb, hiff⟩ := canMakeMove_spec d hr x y p
    refine ⟨b, hb, ?_⟩
    rw [hiff]
    constructor
    · rintro ⟨h1, h2, e, he, hk⟩
      exact ⟨h1, h2, e, (Directions.mem_all e).mpr he, hk⟩
    · rintro ⟨h1, h2, e, he, hk⟩
      exact ⟨h1, h2, e, (Directions.mem_all e).mp he, hk⟩
  · intro direction hdir
    exact isReversible_iff d hr x y direction ((Directions.mem_all direction).mp hdir) p
  · intro direction hdir hnot
    obtain ⟨b, hb, hiff⟩ :=
      isReversible_iff d hr x y direction ((Directions.mem_all direction).mp hdir) p
    cases b with
    | false => exact hb
    | true =>
      obtain ⟨k, hk⟩ := hiff.mp rfl
      exact absurd (hk.2.1 1 (le_refl 1) hk.1) hnot
  · intro direction hdir n hrun hend
    obtain ⟨b, hb, hiff⟩ :=
      isReversible_iff d hr x y direction ((Directions.mem_all direction).mp hdir) p
    cases b with
    | false => exact hb
    | true =>
      exfalso
      obtain ⟨k, hk⟩ := hiff.mp rfl
      have hstop : d.getState (Directions.cellAt direction (n + 1) x y).1
          (Directions.cellAt direction (n + 1) x y).2 ≠ some (opponentState p) := by
        rcases hend with h | h
        · rw [getState_eq_none_of_not_isOnDesk d hr _ _ h]
          simp
        · rw [h]
          intro hh
          exact opponentState_ne_empty p (Option.some.inj hh).symm
      have hkn := captures_run_length d x y direction p k n hk
        (fun i hi => hrun (i + 1) (by omega) (by omega)) hstop
      subst hkn
      obtain ⟨-, -, hon, hown⟩ := hk
      rcases hend with h | h
      · rw [h] at hon
        cases hon
      · rw [h] at hown
        exact playerState_ne_empty p (Option.some.inj hown).symm

/-- Witness of C1 on the 3 x 1 board: the first player may place at `(0, 0)`. -/
theorem canMakeMove_iff_captures_witness :
    Examples.line.Rectangular ∧ Examples.line.canMakeMove 0 0 true = some true ∧
    ∃ direction ∈ Directions.all, ∃ k : Nat, Examples.line.Captures 0 0 direction true k := by
  refine ⟨by decide, by decide, ?_⟩
  obtain ⟨⟨b, hb, hiff⟩, -⟩ := canMakeMove_iff_captures Examples.line (by decide) 0 0 true
  have hb1 : Examples.line.canMakeMove 0 0 true = some true := by decide
  rw [hb1] at hb
  have : b = true := (Option.some.inj hb).symm
  exact (hiff.mp this).2.2

/-- C2: a legal placement makes `makeMove` return `true`; afterwards the placed cell
holds the player's state, every cell of the opponent run of a direction that captures on
the original board holds the player's state, every other cell is as before, the board
keeps its dimensions, and the cells appended to the log are exactly the cells of those
runs. -/
theorem makeMove_result (d : Desk) (hr : d.Rectangular) (x y : Int) (p : Bool)
    (log : Option Cells) (hlegal : d.canMakeMove x y p = some true) :
    ∃ (d2 : Desk) (flips : Cells),
      d.makeMove x y p log = some (true, d2, log.map (fun cells => cells ++ flips)) ∧
      d2.getWidth = d.getWidth ∧ d2.getHeight = d.getHeight ∧
      d2.getState x y = some (playerState p) ∧
      (∀ direction ∈ Directions.all, ∀ k i : Nat, d.Captures x y direction p k →
        1 ≤ i → i ≤ k →
        d2.getState (Directions.cellAt direction i x y).1 (Directions.cellAt direction i x y).2 =
          some (playerState p)) ∧
      (∀ a b : Int, (a, b) ≠ (x, y) →
        (¬ ∃ direction ∈ Directions.all, ∃ k i : Nat, d.Captures x y direction p k ∧
          1 ≤ i ∧ i ≤ k ∧ (a, b) = Directions.cellAt direction i x y) →
        d2.getState a b = d.getState a b) ∧
      (∀ c : Int × Int, c ∈ flips ↔
        ∃ direction ∈ Directions.all, ∃ k i : Nat, d.Captures x y direction p k ∧
          1 ≤ i ∧ i ≤ k ∧ c = Directions.cellAt direction i x y) := by
  obtain ⟨d2, flips, hmove, hlog, -, hw2, hh2, hg2⟩ := makeMove_legal d hr x y p log hlegal
  have hmem := mem_captureLog d x y p Directions.all flips hlog
  refine ⟨d2, flips, hmove, hw2, hh2, ?_, ?_, ?_, hmem⟩
  · rw [hg2]
    simp
  · intro direction hdir k i hk h1 h2
    rw [hg2]
    have : (Directions.cellAt direction i x y) ∈ flips :=
      (hmem _).mpr ⟨direction, hdir, k, i, hk, h1, h2, rfl⟩
    simp [this]
  · intro a b hne hno
    rw [hg2]
    have : (a, b) ∉ flips := fun h => hno ((hmem _).mp h)
    simp [hne, this]

/-- Witness of C2 on the 3 x 1 board. -/
theorem makeMove_result_witness :
    Examples.line.Rectangular ∧ Examples.line.canMakeMove 0 0 true = some true ∧
    ∃ (d2 : Desk) (flips : Cells),
      Examples.line.makeMove 0 0 true (some []) = some (true, d2, some flips) ∧
      d2.getState 0 0 = some ST_FIRST_PLAYER := by
  refine ⟨by decide, by decide, ?_⟩
  obtain ⟨d2, flips, h1, -, -, h4, -⟩ :=
    makeMove_result Examples.line (by decide) 0 0 true (some []) (by decide)
  exact ⟨d2, [] ++ flips, h1, h4⟩

/-- C3: for all integers `x`, `y` (off-grid ones included) and both players,
`makeMove(x, y, p, log)` returns, and returns `true` if and only if
`canMakeMove(x, y, p)` is `true`; when it returns `false` the board and the supplied log
are as they were. -/
theorem makeMove_accepts_iff (d : Desk) (hr : d.Rectangular) (x y : Int) (p : Bool)
    (log : Option Cells) :
    ∃ (ok : Bool) (d2 : Desk) (log2 : Option Cells),
      d.makeMove x y p log = some (ok, d2, log2) ∧
      (ok = true ↔ d.canMakeMove x y p = some true) ∧
      (ok = false → d2 = d ∧ log2 = log) := by
  obtain ⟨b, hb⟩ := canMakeMove_isSome d hr x y p
  cases b with
  | false =>
    refine ⟨false, d, log, makeMove_illegal d x y p log hb, ?_, fun _ => ⟨rfl, rfl⟩⟩
    rw [hb]
    simp
  | true =>
    obtain ⟨d2, flips, hmove, -⟩ := makeMove_legal d hr x y p log hb
    refine ⟨true, d2, _, hmove, ?_, fun h => by cases h⟩
    rw [hb]
    simp

/-- Witness of C3 on the 3 x 1 board, at an off-grid coordinate. -/
theorem makeMove_accepts_iff_witness :
    Examples.line.Rectangular ∧
    ∃ (ok : Bool) (d2 : Desk) (log2 : Option Cells),
      Examples.line.makeMove (-1) 5 true (some []) = some (ok, d2, log2) ∧
      (ok = true ↔ Examples.line.canMakeMove (-1) 5 true = some true) ∧
      (ok = false → d2 = Examples.line ∧ log2 = some []) :=
  ⟨by decide, makeMove_accepts_iff Examples.line (by decide) (-1) 5 true (some [])⟩

/-- C8: `canMakeMove(p)` returns, and returns `true` if and only if there are
coordinates `(x, y)` for which `canMakeMove(x, y, p)` is `true`.  The function is a
`const` method: it yields a flag only, and the board it reads is not changed. -/
theorem canMakeMoveAnywhere_iff (d : Desk) (hr : d.Rectangular) (p : Bool) :
    ∃ b : Bool, d.canMakeMoveAnywhere p = some b ∧
      (b = true ↔ ∃ x y : Int, d.canMakeMove x y p = some true) :=
  canMakeMoveAnywhere_spec d hr p

/-- Witness of C8 on the 3 x 1 board. -/
theorem canMakeMoveAnywhere_iff_witness :
    Examples.line.Rectangular ∧
    ∃ b : Bool, Examples.line.canMakeMoveAnywhere true = some b ∧
      (b = true ↔ ∃ x y : Int, Examples.line.canMakeMove x y true = some true) :=
  ⟨by decide, canMakeMoveAnywhere_iff Examples.line (by decide) true⟩

end Desk

namespace AI

/-- C4: the round-trip law.  For a legal placement, `makeMove` with a fresh log, then
`changeCells` on the recorded log, then setting the placed cell to `ST_EMPTY` gives back
the board before the move; and `makeVirtualMove` followed by `undoLastVirtualMove`
restores the working board and the history of virtual moves. -/
theorem virtual_move_roundtrip (s : State) (hr : s.ai_calculation_desk.Rectangular)
    (x y : Int) (p : Bool) (hlegal : s.ai_calculation_desk.canMakeMove x y p = some true) :
    (∃ (d2 : Desk) (flips : Cells) (d3 : Desk),
      s.ai_calculation_desk.makeMove x y p (some []) = some (true, d2, some flips) ∧
      d2.changeCells flips = some d3 ∧
      d3.setCell x y ST_EMPTY = some s.ai_calculation_desk) ∧
    (∃ s1 : State, makeVirtualMove s x y p = some s1 ∧ undoLastVirtualMove s1 = some s) := by
  obtain ⟨depth, d, history⟩ := s
  simp only at hr hlegal ⊢
  refine ⟨Desk.makeMove_roundtrip d hr x y p hlegal, ?_⟩
  obtain ⟨d2, flips, -, -, -, -, hvirt, hundo⟩ := undo_after_move depth d hr history x y p hlegal
  exact ⟨_, hvirt, hundo⟩

/-- Witness of C4 on the 3 x 1 board. -/
theorem virtual_move_roundtrip_witness :
    Examples.line.Rectangular ∧ Examples.line.canMakeMove 0 0 true = some true ∧
    ∃ s1 : State, makeVirtualMove ⟨2, Examples.line, []⟩ 0 0 true = some s1 ∧
      undoLastVirtualMove s1 = some ⟨2, Examples.line, []⟩ :=
  ⟨by decide, by decide,
    (virtual_move_roundtrip ⟨2, Examples.line, []⟩ (by decide) 0 0 true (by decide)).2⟩

/-- C5: alpha-beta equivalence.  On a rectangular board small enough that every score
lies strictly between `-infinity` and `infinity`, for every player and every root depth
`D`, the root call of `miniMax` (`current_depth = minimax_depth = D`, window
`(-infinity, infinity)`) and the exhaustive search (the same recursion without the
`alpha > beta` cut-off) both return, with the same value, the same recorded coordinate
and the state as it was. -/
theorem alpha_beta_equivalence (D : Nat) (s : State) (chosen : Int × Int) (p : Bool)
    (hr : s.ai_calculation_desk.Rectangular) (hb : EvalBounded s.ai_calculation_desk)
    (hroot : s.minimax_depth = D) :
    ∃ (value : Int) (c : Int × Int),
      miniMax D s chosen p (-infinity) infinity = some (value, s, c) ∧
      exhaustiveMiniMax D s chosen p (-infinity) infinity = some (value, s, c) := by
  obtain ⟨hv, hm⟩ := search_root_eq s.ai_calculation_desk hb D s.ai_calculation_desk p
    (sameShape_self _ hr)
  refine ⟨searchValue true D s.ai_calculation_desk p (-infinity) infinity,
    searchMove true D s.ai_calculation_desk p (-infinity) infinity, ?_, ?_⟩
  · exact miniMax_root D s chosen p (-infinity) infinity hr hroot true
  · unfold exhaustiveMiniMax
    rw [miniMax_root D s chosen p (-infinity) infinity hr hroot false, hv, hm]

/-- Witness of C5 on the 3 x 3 board `hook` at root depth 1.  The first player has the
placements `(0, 1)`, `(2, 0)` and `(2, 2)`.  Below `(2, 2)` the node of the second player
is entered with `alpha = 12`; the pruned search cuts it off at the first reply, worth 9,
and returns 9, while the exhaustive search tries every reply and returns -1.  At the
root both searches return 12 and record `(2, 0)`. -/
theorem alpha_beta_equivalence_witness :
    Examples.hook.Rectangular ∧ EvalBounded Examples.hook ∧
    miniMax 1 ⟨1, Examples.hook, []⟩ (-1, -1) true (-infinity) infinity =
      some (12, ⟨1, Examples.hook, []⟩, (2, 0)) ∧
    exhaustiveMiniMax 1 ⟨1, Examples.hook, []⟩ (-1, -1) true (-infinity) infinity =
      some (12, ⟨1, Examples.hook, []⟩, (2, 0)) ∧
    ∃ s1 : State, makeVirtualMove ⟨1, Examples.hook, []⟩ 2 2 true = some s1 ∧
      miniMax 0 s1 (-1, -1) false 12 infinity = some (9, s1, (-1, -1)) ∧
      exhaustiveMiniMax 0 s1 (-1, -1) false 12 infinity = some (-1, s1, (-1, -1)) := by
  have hb : EvalBounded Examples.hook := evalBounded_of_small Examples.hook (by decide)
  have e : miniMax 1 ⟨1, Examples.hook, []⟩ (-1, -1) true (-infinity) infinity =
      some (12, ⟨1, Examples.hook, []⟩, (2, 0)) := by decide
  obtain ⟨value, c, h1, h2⟩ :=
    alpha_beta_equivalence 1 ⟨1, Examples.hook, []⟩ (-1, -1) true (by decide) hb rfl
  rw [e] at h1
  have hv : value = 12 := by
    have := congrArg (fun r => r.1) (Option.some.inj h1)
    exact this.symm
  have hc : c = (2, 0) := by
    have := congrArg (fun r => r.2.2) (Option.some.inj h1)
    exact this.symm
  subst hv hc
  exact ⟨by decide, hb, e, h2, _, rfl, by decide, by decide⟩

end AI

namespace AI

/-- C6: on a rectangular board small enough that every score lies strictly between
`-infinity` and `infinity`, on which the player to move has a legal placement, the
coordinate the root call of `miniMax` records for any root depth `D` and the window
`(-infinity, infinity)` is a legal placement; and when the board has dimensions that
`newDesk` builds (the only way a `Desk` obtains its columns; this is from 2 x 2 upward),
`chooseMove` returns, for every sequence of clock readings, such a coordinate, which
`makeMove` accepts on that board. -/
theorem chosen_move_legal (desk : Desk) (hr : desk.Rectangular) (hb : EvalBounded desk)
    (p : Bool) (hex : ∃ x y : Int, desk.canMakeMove x y p = some true) :
    (∀ (D : Nat) (history : List Move) (chosen : Int × Int),
      ∃ (value x y : Int),
        miniMax D ⟨D, desk, history⟩ chosen p (-infinity) infinity =
          some (value, ⟨D, desk, history⟩, (x, y)) ∧
        desk.canMakeMove x y p = some true) ∧
    ((∃ d0 : Desk, Desk.newDesk desk.getWidth desk.getHeight = some d0) →
      ∀ (clock : Nat → Int) (s : State) (chosen : Int × Int),
        ∃ (s1 : State) (x y : Int),
          chooseMove clock s chosen desk p = some (s1, (x, y)) ∧
          desk.canMakeMove x y p = some true ∧
          ∃ d2 : Desk, desk.makeMove x y p none = some (true, d2, none)) := by
  constructor
  · intro D history chosen
    have hfb := searchMove_root desk hr hb D p hex
    refine ⟨searchValue true D desk p (-infinity) infinity,
      (searchMove true D desk p (-infinity) infinity).1,
      (searchMove true D desk p (-infinity) infinity).2, ?_, hfb.2.1⟩
    exact miniMax_root D ⟨D, desk, history⟩ chosen p (-infinity) infinity hr rfl true
  · rintro ⟨d0, hd0⟩ clock s chosen
    obtain ⟨hw, hh⟩ := Desk.newDesk_some_dims _ _ d0 hd0
    obtain ⟨D, -, -, hch⟩ := chooseMove_spec clock s chosen desk p hr hw hh
    have hfb := searchMove_root desk hr hb D p hex
    obtain ⟨d2, flips, hmove, -⟩ := Desk.makeMove_legal desk hr _ _ p none hfb.2.1
    exact ⟨_, (searchMove true D desk p (-infinity) infinity).1,
      (searchMove true D desk p (-infinity) infinity).2, hch, hfb.2.1, d2, hmove⟩

/-- Witness of C6 on the 3 x 3 board `fork`, on which the first player has three legal
placements, with a clock that reads 0, 400000, 800000, ... ticks. -/
theorem chosen_move_legal_witness :
    Examples.fork.Rectangular ∧ EvalBounded Examples.fork ∧
    (∃ x y : Int, Examples.fork.canMakeMove x y true = some true) ∧
    (∃ d0 : Desk, Desk.newDesk Examples.fork.getWidth Examples.fork.getHeight = some d0) ∧
    ∃ (s1 : State) (x y : Int),
      chooseMove (fun k => 400000 * (k : Int)) ⟨0, ⟨[]⟩, []⟩ (-1, -1) Examples.fork true =
        some (s1, (x, y)) ∧
      Examples.fork.canMakeMove x y true = some true ∧
      ∃ d2 : Desk, Examples.fork.makeMove x y true none = some (true, d2, none) := by
  have hb : EvalBounded Examples.fork := evalBounded_of_small Examples.fork (by decide)
  refine ⟨by decide, hb, ⟨1, 2, by decide⟩, ⟨_, rfl⟩, ?_⟩
  exact (chosen_move_legal Examples.fork (by decide) hb true ⟨1, 2, by decide⟩).2 ⟨_, rfl⟩
    (fun k => 400000 * (k : Int)) ⟨0, ⟨[]⟩, []⟩ (-1, -1)

/-- C7: tie-break by earliest scan order.  On a rectangular board with bounded scores and
a legal placement for the player to move, the root call of `miniMax` of depth `D` returns
a value and records a coordinate `(x, y)` that is a legal placement whose exhaustive
subtree value is that value, no legal placement has a better exhaustive subtree value
(larger for the first player, smaller for the second), and every legal placement with
the same subtree value is lexicographically at or after `(x, y)` (lowest `x`, then
lowest `y`). -/
theorem root_tie_break (D : Nat) (s : State) (chosen : Int × Int) (p : Bool)
    (hr : s.ai_calculation_desk.Rectangular) (hb : EvalBounded s.ai_calculation_desk)
    (hroot : s.minimax_depth = D)
    (hex : ∃ x y : Int, s.ai_calculation_desk.canMakeMove x y p = some true) :
    ∃ (value x y : Int),
      miniMax D s chosen p (-infinity) infinity = some (value, s, (x, y)) ∧
      s.ai_calculation_desk.canMakeMove x y p = some true ∧
      subtreeValue D s p x y = some value ∧
      ∀ x1 y1 : Int, s.ai_calculation_desk.canMakeMove x1 y1 p = some true →
        ∃ v1 : Int, subtreeValue D s p x1 y1 = some v1 ∧
          (if p then v1 ≤ value else value ≤ v1) ∧
          (v1 = value → x < x1 ∨ (x = x1 ∧ y ≤ y1)) := by
  obtain ⟨hmem, hleg, hval, hall⟩ := searchMove_root s.ai_calculation_desk hr hb D p hex
  refine ⟨searchValue true D s.ai_calculation_desk p (-infinity) infinity,
    (searchMove true D s.ai_calculation_desk p (-infinity) infinity).1,
    (searchMove true D s.ai_calculation_desk p (-infinity) infinity).2,
    miniMax_root D s chosen p (-infinity) infinity hr hroot true, hleg, ?_, ?_⟩
  · rw [subtreeValue_eq D s p _ _ hr hleg]
    exact congrArg some hval
  · intro x1 y1 hl1
    refine ⟨_, subtreeValue_eq D s p x1 y1 hr hl1, ?_⟩
    have hm1 : (x1, y1) ∈ s.ai_calculation_desk.cells := by
      rw [Desk.mem_cells]
      exact Desk.isOnDesk_of_canMakeMove _ x1 y1 p hl1
    exact hall (x1, y1) hm1 hl1

/-- Witness of C7 on the 3 x 3 board `fork` at root depth 1.  The first player has the
legal placements `(1, 2)`, `(2, 0)` and `(2, 2)`, in scan order, with exhaustive subtree
values 21, 31 and 31: the first candidate is not the best and the two best are tied.  The
root returns 31 and records `(2, 0)`, the earlier of the tied placements, and every legal
placement is no better and, if as good, at or after `(2, 0)`. -/
theorem root_tie_break_witness :
    Examples.fork.Rectangular ∧ EvalBounded Examples.fork ∧
    (∃ x y : Int, Examples.fork.canMakeMove x y true = some true) ∧
    miniMax 1 ⟨1, Examples.fork, []⟩ (-1, -1) true (-infinity) infinity =
      some (31, ⟨1, Examples.fork, []⟩, (2, 0)) ∧
    Examples.fork.canMakeMove 1 2 true = some true ∧
    Examples.fork.canMakeMove 2 0 true = some true ∧
    Examples.fork.canMakeMove 2 2 true = some true ∧
    subtreeValue 1 ⟨1, Examples.fork, []⟩ true 1 2 = some 21 ∧
    subtreeValue 1 ⟨1, Examples.fork, []⟩ true 2 0 = some 31 ∧
    subtreeValue 1 ⟨1, Examples.fork, []⟩ true 2 2 = some 31 ∧
    ∀ x1 y1 : Int, Examples.fork.canMakeMove x1 y1 true = some true →
      ∃ v1 : Int, subtreeValue 1 ⟨1, Examples.fork, []⟩ true x1 y1 = some v1 ∧
        v1 ≤ 31 ∧ (v1 = 31 → 2 < x1 ∨ (2 = x1 ∧ 0 ≤ y1)) := by
  have hb : EvalBounded Examples.fork := evalBounded_of_small Examples.fork (by decide)
  have e : miniMax 1 ⟨1, Examples.fork, []⟩ (-1, -1) true (-infinity) infinity =
      some (31, ⟨1, Examples.fork, []⟩, (2, 0)) := by decide
  obtain ⟨value, x, y, h1, -, -, h4⟩ :=
    root_tie_break 1 ⟨1, Examples.fork, []⟩ (-1, -1) true (by decide) hb rfl
      ⟨1, 2, by decide⟩
  rw [e] at h1
  have hv : value = 31 := by
    have := congrArg (fun r => r.1) (Option.some.inj h1)
    exact this.symm
  have hx : x = 2 := by
    have := congrArg (fun r => r.2.2.1) (Option.some.inj h1)
    exact this.symm
  have hy : y = 0 := by
    have := congrArg (fun r => r.2.2.2) (Option.some.inj h1)
    exact this.symm
  subst hv hx hy
  refine ⟨by decide, hb, ⟨1, 2, by decide⟩, e, by decide, by decide, by decide, by decide,
    by decide, by decide, ?_⟩
  intro x1 y1 hl
  obtain ⟨v1, g1, g2, g3⟩ := h4 x1 y1 hl
  exact ⟨v1, g1, by simpa using g2, g3⟩

/-- C9: pass semantics.  On a rectangular working board on which the player has no legal
placement, for every window, `miniMax` of depth `d + 1` returns exactly the value that
`miniMax` of depth `d` returns for the opponent with the same window on the same board,
and `miniMax` of depth 0 returns `evaluatePosition()` of that board; the board is left
as it was. -/
theorem pass_semantics (s : State) (hr : s.ai_calculation_desk.Rectangular) (p : Bool)
    (hno : ∀ x y : Int, s.ai_calculation_desk.canMakeMove x y p ≠ some true) :
    (∀ (d : Nat) (chosen : Int × Int) (alpha beta : Int),
      ∃ (value : Int) (c1 c2 : Int × Int),
        miniMax (d + 1) s chosen p alpha beta = some (value, s, c1) ∧
        miniMax d s chosen (!p) alpha beta = some (value, s, c2)) ∧
    (∀ (chosen : Int × Int) (alpha beta : Int),
      ∃ (value : Int) (c : Int × Int),
        miniMax 0 s chosen p alpha beta = some (value, s, c) ∧
        evaluatePosition s = some value) := by
  constructor
  · intro d chosen alpha beta
    obtain ⟨c1, h1, -, -⟩ := miniMaxWith_eq true (d + 1) s chosen p alpha beta hr
    obtain ⟨c2, h2, -, -⟩ := miniMaxWith_eq true d s chosen (!p) alpha beta hr
    refine ⟨searchValue true d s.ai_calculation_desk (!p) alpha beta, c1, c2, ?_, h2⟩
    unfold miniMax
    rw [h1, searchValue_eq, nodeValue_no_move true _ p _ hno]
    rfl
  · intro chosen alpha beta
    obtain ⟨c1, h1, -, -⟩ := miniMaxWith_eq true 0 s chosen p alpha beta hr
    refine ⟨s.ai_calculation_desk.score, c1, ?_, evaluatePosition_eq s hr⟩
    unfold miniMax
    rw [h1, searchValue_eq, nodeValue_no_move true _ p _ hno]
    rfl

/-- Witness of C9 on the 3 x 1 board, where the second player has no legal placement. -/
theorem pass_semantics_witness :
    Examples.line.Rectangular ∧
    (∀ x y : Int, Examples.line.canMakeMove x y false ≠ some true) ∧
    ∃ (value : Int) (c1 c2 : Int × Int),
      miniMax 1 ⟨5, Examples.line, []⟩ (-1, -1) false (-infinity) infinity =
        some (value, ⟨5, Examples.line, []⟩, c1) ∧
      miniMax 0 ⟨5, Examples.line, []⟩ (-1, -1) true (-infinity) infinity =
        some (value, ⟨5, Examples.line, []⟩, c2) :=
  ⟨by decide, Examples.line_second_blocked,
    (pass_semantics ⟨5, Examples.line, []⟩ (by decide) false Examples.line_second_blocked).1
      0 (-1, -1) (-infinity) infinity⟩

theorem isCorner_eq (d : Desk) :
    isCorner d = fun x y =>
      decide ((x = 0 ∨ x = d.getWidth - 1) ∧ (y = 0 ∨ y = d.getHeight - 1)) := by
  funext x y
  unfold isCorner
  by_cases h1 : x = 0 <;> by_cases h2 : x = d.getWidth - 1 <;> by_cases h3 : y = 0 <;>
    by_cases h4 : y = d.getHeight - 1 <;> simp [h1, h2, h3, h4]

/-- C10: on a rectangular `W x H` working board `evaluatePosition()` returns the number
of first-player cells minus the number of second-player cells, plus ten times the
difference of the numbers of corner cells held by the first and by the second player,
a corner cell being one with `x` in `{0, W - 1}` and `y` in `{0, H - 1}`. -/
theorem evaluatePosition_formula (s : State) (hr : s.ai_calculation_desk.Rectangular) :
    evaluatePosition s =
      some ((s.ai_calculation_desk.countIn (fun _ _ => true) ST_FIRST_PLAYER -
          s.ai_calculation_desk.countIn (fun _ _ => true) ST_SECOND_PLAYER) +
        10 * (s.ai_calculation_desk.countIn
              (fun x y => decide ((x = 0 ∨ x = s.ai_calculation_desk.getWidth - 1) ∧
                (y = 0 ∨ y = s.ai_calculation_desk.getHeight - 1))) ST_FIRST_PLAYER -
            s.ai_calculation_desk.countIn
              (fun x y => decide ((x = 0 ∨ x = s.ai_calculation_desk.getWidth - 1) ∧
                (y = 0 ∨ y = s.ai_calculation_desk.getHeight - 1))) ST_SECOND_PLAYER)) := by
  rw [evaluatePosition_eq s hr, ← isCorner_eq]
  rfl

/-- Witness of C10 on the 3 x 2 board: one token each, the first player's in a corner. -/
theorem evaluatePosition_formula_witness :
    Examples.strip.Rectangular ∧ evaluatePosition ⟨2, Examples.strip, []⟩ = some 10 := by
  refine ⟨by decide, ?_⟩
  rw [evaluatePosition_formula ⟨2, Examples.strip, []⟩ (by decide)]
  decide

end AI

namespace Desk

/-- C11: the capture log that `makeMove(x, y, p, log)` fills from an empty log on a legal
placement is the concatenation, over the directions in the order `TOP`, `RIGHT_TOP`,
`RIGHT`, `RIGHT_BOTTOM`, `BOTTOM`, `LEFT_BOTTOM`, `LEFT`, `LEFT_TOP` that satisfy the
capture condition, of the opponent run of the direction listed by increasing distance
from `(x, y)`; it holds no coordinate twice, does not hold `(x, y)`, and has at least
one entry. -/
theorem capture_log_order (d : Desk) (hr : d.Rectangular) (x y : Int) (p : Bool)
    (hlegal : d.canMakeMove x y p = some true) :
    ∃ (d2 : Desk) (flips : Cells),
      d.makeMove x y p (some []) = some (true, d2, some flips) ∧
      d.CaptureLog x y p
        [Directions.TOP, Directions.RIGHT_TOP, Directions.RIGHT, Directions.RIGHT_BOTTOM,
          Directions.BOTTOM, Directions.LEFT_BOTTOM, Directions.LEFT, Directions.LEFT_TOP]
        flips ∧
      flips.Nodup ∧ (x, y) ∉ flips ∧ 1 ≤ flips.length := by
  obtain ⟨d2, flips, hmove, hlog, -, -, -, -⟩ := makeMove_legal d hr x y p (some []) hlegal
  obtain ⟨-, hempty, direction, hdir, k, hk⟩ := (canMakeMove_true_iff d hr x y p).mp hlegal
  have hall : ∀ e ∈ Directions.all, e < 8 := fun e he => (Directions.mem_all e).mp he
  have hnd : Directions.all.Nodup := by rw [Directions.all_eq]; decide
  refine ⟨d2, flips, ?_, hlog, captureLog_nodup d x y p _ hall hnd flips hlog, ?_, ?_⟩
  · rw [hmove]
    simp
  · intro hmem
    have := captureLog_opponent d x y p _ flips hlog (x, y) hmem
    rw [hempty] at this
    exact opponentState_ne_empty p (Option.some.inj this).symm
  · have hne := captureLog_ne_nil d x y p _ flips hlog
      ⟨direction, (Directions.mem_all direction).mpr hdir, k, hk⟩
    cases flips with
    | nil => exact absurd rfl hne
    | cons c rest => simp

/-- Witness of C11 on the 3 x 1 board: the first player places at `(0, 0)` and the log
is the single cell `(1, 0)`. -/
theorem capture_log_order_witness :
    Examples.line.Rectangular ∧ Examples.line.canMakeMove 0 0 true = some true ∧
    ∃ (d2 : Desk) (flips : Cells),
      Examples.line.makeMove 0 0 true (some []) = some (true, d2, some flips) ∧
      flips.Nodup ∧ ((0 : Int), (0 : Int)) ∉ flips ∧ 1 ≤ flips.length := by
  refine ⟨by decide, by decide, ?_⟩
  obtain ⟨d2, flips, h1, -, h3, h4, h5⟩ :=
    capture_log_order Examples.line (by decide) 0 0 true (by decide)
  exact ⟨d2, flips, h1, h3, h4, h5⟩

end Desk

namespace Desk

theorem blank_getState (w h : Nat) (a b : Int) (s : CellState)
    (hs : (⟨List.replicate w (List.replicate h ST_EMPTY)⟩ : Desk).getState a b = some s) :
    s = ST_EMPTY := by
  rw [getState_eq_some_iff] at hs
  obtain ⟨-, -, column, hc, hs⟩ := hs
  rw [List.getElem?_eq_some_iff] at hc hs
  obtain ⟨hi, hc⟩ := hc
  obtain ⟨hj, hs⟩ := hs
  have hmem : column ∈ List.replicate w (List.replicate h ST_EMPTY) := by
    rw [← hc]
    exact List.getElem_mem _
  have hcol := List.eq_of_mem_replicate hmem
  have hmem2 : s ∈ column := by
    rw [← hs]
    exact List.getElem_mem _
  rw [hcol] at hmem2
  exact List.eq_of_mem_replicate hmem2

/-- The board `newDesk(width, height)` builds when it is at least two cells wide and
high: the four centre writes land on the grid, later writes win, and every cell not
written is empty. -/
theorem newDesk_cells (width height : Int) (hw : 2 ≤ width) (hh : 2 ≤ height) :
    ∃ d, newDesk width height = some d ∧ d.Rectangular ∧ d.getWidth = width ∧
      d.getHeight = height ∧
      ∀ a b : Int, d.getState a b =
        if a = (width - 1) / 2 + 1 ∧ b = (height - 1) / 2 then some ST_FIRST_PLAYER
        else if a = (width - 1) / 2 ∧ b = (height - 1) / 2 + 1 then some ST_FIRST_PLAYER
        else if a = (width - 1) / 2 + 1 ∧ b = (height - 1) / 2 + 1 then some ST_SECOND_PLAYER
        else if a = (width - 1) / 2 ∧ b = (height - 1) / 2 then some ST_SECOND_PLAYER
        else if d.isOnDesk a b = true then some ST_EMPTY else none := by
  have hw0 : (width.toNat : Int) = width := Int.toNat_of_nonneg (by omega)
  have hh0 : (height.toNat : Int) = height := Int.toNat_of_nonneg (by omega)
  have hx : (width - 1).tdiv 2 = (width - 1) / 2 := Int.tdiv_eq_ediv (by omega) (by omega)
  have hy : (height - 1).tdiv 2 = (height - 1) / 2 := Int.tdiv_eq_ediv (by omega) (by omega)
  have hr0 := blank_rectangular width.toNat height.toNat
  have hW0 := blank_getWidth width.toNat height.toNat
  have hH0 := blank_getHeight width.toNat height.toNat (by omega)
  obtain ⟨d1, e1, r1, w1, h1, g1⟩ := setCell_on_desk _ hr0 ((width - 1).tdiv 2)
    ((height - 1).tdiv 2) ST_SECOND_PLAYER
    (by rw [isOnDesk_iff, hW0, hH0, hx, hy]; omega)
  obtain ⟨d2, e2, r2, w2, h2, g2⟩ := setCell_on_desk d1 r1 ((width - 1).tdiv 2 + 1)
    ((height - 1).tdiv 2 + 1) ST_SECOND_PLAYER
    (by rw [isOnDesk_iff, w1, h1, hW0, hH0, hx, hy]; omega)
  obtain ⟨d3, e3, r3, w3, h3, g3⟩ := setCell_on_desk d2 r2 ((width - 1).tdiv 2)
    ((height - 1).tdiv 2 + 1) ST_FIRST_PLAYER
    (by rw [isOnDesk_iff, w2, h2, w1, h1, hW0, hH0, hx, hy]; omega)
  obtain ⟨d4, e4, r4, w4, h4, g4⟩ := setCell_on_desk d3 r3 ((width - 1).tdiv 2 + 1)
    ((height - 1).tdiv 2) ST_FIRST_PLAYER
    (by rw [isOnDesk_iff, w3, h3, w2, h2, w1, h1, hW0, hH0, hx, hy]; omega)
  have hW4 : d4.getWidth = width := by rw [w4, w3, w2, w1, hW0, hw0]
  have hH4 : d4.getHeight = height := by rw [h4, h3, h2, h1, hH0, hh0]
  refine ⟨d4, ?_, r4, hW4, hH4, ?_⟩
  · unfold newDesk assign emptyColumn
    simp only [e1, e2, e3, e4]
  · intro a b
    rw [g4, g3, g2, g1, hx, hy]
    by_cases c4 : a = (width - 1) / 2 + 1 ∧ b = (height - 1) / 2
    · rw [if_pos c4, if_pos c4]
    rw [if_neg c4, if_neg c4]
    by_cases c3 : a = (width - 1) / 2 ∧ b = (height - 1) / 2 + 1
    · rw [if_pos c3, if_pos c3]
    rw [if_neg c3, if_neg c3]
    by_cases c2 : a = (width - 1) / 2 + 1 ∧ b = (height - 1) / 2 + 1
    · rw [if_pos c2, if_pos c2]
    rw [if_neg c2, if_neg c2]
    by_cases c1 : a = (width - 1) / 2 ∧ b = (height - 1) / 2
    · rw [if_pos c1, if_pos c1]
    rw [if_neg c1, if_neg c1]
    have hon : d4.isOnDesk a b =
        (⟨List.replicate width.toNat (List.replicate height.toNat ST_EMPTY)⟩ : Desk).isOnDesk
          a b := by
      unfold isOnDesk
      rw [hW4, hH4, hW0, hH0, hw0, hh0]
    rw [hon]
    by_cases hb : (⟨List.replicate width.toNat (List.replicate height.toNat ST_EMPTY)⟩ :
        Desk).isOnDesk a b = true
    · rw [if_pos hb]
      obtain ⟨s, hs⟩ := getState_of_isOnDesk _ hr0 a b hb
      rw [hs, blank_getState _ _ a b s hs]
    · rw [if_neg hb]
      exact getState_eq_none_of_not_isOnDesk _ hr0 a b (by simpa using hb)

/-- C13: the board `newDesk()` creates is 8 cells wide and 8 high; `numberOfTokens` counts
2 first-player and 2 second-player tokens on it, 60 of its cells are empty, the
second-player tokens are at `(3, 3)` and `(4, 4)` and the first-player tokens at `(3, 4)`
and `(4, 3)`. -/
theorem newDesk_standard_layout :
    ∃ d : Desk, newDeskStandard = some d ∧ d.Rectangular ∧
      d.getWidth = 8 ∧ d.getHeight = 8 ∧
      d.numberOfTokens true = some 2 ∧ d.numberOfTokens false = some 2 ∧
      d.countIn (fun _ _ => true) ST_EMPTY = 60 ∧
      d.getState 3 3 = some ST_SECOND_PLAYER ∧ d.getState 4 4 = some ST_SECOND_PLAYER ∧
      d.getState 3 4 = some ST_FIRST_PLAYER ∧ d.getState 4 3 = some ST_FIRST_PLAYER := by
  refine ⟨_, rfl, ?_, ?_, ?_, ?_, ?_, ?_, ?_, ?_, ?_, ?_⟩ <;> decide

/-- The legal placements of a board are the listed ones when the scan of the grid finds
exactly those. -/
theorem legal_cells_of_scan (d : Desk) (p : Bool) (moves : Cells)
    (h1 : ∀ c ∈ d.cells, d.canMakeMove c.1 c.2 p = some true → c ∈ moves)
    (h2 : ∀ c ∈ moves, d.canMakeMove c.1 c.2 p = some true) (x y : Int) :
    d.canMakeMove x y p = some true ↔ (x, y) ∈ moves := by
  constructor
  · intro h
    exact h1 (x, y) ((mem_cells d (x, y)).mpr (isOnDesk_of_canMakeMove d x y p h)) h
  · intro h
    exact h2 (x, y) h

/-- C14: on the board `newDesk()` creates, which has 64 cells, `canMakeMove(x, y, true)`
is `true` for exactly the coordinates `(2, 3)`, `(3, 2)`, `(4, 5)` and `(5, 4)`, and
`makeMove` at each of them logs exactly one flipped cell, a second-player token:
`(3, 3)` for the first two and `(4, 4)` for the last two. -/
theorem opening_moves :
    ∃ d : Desk, newDeskStandard = some d ∧ d.cells.length = 64 ∧
      (∀ x y : Int, d.canMakeMove x y true = some true ↔
        (x, y) ∈ [((2 : Int), (3 : Int)), (3, 2), (4, 5), (5, 4)]) ∧
      d.getState 3 3 = some ST_SECOND_PLAYER ∧ d.getState 4 4 = some ST_SECOND_PLAYER ∧
      (∃ d2, d.makeMove 2 3 true (some []) = some (true, d2, some [(3, 3)])) ∧
      (∃ d2, d.makeMove 3 2 true (some []) = some (true, d2, some [(3, 3)])) ∧
      (∃ d2, d.makeMove 4 5 true (some []) = some (true, d2, some [(4, 4)])) ∧
      (∃ d2, d.makeMove 5 4 true (some []) = some (true, d2, some [(4, 4)])) := by
  refine ⟨_, rfl, by decide, ?_, by decide, by decide, ⟨_, rfl⟩, ⟨_, rfl⟩, ⟨_, rfl⟩, ⟨_, rfl⟩⟩
  intro x y
  exact legal_cells_of_scan _ true _ (by decide) (by decide) x y

/-- C15, as worded, fails: `newDesk(1, 1)` writes the cell `(1, 1)`, which is outside the
grid of one cell, so no board results. -/
theorem newDesk_one_by_one : newDesk 1 1 = none := by decide

/-- C15: for every width and height of at least 2, `newDesk(width, height)` produces a
rectangular board of that width and height on which the four cells
`((W-1)/2, (H-1)/2)`, `((W-1)/2+1, (H-1)/2+1)`, `((W-1)/2, (H-1)/2+1)` and
`((W-1)/2+1, (H-1)/2)` are on the grid, the first two hold the second player, the last
two the first player, and every other cell of the grid is empty.  The division is the
truncating one of the source, which on these operands is the usual one. -/
theorem newDesk_layout (width height : Int) (hw : 2 ≤ width) (hh : 2 ≤ height) :
    ∃ d : Desk, newDesk width height = some d ∧ d.Rectangular ∧
      d.getWidth = width ∧ d.getHeight = height ∧
      (width - 1).tdiv 2 = (width - 1) / 2 ∧ (height - 1).tdiv 2 = (height - 1) / 2 ∧
      d.isOnDesk ((width - 1) / 2) ((height - 1) / 2) = true ∧
      d.isOnDesk ((width - 1) / 2 + 1) ((height - 1) / 2 + 1) = true ∧
      d.isOnDesk ((width - 1) / 2) ((height - 1) / 2 + 1) = true ∧
      d.isOnDesk ((width - 1) / 2 + 1) ((height - 1) / 2) = true ∧
      d.getState ((width - 1) / 2) ((height - 1) / 2) = some ST_SECOND_PLAYER ∧
      d.getState ((width - 1) / 2 + 1) ((height - 1) / 2 + 1) = some ST_SECOND_PLAYER ∧
      d.getState ((width - 1) / 2) ((height - 1) / 2 + 1) = some ST_FIRST_PLAYER ∧
      d.getState ((width - 1) / 2 + 1) ((height - 1) / 2) = some ST_FIRST_PLAYER ∧
      ∀ a b : Int, d.isOnDesk a b = true →
        (a, b) ≠ ((width - 1) / 2, (height - 1) / 2) →
        (a, b) ≠ ((width - 1) / 2 + 1, (height - 1) / 2 + 1) →
        (a, b) ≠ ((width - 1) / 2, (height - 1) / 2 + 1) →
        (a, b) ≠ ((width - 1) / 2 + 1, (height - 1) / 2) →
        d.getState a b = some ST_EMPTY := by
  obtain ⟨d, hd, hr, hW, hH, hg⟩ := newDesk_cells width height hw hh
  refine ⟨d, hd, hr, hW, hH, Int.tdiv_eq_ediv (by omega) (by omega),
    Int.tdiv_eq_ediv (by omega) (by omega), ?_, ?_, ?_, ?_, ?_, ?_, ?_, ?_, ?_⟩
  · rw [isOnDesk_iff, hW, hH]; omega
  · rw [isOnDesk_iff, hW, hH]; omega
  · rw [isOnDesk_iff, hW, hH]; omega
  · rw [isOnDesk_iff, hW, hH]; omega
  · rw [hg]
    have h1 : ¬ ((width - 1) / 2 = (width - 1) / 2 + 1 ∧ (height - 1) / 2 = (height - 1) / 2) := by
      omega
    have h2 : ¬ ((width - 1) / 2 = (width - 1) / 2 ∧
        (height - 1) / 2 = (height - 1) / 2 + 1) := by omega
    have h3 : ¬ ((width - 1) / 2 = (width - 1) / 2 + 1 ∧
        (height - 1) / 2 = (height - 1) / 2 + 1) := by omega
    rw [if_neg h1, if_neg h2, if_neg h3, if_pos ⟨rfl, rfl⟩]
  · rw [hg]
    have h1 : ¬ ((width - 1) / 2 + 1 = (width - 1) / 2 + 1 ∧
        (height - 1) / 2 + 1 = (height - 1) / 2) := by omega
    have h2 : ¬ ((width - 1) / 2 + 1 = (width - 1) / 2 ∧
        (height - 1) / 2 + 1 = (height - 1) / 2 + 1) := by omega
    rw [if_neg h1, if_neg h2, if_pos ⟨rfl, rfl⟩]
  · rw [hg]
    have h1 : ¬ ((width - 1) / 2 = (width - 1) / 2 + 1 ∧
        (height - 1) / 2 + 1 = (height - 1) / 2) := by omega
    rw [if_neg h1, if_pos ⟨rfl, rfl⟩]
  · rw [hg, if_pos ⟨rfl, rfl⟩]
  · intro a b hon n1 n2 n3 n4
    rw [hg]
    have h4 : ¬ (a = (width - 1) / 2 + 1 ∧ b = (height - 1) / 2) := by
      rintro ⟨rfl, rfl⟩; exact n4 rfl
    have h3 : ¬ (a = (width - 1) / 2 ∧ b = (height - 1) / 2 + 1) := by
      rintro ⟨rfl, rfl⟩; exact n3 rfl
    have h2 : ¬ (a = (width - 1) / 2 + 1 ∧ b = (height - 1) / 2 + 1) := by
      rintro ⟨rfl, rfl⟩; exact n2 rfl
    have h1 : ¬ (a = (width - 1) / 2 ∧ b = (height - 1) / 2) := by
      rintro ⟨rfl, rfl⟩; exact n1 rfl
    rw [if_neg h4, if_neg h3, if_neg h2, if_neg h1, if_pos hon]

/-- Witness of C15 at width 4 and height 6. -/
theorem newDesk_layout_witness :
    (2 : Int) ≤ 4 ∧ (2 : Int) ≤ 6 ∧
    ∃ d : Desk, newDesk 4 6 = some d ∧ d.getWidth = 4 ∧ d.getHeight = 6 ∧
      d.getState 1 2 = some ST_SECOND_PLAYER ∧ d.getState 2 3 = some ST_SECOND_PLAYER ∧
      d.getState 1 3 = some ST_FIRST_PLAYER ∧ d.getState 2 2 = some ST_FIRST_PLAYER ∧
      d.getState 0 0 = some ST_EMPTY := by
  refine ⟨by decide, by decide, ?_⟩
  obtain ⟨d, h1, -, h3, h4, -, -, -, -, -, -, g1, g2, g3, g4, g5⟩ :=
    newDesk_layout 4 6 (by decide) (by decide)
  refine ⟨d, h1, h3, h4, ?_, ?_, ?_, ?_, ?_⟩
  · simpa using g1
  · simpa using g2
  · simpa using g3
  · simpa using g4
  · apply g5 0 0
    · rw [isOnDesk_iff, h3, h4]; omega
    all_goals decide

end Desk

namespace AI

/-- The deepening loop, traced: it stops at the first depth at which the elapsed-time
test fails or the maximum depth is reached, and on the way it passes through every depth
in between, each time holding the coordinate the root search of that depth records. -/
theorem deepen_trace (clock : Nat → Int) (t0 : Int) (p : Bool) (d : Desk) (hr : d.Rectangular)
    (history : List Move) (fuel : Nat) :
    ∀ (k D : Nat) (chosen : Int × Int), minimax_max_depth - D < fuel →
      ∃ D1 : Nat, D ≤ D1 ∧ (D ≤ minimax_max_depth → D1 ≤ minimax_max_depth) ∧
        (∀ j : Nat, D + j < D1 → within_budget t0 (clock (k + j)) = true) ∧
        (D1 < minimax_max_depth → within_budget t0 (clock (k + (D1 - D))) = false) ∧
        deepen clock t0 p fuel k ⟨D, d, history⟩ chosen =
          some (⟨D1, d, history⟩,
            if D1 = D then chosen else searchMove true D1 d p (-infinity) infinity) ∧
        ∀ j : Nat, D + j ≤ D1 →
          deepen clock t0 p fuel k ⟨D, d, history⟩ chosen =
            deepen clock t0 p (fuel - j) (k + j) ⟨D + j, d, history⟩
              (if j = 0 then chosen else searchMove true (D + j) d p (-infinity) infinity) := by
  induction fuel with
  | zero => intro k D chosen h; omega
  | succ fuel ih =>
    intro k D chosen hfuel
    by_cases hc : (within_budget t0 (clock k) && decide (D < minimax_max_depth)) = true
    · have hD : D < minimax_max_depth := by
        simp only [Bool.and_eq_true, decide_eq_true_eq] at hc
        exact hc.2
      have hk : within_budget t0 (clock k) = true := by
        simp only [Bool.and_eq_true, decide_eq_true_eq] at hc
        exact hc.1
      have hroot := miniMax_root (D + 1) ⟨D + 1, d, history⟩ chosen p (-infinity) infinity hr rfl
        true
      have hstep : deepen clock t0 p (fuel + 1) k ⟨D, d, history⟩ chosen =
          deepen clock t0 p fuel (k + 1) ⟨D + 1, d, history⟩
            (searchMove true (D + 1) d p (-infinity) infinity) := by
        rw [deepen_succ]
        simp only [hc, if_true]
        unfold miniMax
        simp only at hroot ⊢
        rw [hroot]
      obtain ⟨D1, h1, h2, h3, h4, h5, h6⟩ := ih (k + 1) (D + 1)
        (searchMove true (D + 1) d p (-infinity) infinity) (by omega)
      refine ⟨D1, by omega, fun _ => h2 (by omega), ?_, ?_, ?_, ?_⟩
      · intro j hj
        cases j with
        | zero => exact hk
        | succ j =>
          have := h3 j (by omega)
          rw [show k + (j + 1) = k + 1 + j by omega]
          exact this
      · intro hlt
        have := h4 hlt
        rw [show k + (D1 - D) = k + 1 + (D1 - (D + 1)) by omega]
        exact this
      · rw [hstep, h5]
        by_cases e1 : D1 = D + 1
        · subst e1
          simp
        · have : D1 ≠ D := by omega
          simp [e1, this]
      · intro j hj
        cases j with
        | zero => simp
        | succ j =>
          rw [hstep, h6 j (by omega)]
          rw [show fuel + 1 - (j + 1) = fuel - j by omega,
            show k + (j + 1) = k + 1 + j by omega,
            show D + (j + 1) = D + 1 + j by omega]
          by_cases e0 : j = 0
          · subst e0
            simp
          · simp [e0]
    · have hstop : deepen clock t0 p (fuel + 1) k ⟨D, d, history⟩ chosen =
          some (⟨D, d, history⟩, chosen) := by
        rw [deepen_succ]
        simp only [hc, Bool.false_eq_true, if_false]
      refine ⟨D, le_refl _, fun h => h, ?_, ?_, ?_, ?_⟩
      · intro j hj
        omega
      · intro hlt
        simp only [Bool.and_eq_true, decide_eq_true_eq, not_and] at hc
        rw [Nat.sub_self, Nat.add_zero]
        cases hw : within_budget t0 (clock k) with
        | false => rfl
        | true => exact absurd hlt (hc hw)
      · rw [hstop]
        simp
      · intro j hj
        have : j = 0 := by omega
        subst this
        simp

/-- The elapsed-time test succeeds exactly when the elapsed ticks, divided by
`CLOCKS_PER_SEC`, are below `max_wait_time`. -/
theorem within_budget_iff (t0 now : Int) :
    within_budget t0 now = true ↔
      ((now - t0 : Int) : ℚ) / (CLOCKS_PER_SEC : ℚ) < max_wait_time := by
  unfold within_budget
  rw [decide_eq_true_iff, add_zero]

/-- C12, as worded for every board, fails on the board a default-constructed `Desk`
holds, which has no column: `chooseMove` returns no coordinate, because `copyDesk` calls
`newDesk(0, 0)`, whose first centre write indexes column 0 of an empty vector. -/
theorem chooseMove_empty_board :
    (⟨[]⟩ : Desk).Rectangular ∧
    chooseMove (fun _ => 0) ⟨0, ⟨[]⟩, []⟩ (-1, -1) ⟨[]⟩ true = none :=
  ⟨by decide, rfl⟩

/-- C12, amended: on every rectangular board at least two cells wide and two cells high,
for every player and every sequence `clock` of clock readings, `chooseMove` returns.  It
ends at a depth `D` between the base depth 2 and the maximum depth 12: the elapsed time
`(clock (j + 1) - clock 0) / CLOCKS_PER_SEC` read before each deepening step was below
`max_wait_time` (0.3 s), and if `D` is below 12 the elapsed time read at depth `D` was
not.  For every depth from 2 to `D` it reaches the loop test with that depth and with the
coordinate recorded by the root search of that depth; and the coordinate it returns is
the one a root call of `miniMax` of depth `D` records on that board, whatever coordinate
was recorded before. -/
theorem iterative_deepening (clock : Nat → Int) (s : State) (chosen : Int × Int)
    (desk : Desk) (p : Bool) (hr : desk.Rectangular) (hw : 2 ≤ desk.getWidth)
    (hh : 2 ≤ desk.getHeight) :
    ∃ D : Nat, minimax_base_depth ≤ D ∧ D ≤ minimax_max_depth ∧
      (∀ j : Nat, minimax_base_depth + j < D →
        ((clock (j + 1) - clock 0 : Int) : ℚ) / (CLOCKS_PER_SEC : ℚ) < max_wait_time) ∧
      (D < minimax_max_depth →
        ¬ (((clock (D - minimax_base_depth + 1) - clock 0 : Int) : ℚ) / (CLOCKS_PER_SEC : ℚ) <
          max_wait_time)) ∧
      chooseMove clock s chosen desk p =
        some (⟨D, desk, s.virtual_moves_history⟩,
          searchMove true D desk p (-infinity) infinity) ∧
      (∀ j : Nat, minimax_base_depth + j ≤ D →
        chooseMove clock s chosen desk p =
          deepen clock (clock 0) p (minimax_max_depth + 1 - j) (j + 1)
            ⟨minimax_base_depth + j, desk, s.virtual_moves_history⟩
            (searchMove true (minimax_base_depth + j) desk p (-infinity) infinity)) ∧
      (∀ D1 : Nat, ∀ (history : List Move) (chosen1 : Int × Int),
        ∃ value : Int,
          miniMax D1 ⟨D1, desk, history⟩ chosen1 p (-infinity) infinity =
            some (value, ⟨D1, desk, history⟩,
              searchMove true D1 desk p (-infinity) infinity)) := by
  have hstart : chooseMove clock s chosen desk p =
      deepen clock (clock 0) p (minimax_max_depth + 1) 1
        ⟨minimax_base_depth, desk, s.virtual_moves_history⟩
        (searchMove true minimax_base_depth desk p (-infinity) infinity) := by
    rw [chooseMove_eq_def, Desk.copyDesk_eq desk hr hw hh]
    simp only
    have hroot := miniMax_root minimax_base_depth
      ⟨minimax_base_depth, desk, s.virtual_moves_history⟩ chosen p (-infinity) infinity hr rfl
      true
    unfold miniMax
    simp only at hroot ⊢
    rw [hroot]
  obtain ⟨D1, h1, h2, h3, h4, h5, h6⟩ := deepen_trace clock (clock 0) p desk hr
    s.virtual_moves_history (minimax_max_depth + 1) 1 minimax_base_depth
    (searchMove true minimax_base_depth desk p (-infinity) infinity)
    (by unfold minimax_max_depth minimax_base_depth; omega)
  refine ⟨D1, h1, h2 (by unfold minimax_max_depth minimax_base_depth; omega), ?_, ?_, ?_, ?_, ?_⟩
  · intro j hj
    have := h3 j hj
    rw [within_budget_iff, Nat.add_comm 1 j] at this
    exact this
  · intro hlt
    have := h4 hlt
    rw [Nat.add_comm 1 (D1 - minimax_base_depth)] at this
    intro hcon
    rw [(within_budget_iff _ _).mpr hcon] at this
    cases this
  · rw [hstart, h5]
    by_cases e : D1 = minimax_base_depth
    · subst e
      simp
    · simp [e]
  · intro j hj
    rw [hstart, h6 j hj, Nat.add_comm 1 j]
    by_cases e : j = 0
    · subst e
      simp
    · simp [e]
  · intro D2 history chosen1
    exact ⟨_, miniMax_root D2 ⟨D2, desk, history⟩ chosen1 p (-infinity) infinity hr rfl true⟩

/-- Witness of the amended C12 on the 3 x 3 board `fork`, with a clock that reads 0,
200000, 400000, ... ticks: the elapsed time is 0.2 s at the first test and 0.4 s at the
second, so `chooseMove` deepens once and ends at depth 3. -/
theorem iterative_deepening_witness :
    Examples.fork.Rectangular ∧ 2 ≤ Examples.fork.getWidth ∧ 2 ≤ Examples.fork.getHeight ∧
    chooseMove (fun k => 200000 * (k : Int)) ⟨0, ⟨[]⟩, []⟩ (-1, -1) Examples.fork true =
      some (⟨3, Examples.fork, []⟩,
        searchMove true 3 Examples.fork true (-infinity) infinity) := by
  refine ⟨by decide, by decide, by decide, ?_⟩
  obtain ⟨D, h1, h2, h3, h4, h5, -⟩ :=
    iterative_deepening (fun k => 200000 * (k : Int)) ⟨0, ⟨[]⟩, []⟩ (-1, -1) Examples.fork
      true (by decide) (by decide) (by decide)
  have hD : D = 3 := by
    unfold minimax_base_depth at h1 h3 h4
    unfold minimax_max_depth at h2 h4
    unfold max_wait_time CLOCKS_PER_SEC at h3 h4
    by_cases e : D < 12
    · by_contra hne
      by_cases e2 : D = 2
      · subst e2
        have h := h4 e
        norm_num at h
      · have h' := h3 1 (by omega)
        norm_num at h'
    · have h' := h3 1 (by omega)
      norm_num at h'
  subst hD
  exact h5

end AI

namespace AI

/-- What the scan of a node, pruned or not, ends with: no recorded coordinate exactly when
no scanned cell was a legal placement, and otherwise a recorded legal placement together
with the value found below it. -/
theorem foldl_scanStep_recorded (cutoff : Bool) (below : Desk → Int → Int → Int) (p : Bool)
    (d : Desk)
    (hbelow : ∀ c : Int × Int, d.canMakeMove c.1 c.2 p = some true → ∀ a b : Int,
      -infinity < below (d.after c.1 c.2 p) a b ∧ below (d.after c.1 c.2 p) a b < infinity)
    (cs : Cells) (hcs : ∀ c ∈ cs, 0 ≤ c.1) :
    ∀ v : Locals,
      (v.current_extreme_x = -1 →
        (v.current_extreme_value = if p then -infinity else infinity) ∧
          v.alpha_beta_interruption = false) →
      (v.current_extreme_x ≠ -1 →
        ∃ c : Int × Int, d.canMakeMove c.1 c.2 p = some true ∧
          (v.current_extreme_x, v.current_extreme_y) = c ∧
          ∃ a b : Int, v.current_extreme_value = below (d.after c.1 c.2 p) a b) →
      ((cs.foldl (scanStep cutoff below p d) v).current_extreme_x = -1 →
        v.current_extreme_x = -1 ∧ ∀ c ∈ cs, d.canMakeMove c.1 c.2 p ≠ some true) ∧
      ((cs.foldl (scanStep cutoff below p d) v).current_extreme_x ≠ -1 →
        ∃ c : Int × Int, d.canMakeMove c.1 c.2 p = some true ∧
          ((cs.foldl (scanStep cutoff below p d) v).current_extreme_x,
            (cs.foldl (scanStep cutoff below p d) v).current_extreme_y) = c ∧
          ∃ a b : Int, (cs.foldl (scanStep cutoff below p d) v).current_extreme_value =
            below (d.after c.1 c.2 p) a b) := by
  induction cs with
  | nil =>
    intro v _ h2
    exact ⟨fun h => ⟨h, by simp⟩, h2⟩
  | cons c rest ih =>
    intro v h1 h2
    rw [List.foldl_cons]
    have hc0 : 0 ≤ c.1 := hcs c (List.mem_cons_self _ _)
    have hrest : ∀ c1 ∈ rest, 0 ≤ c1.1 := fun c1 h => hcs c1 (List.mem_cons_of_mem _ h)
    -- the step keeps the two facts, and records something whenever `c` is legal
    have key : ((scanStep cutoff below p d v c).current_extreme_x = -1 →
          ((scanStep cutoff below p d v c).current_extreme_value =
              if p then -infinity else infinity) ∧
            (scanStep cutoff below p d v c).alpha_beta_interruption = false) ∧
        ((scanStep cutoff below p d v c).current_extreme_x ≠ -1 →
          ∃ c1 : Int × Int, d.canMakeMove c1.1 c1.2 p = some true ∧
            ((scanStep cutoff below p d v c).current_extreme_x,
              (scanStep cutoff below p d v c).current_extreme_y) = c1 ∧
            ∃ a b : Int, (scanStep cutoff below p d v c).current_extreme_value =
              below (d.after c1.1 c1.2 p) a b) ∧
        ((scanStep cutoff below p d v c).current_extreme_x = -1 →
          v.current_extreme_x = -1 ∧ d.canMakeMove c.1 c.2 p ≠ some true) := by
      by_cases hl : d.canMakeMove c.1 c.2 p = some true
      · cases hst : v.alpha_beta_interruption with
        | true =>
          rw [scanStep_interrupted cutoff below p d v c hst]
          have hx : v.current_extreme_x ≠ -1 := by
            intro hx
            have := (h1 hx).2
            rw [hst] at this
            cases this
          exact ⟨fun h => absurd h hx, h2, fun h => absurd h hx⟩
        | false =>
          rw [scanStep_legal cutoff below p d v c hst hl]
          have hbd := hbelow c hl v.alpha v.beta
          rcases improve_cases cutoff p c.1 c.2 (below (d.after c.1 c.2 p) v.alpha v.beta) v
            with hsame | ⟨hv, hx, hy⟩
          · -- no improvement: a coordinate was recorded before
            have hxv : v.current_extreme_x ≠ -1 := by
              intro hx
              have hval := (h1 hx).1
              cases p with
              | true =>
                have := improve_first_lt cutoff c.1 c.2
                  (below (d.after c.1 c.2 true) v.alpha v.beta) v
                  (by rw [hval]; simpa using hbd.1)
                rw [hsame] at this
                have hx2 := congrArg Locals.current_extreme_x this
                simp only at hx2
                omega
              | false =>
                have := improve_second_gt cutoff c.1 c.2
                  (below (d.after c.1 c.2 false) v.alpha v.beta) v
                  (by rw [hval]; simpa using hbd.2)
                rw [hsame] at this
                have hx2 := congrArg Locals.current_extreme_x this
                simp only at hx2
                omega
            rw [hsame]
            exact ⟨fun h => absurd h hxv, h2, fun h => absurd h hxv⟩
          · have hne : (improve cutoff p c.1 c.2
                (below (d.after c.1 c.2 p) v.alpha v.beta) v).current_extreme_x ≠ -1 := by
              rw [hx]; omega
            refine ⟨fun h => absurd h hne, fun _ => ⟨c, hl, ?_, v.alpha, v.beta, hv⟩,
              fun h => absurd h hne⟩
            rw [hx, hy]
      · rw [scanStep_illegal cutoff below p d v c hl]
        exact ⟨h1, h2, fun h => ⟨h, hl⟩⟩
    obtain ⟨k1, k2, k3⟩ := key
    obtain ⟨r1, r2⟩ := ih hrest (scanStep cutoff below p d v c) k1 k2
    refine ⟨fun h => ?_, r2⟩
    obtain ⟨hx1, hno⟩ := r1 h
    obtain ⟨hx0, hc⟩ := k3 hx1
    refine ⟨hx0, ?_⟩
    intro c1 hc1
    rcases List.mem_cons.mp hc1 with rfl | hc1
    · exact hc
    · exact hno c1 hc1

/-- With a legal placement on the board, the value of a node is the value found below one
of the legal placements. -/
theorem nodeValue_recorded (cutoff : Bool) (depth : Nat) (p : Bool) (d : Desk)
    (hr : d.Rectangular) (hb : EvalBounded d)
    (hex : ∃ x y : Int, d.canMakeMove x y p = some true) (alpha beta : Int) :
    ∃ (x y a b : Int), d.canMakeMove x y p = some true ∧
      searchValue cutoff depth d p alpha beta = below cutoff depth p (d.after x y p) a b := by
  have h := foldl_scanStep_recorded cutoff (below cutoff depth p) p d
    (fun c hl a b => below_bounded cutoff d hb depth p _ a b
      (sameShape_after d d (sameShape_self d hr) c.1 c.2 p hl))
    d.cells (cells_nonneg d) (initialLocals p alpha beta)
    (fun _ => ⟨rfl, rfl⟩) (fun h => absurd rfl h)
  obtain ⟨h1, h2⟩ := h
  have hx : (nodeLocals cutoff (below cutoff depth p) p d alpha beta).current_extreme_x ≠ -1 := by
    intro hx
    obtain ⟨x, y, hl⟩ := hex
    exact (h1 hx).2 (x, y)
      ((Desk.mem_cells d (x, y)).mpr (Desk.isOnDesk_of_canMakeMove d x y p hl)) hl
  obtain ⟨c, hl, -, a, b, hv⟩ := h2 hx
  refine ⟨c.1, c.2, a, b, hl, ?_⟩
  rw [searchValue_eq]
  unfold nodeValue
  rw [if_neg hx]
  exact hv

end AI

namespace AI

/-- C17, as worded, fails: on the 3 x 2 board the call of `miniMax` with
`current_depth = 0` for the first player returns 23, the evaluation of the position after
the placement `(0, 0)`, while `evaluatePosition` of the position it is called on is 10. -/
theorem depth_zero_not_terminal :
    Examples.strip.Rectangular ∧
    miniMax 0 ⟨0, Examples.strip, []⟩ (-1, -1) true (-infinity) infinity =
      some (23, ⟨0, Examples.strip, []⟩, (0, 0)) ∧
    evaluatePosition ⟨0, Examples.strip, []⟩ = some 10 := by
  decide

/-- C17, amended: on a rectangular board with bounded scores, `miniMax` called with
`current_depth = 0` returns and makes no recursive call: it is one node whose descent is
`evaluatePosition`.  When the player to move has no legal placement it returns
`evaluatePosition` of the position it is called on; when there is a legal placement it
returns `evaluatePosition` of the position after one of the legal placements, and with the
window `(-infinity, infinity)` no legal placement leads to a better evaluation (larger for
the first player, smaller for the second).  One level up, with a legal placement, a call
with `current_depth = n + 1` returns the value that the call with `current_depth = n` for
the other player returns on the position after one of the legal placements.  So a root
search of depth `D` evaluates positions up to `D + 1` plies ahead. -/
theorem depth_zero_lookahead (s : State) (chosen : Int × Int) (p : Bool) (alpha beta : Int)
    (hr : s.ai_calculation_desk.Rectangular) (hb : EvalBounded s.ai_calculation_desk) :
    (∃ (value : Int) (chosen1 : Int × Int),
      miniMax 0 s chosen p alpha beta = some (value, s, chosen1) ∧
      miniMax 0 s chosen p alpha beta =
        searchNode true
          (fun s1 chosen2 _ _ => (evaluatePosition s1).map (fun e => (e, s1, chosen2)))
          0 s chosen p alpha beta ∧
      ((∀ x y : Int, s.ai_calculation_desk.canMakeMove x y p ≠ some true) →
        evaluatePosition s = some value) ∧
      ((∃ x y : Int, s.ai_calculation_desk.canMakeMove x y p = some true) →
        ∃ x y : Int, s.ai_calculation_desk.canMakeMove x y p = some true ∧
          evaluatePosition
            { s with ai_calculation_desk := s.ai_calculation_desk.after x y p } =
              some value) ∧
      (alpha = -infinity → beta = infinity →
        ∀ x y : Int, s.ai_calculation_desk.canMakeMove x y p = some true →
          ∃ v1 : Int,
            evaluatePosition
              { s with ai_calculation_desk := s.ai_calculation_desk.after x y p } =
                some v1 ∧
            (if p then v1 ≤ value else value ≤ v1))) ∧
    (∀ n : Nat, (∃ x y : Int, s.ai_calculation_desk.canMakeMove x y p = some true) →
      ∃ (value : Int) (chosen1 : Int × Int) (x y a b : Int) (chosen2 : Int × Int),
        miniMax (n + 1) s chosen p alpha beta = some (value, s, chosen1) ∧
        s.ai_calculation_desk.canMakeMove x y p = some true ∧
        miniMax n { s with ai_calculation_desk := s.ai_calculation_desk.after x y p }
            chosen (!p) a b =
          some (value, { s with ai_calculation_desk := s.ai_calculation_desk.after x y p },
            chosen2)) := by
  have hafter : ∀ x y : Int, s.ai_calculation_desk.canMakeMove x y p = some true →
      (s.ai_calculation_desk.after x y p).Rectangular := fun x y hl =>
    (sameShape_after _ _ (sameShape_self _ hr) x y p hl).1
  constructor
  · obtain ⟨ch2, h1, -, -⟩ := miniMaxWith_eq true 0 s chosen p alpha beta hr
    refine ⟨searchValue true 0 s.ai_calculation_desk p alpha beta, ch2, h1, rfl, ?_, ?_, ?_⟩
    · intro hno
      rw [evaluatePosition_eq s hr, searchValue_eq,
        nodeValue_no_move true (below true 0 p) p s.ai_calculation_desk hno]
      rfl
    · intro hex
      obtain ⟨x, y, a, b, hl, hv⟩ :=
        nodeValue_recorded true 0 p s.ai_calculation_desk hr hb hex alpha beta
      refine ⟨x, y, hl, ?_⟩
      rw [evaluatePosition_eq _ (hafter x y hl), hv]
      rfl
    · intro ha hbeta x y hl
      subst ha hbeta
      have hfb := searchMove_root s.ai_calculation_desk hr hb 0 p ⟨x, y, hl⟩
      have hmem : (x, y) ∈ s.ai_calculation_desk.cells :=
        (Desk.mem_cells _ (x, y)).mpr (Desk.isOnDesk_of_canMakeMove _ x y p hl)
      refine ⟨(s.ai_calculation_desk.after x y p).score,
        evaluatePosition_eq _ (hafter x y hl), ?_⟩
      exact (hfb.2.2.2 (x, y) hmem hl).1
  · intro n hex
    obtain ⟨ch1, h1, -, -⟩ := miniMaxWith_eq true (n + 1) s chosen p alpha beta hr
    obtain ⟨x, y, a, b, hl, hv⟩ :=
      nodeValue_recorded true (n + 1) p s.ai_calculation_desk hr hb hex alpha beta
    obtain ⟨ch2, h2, -, -⟩ := miniMaxWith_eq true n
      { s with ai_calculation_desk := s.ai_calculation_desk.after x y p } chosen (!p) a b
      (hafter x y hl)
    refine ⟨searchValue true (n + 1) s.ai_calculation_desk p alpha beta, ch1, x, y, a, b, ch2,
      h1, hl, ?_⟩
    rw [hv]
    exact h2

/-- Witness of the amended C17 on the 3 x 2 board: the depth-0 call for the first player
returns the evaluation of the position after a legal placement. -/
theorem depth_zero_lookahead_witness :
    Examples.strip.Rectangular ∧ EvalBounded Examples.strip ∧
    ∃ (value : Int) (chosen1 : Int × Int),
      miniMax 0 ⟨0, Examples.strip, []⟩ (-1, -1) true (-infinity) infinity =
        some (value, ⟨0, Examples.strip, []⟩, chosen1) ∧
      ∃ x y : Int, Examples.strip.canMakeMove x y true = some true ∧
        evaluatePosition ⟨0, Examples.strip.after x y true, []⟩ = some value := by
  refine ⟨by decide, Examples.strip_evalBounded, ?_⟩
  obtain ⟨⟨value, chosen1, h1, -, -, h4, -⟩, -⟩ :=
    depth_zero_lookahead ⟨0, Examples.strip, []⟩ (-1, -1) true (-infinity) infinity
      (by decide) Examples.strip_evalBounded
  exact ⟨value, chosen1, h1, h4 ⟨0, 0, by decide⟩⟩

/-- C18: every virtual move is paired with its undo.  For every rectangular working
board, history, depth, player and window, `miniMax` returns with the global state (the
depth setting, the working board and `virtual_moves_history`) equal to the state at
entry, whether or not the call ends in a cut-off or a forced pass; and every candidate of
a node, at depth 0 (descent `evaluatePosition`) and at depth `n + 1` (descent `miniMax` of
depth `n`), hands on the state it was given, so that the next candidate is tested for
legality and applied on the same position. -/
theorem miniMax_restores_state (current_depth : Nat) (s : State) (chosen : Int × Int)
    (p : Bool) (alpha beta : Int) (hr : s.ai_calculation_desk.Rectangular) :
    (∃ (value : Int) (chosen1 : Int × Int),
      miniMax current_depth s chosen p alpha beta = some (value, s, chosen1)) ∧
    (∀ (i j : Int) (v : Scan), v.ai = s → v.locals.alpha_beta_interruption = false →
      ∃ v1 : Scan,
        candidate true
          (fun s1 chosen1 _ _ => (evaluatePosition s1).map (fun e => (e, s1, chosen1)))
          p i j v = some v1 ∧ v1.ai = s) ∧
    (∀ (n : Nat) (i j : Int) (v : Scan), v.ai = s →
      v.locals.alpha_beta_interruption = false →
      ∃ v1 : Scan,
        candidate true (fun s1 chosen1 alpha1 beta1 => miniMax n s1 chosen1 (!p) alpha1 beta1)
          p i j v = some v1 ∧ v1.ai = s) := by
  refine ⟨?_, ?_, ?_⟩
  · obtain ⟨ch2, h1, -, -⟩ := miniMaxWith_eq true current_depth s chosen p alpha beta hr
    exact ⟨_, ch2, h1⟩
  · intro i j v hv hni
    subst hv
    obtain ⟨ch2, h, -⟩ := candidate_eq true
      (fun s1 chosen1 _ _ => (evaluatePosition s1).map (fun e => (e, s1, chosen1)))
      (below true 0 p) (fun _ => True) p
      (by
        intro s1 ch1 a b hr1
        refine ⟨ch1, ?_, fun _ => rfl⟩
        simp only [evaluatePosition_eq s1 hr1, Option.map_some', below])
      i j v hr hni
    exact ⟨_, h, rfl⟩
  · intro n i j v hv hni
    subst hv
    obtain ⟨ch2, h, -⟩ := candidate_eq true
      (fun s1 chosen1 alpha1 beta1 => miniMax n s1 chosen1 (!p) alpha1 beta1)
      (below true (n + 1) p) (fun _ => False) p
      (by
        intro s1 ch1 a b hr1
        obtain ⟨ch2, h1, -, -⟩ := miniMaxWith_eq true n s1 ch1 (!p) a b hr1
        exact ⟨ch2, h1, fun h => absurd h not_false⟩)
      i j v hr hni
    exact ⟨_, h, rfl⟩

/-- Witness of C18 on the 3 x 2 board with one move in the history: the root call of
depth 2 returns with the state it was entered with. -/
theorem miniMax_restores_state_witness :
    Examples.strip.Rectangular ∧
    ∃ (value : Int) (chosen1 : Int × Int),
      miniMax 2 ⟨2, Examples.strip, [⟨[(1, 1)], 0, 1⟩]⟩ (-1, -1) true (-infinity) infinity =
        some (value, ⟨2, Examples.strip, [⟨[(1, 1)], 0, 1⟩]⟩, chosen1) := by
  refine ⟨by decide, ?_⟩
  exact (miniMax_restores_state 2 ⟨2, Examples.strip, [⟨[(1, 1)], 0, 1⟩]⟩ (-1, -1) true
    (-infinity) infinity (by decide)).1

end AI

namespace Desk

/-- A cell read succeeds exactly at the coordinates of the grid. -/
theorem getState_isSome_iff (d : Desk) (hr : d.Rectangular) (a b : Int) :
    (d.getState a b).isSome = true ↔ d.isOnDesk a b = true := by
  constructor
  · intro h
    obtain ⟨s, hs⟩ := Option.isSome_iff_exists.mp h
    exact isOnDesk_of_getState d hr a b s hs
  · intro h
    obtain ⟨s, hs⟩ := getState_of_isOnDesk d hr a b h
    rw [hs]
    rfl

/-- A cell write succeeds exactly at the coordinates of the grid. -/
theorem setCell_isSome_iff (d : Desk) (hr : d.Rectangular) (a b : Int) (state : CellState) :
    (d.setCell a b state).isSome = true ↔ d.isOnDesk a b = true := by
  constructor
  · intro h
    obtain ⟨d1, hd1⟩ := Option.isSome_iff_exists.mp h
    rw [setCell_eq_some_iff] at hd1
    obtain ⟨hx, hy, column, hc, hlt, -⟩ := hd1
    have hs : d.getState a b = some (column.get ⟨b.toNat, hlt⟩) := by
      rw [getState_eq_some_iff]
      exact ⟨hx, hy, column, hc, List.getElem?_eq_getElem hlt⟩
    exact isOnDesk_of_getState d hr a b _ hs
  · intro h
    obtain ⟨d1, hd1, -⟩ := setCell_on_desk d hr a b state h
    rw [hd1]
    rfl

/-- C19: bounds safety of the board scans.  On a rectangular board a cell read and a cell
write succeed exactly at the coordinates that satisfy `isOnDesk`, and for all integers
`x`, `y` (negative and off-grid ones included), both players, each of the eight
directions and any log, `canMakeMove`, `isReversible`, `reverse` and `makeMove` return a
result: none of their reads and writes takes the out-of-range branch, and their scanning
loops end. -/
theorem board_scans_in_bounds (d : Desk) (hr : d.Rectangular) (x y : Int) (p : Bool)
    (direction : Nat) (hd : direction ∈ Directions.all) (log : Option Cells) :
    (∀ a b : Int, (d.getState a b).isSome = true ↔ d.isOnDesk a b = true) ∧
    (∀ (a b : Int) (state : CellState),
      (d.setCell a b state).isSome = true ↔ d.isOnDesk a b = true) ∧
    (∃ b : Bool, d.canMakeMove x y p = some b) ∧
    (∃ b : Bool, d.isReversible x y direction p = some b) ∧
    (∃ (d1 : Desk) (log1 : Option Cells), d.reverse x y direction p log = some (d1, log1)) ∧
    (∃ (ok : Bool) (d2 : Desk) (log2 : Option Cells),
      d.makeMove x y p log = some (ok, d2, log2)) := by
  have hd8 : direction < 8 := (Directions.mem_all direction).mp hd
  refine ⟨getState_isSome_iff d hr, setCell_isSome_iff d hr, canMakeMove_isSome d hr x y p,
    ?_, ?_, ?_⟩
  · obtain ⟨b, hb, -⟩ := isReversible_iff d hr x y direction hd8 p
    exact ⟨b, hb⟩
  · obtain ⟨n, hn, hrun, hstop, -⟩ := isReversible_run d hr x y direction hd8 p
    obtain ⟨d1, h1, -⟩ := reverse_eq d hr x y direction hd8 p log n hrun hstop (by omega)
    exact ⟨d1, _, h1⟩
  · obtain ⟨b, hb⟩ := canMakeMove_isSome d hr x y p
    cases b with
    | false => exact ⟨false, d, log, makeMove_illegal d x y p log hb⟩
    | true =>
      obtain ⟨d2, flips, hmove, -⟩ := makeMove_legal d hr x y p log hb
      exact ⟨true, d2, _, hmove⟩

/-- Witness of C19 on the 3 x 1 board at the off-grid coordinate `(-1, 5)`. -/
theorem board_scans_in_bounds_witness :
    Examples.line.Rectangular ∧ Directions.LEFT_TOP ∈ Directions.all ∧
    (∃ b : Bool, Examples.line.canMakeMove (-1) 5 true = some b) ∧
    (∃ b : Bool, Examples.line.isReversible (-1) 5 Directions.LEFT_TOP true = some b) ∧
    (∃ (d1 : Desk) (log1 : Option Cells),
      Examples.line.reverse (-1) 5 Directions.LEFT_TOP true (some []) = some (d1, log1)) ∧
    (∃ (ok : Bool) (d2 : Desk) (log2 : Option Cells),
      Examples.line.makeMove (-1) 5 true (some []) = some (ok, d2, log2)) := by
  refine ⟨by decide, by decide, ?_⟩
  exact (board_scans_in_bounds Examples.line (by decide) (-1) 5 true Directions.LEFT_TOP
    (by decide) (some [])).2.2

end Desk

namespace Desk

theorem numberOfTokensColumn_eq (d : Desk) (first_player : Bool) (i : Int) (js : List Nat) :
    ∀ r : Int, (∀ j ∈ js, ∃ s, d.getState i (j : Nat) = some s) →
      numberOfTokensColumn d first_player i js r =
        some (r + d.countOver (fun _ _ => true) (playerState first_player)
          (js.map (fun (j : Nat) => (i, (j : Int))))) := by
  induction js with
  | nil =>
    intro r _
    simp [numberOfTokensColumn, countOver_nil]
  | cons j rest ih =>
    intro r hall
    obtain ⟨s, hs⟩ := hall j (List.mem_cons_self _ _)
    unfold numberOfTokensColumn
    rw [hs]
    simp only
    rw [ih _ (fun j' hj' => hall j' (List.mem_cons_of_mem _ hj'))]
    rw [List.map_cons, countOver_cons]
    simp only [hs]
    congr 1
    cases first_player <;> cases s <;> simp [playerState] <;> ring

theorem numberOfTokensColumns_eq (d : Desk) (hr : d.Rectangular) (first_player : Bool)
    (is : List Nat) (his : ∀ i ∈ is, i < d.getWidth.toNat) :
    ∀ r : Int, numberOfTokensColumns d first_player is r =
      some (r + d.countOver (fun _ _ => true) (playerState first_player) (is.flatMap
        (fun (i : Nat) =>
          (List.range d.getHeight.toNat).map (fun (j : Nat) => ((i : Int), (j : Int)))))) := by
  induction is with
  | nil =>
    intro r
    simp [numberOfTokensColumns, countOver_nil]
  | cons i rest ih =>
    intro r
    unfold numberOfTokensColumns
    have hcol := numberOfTokensColumn_eq d first_player i (List.range d.getHeight.toNat) r
      (by
        intro j hj
        apply getState_of_isOnDesk d hr
        rw [isOnDesk_iff]
        have := his i (List.mem_cons_self _ _)
        rw [List.mem_range] at hj
        omega)
    rw [hcol]
    simp only
    rw [ih (fun i' hi' => his i' (List.mem_cons_of_mem _ hi'))]
    rw [List.flatMap_cons, countOver_append]
    congr 1
    ring

/-- The function `numberOfTokens` returns the number of cells of the grid that hold the player's
state. -/
theorem numberOfTokens_eq (d : Desk) (hr : d.Rectangular) (first_player : Bool) :
    d.numberOfTokens first_player =
      some (d.countIn (fun _ _ => true) (playerState first_player)) := by
  unfold numberOfTokens
  rw [numberOfTokensColumns_eq d hr first_player _ (fun i hi => List.mem_range.mp hi)]
  simp [countIn, cells]

end Desk

namespace Desk

theorem cells_nodup (d : Desk) : d.cells.Nodup := by
  apply List.Pairwise.imp _ (cells_sorted d)
  intro a b h hab
  subst hab
  omega

/-- A duplicate-free list holds each member of a duplicate-free sublist of members
exactly once. -/
theorem length_filter_mem (cs sub : Cells) (hcs : cs.Nodup) (hsub : sub.Nodup)
    (hmem : ∀ c ∈ sub, c ∈ cs) :
    (cs.filter (fun c => decide (c ∈ sub))).length = sub.length := by
  apply List.Perm.length_eq
  rw [List.perm_ext_iff_of_nodup (hcs.filter _) hsub]
  intro a
  rw [List.mem_filter]
  constructor
  · rintro ⟨-, h⟩
    simpa using h
  · intro h
    exact ⟨hmem a h, by simpa using h⟩

/-- How the counts over a list of cells change when the cell `(x, y)`, empty before, and
the cells of `flips`, the opponent's before, become the player's. -/
theorem countOver_after (d d2 : Desk) (x y : Int) (p : Bool) (flips : Cells)
    (hxy : d.getState x y = some ST_EMPTY)
    (hfl : ∀ c ∈ flips, d.getState c.1 c.2 = some (opponentState p))
    (hg : ∀ a b : Int, d2.getState a b =
      if (a, b) = (x, y) ∨ (a, b) ∈ flips then some (playerState p) else d.getState a b)
    (cs : Cells) :
    d2.countOver (fun _ _ => true) (playerState p) cs =
        d.countOver (fun _ _ => true) (playerState p) cs +
          (cs.filter (fun c => decide (c = (x, y)))).length +
          (cs.filter (fun c => decide (c ∈ flips))).length ∧
      d2.countOver (fun _ _ => true) (opponentState p) cs +
          (cs.filter (fun c => decide (c ∈ flips))).length =
        d.countOver (fun _ _ => true) (opponentState p) cs ∧
      d2.countOver (fun _ _ => true) ST_EMPTY cs +
          (cs.filter (fun c => decide (c = (x, y)))).length =
        d.countOver (fun _ _ => true) ST_EMPTY cs := by
  have hnot : (x, y) ∉ flips := by
    intro h
    have := hfl (x, y) h
    rw [hxy] at this
    exact opponentState_ne_empty p (Option.some.inj this).symm
  induction cs with
  | nil => simp [countOver_nil]
  | cons c rest ih =>
    obtain ⟨i1, i2, i3⟩ := ih
    have hpo := playerState_ne_opponentState p
    have hpe := playerState_ne_empty p
    have hoe := opponentState_ne_empty p
    simp only [countOver_cons, List.filter_cons]
    by_cases h1 : c = (x, y)
    · subst h1
      have e2 : d2.getState x y = some (playerState p) := by rw [hg]; simp
      simp only [e2, hxy, hnot, List.mem_singleton, decide_True, decide_False, if_true,
        Option.some.injEq, true_and, List.length_cons, Bool.false_eq_true, if_false]
      simp only [hpo, hpe, hpe.symm, hoe.symm, if_true, if_false]
      refine ⟨?_, ?_, ?_⟩ <;> push_cast <;> omega
    · by_cases h2 : c ∈ flips
      · have e1 : d.getState c.1 c.2 = some (opponentState p) := hfl c h2
        have e2 : d2.getState c.1 c.2 = some (playerState p) := by rw [hg]; simp [h2]
        simp only [e1, e2, h1, h2, List.mem_singleton, decide_True, decide_False, if_true,
          Option.some.injEq, true_and, List.length_cons, Bool.false_eq_true, if_false]
        simp only [hpo, hpo.symm, hpe, hoe, if_true, if_false]
        refine ⟨?_, ?_, ?_⟩ <;> push_cast <;> omega
      · have e2 : d2.getState c.1 c.2 = d.getState c.1 c.2 := by
          rw [hg]
          have : ¬ ((c.1, c.2) = (x, y) ∨ (c.1, c.2) ∈ flips) := by
            simpa using ⟨h1, h2⟩
          rw [if_neg this]
        simp only [e2, h1, h2, List.mem_singleton, decide_False, Bool.false_eq_true, if_false]
        refine ⟨?_, ?_, ?_⟩ <;> omega

/-- Token accounting of a legal placement in terms of the board afterwards. -/
theorem counts_after (d : Desk) (hr : d.Rectangular) (x y : Int) (p : Bool)
    (hlegal : d.canMakeMove x y p = some true) :
    ∃ flips : Cells,
      d.makeMove x y p (some []) = some (true, d.after x y p, some flips) ∧
      1 ≤ flips.length ∧ (d.after x y p).Rectangular ∧
      (d.after x y p).countIn (fun _ _ => true) (playerState p) =
        d.countIn (fun _ _ => true) (playerState p) + flips.length + 1 ∧
      (d.after x y p).countIn (fun _ _ => true) (opponentState p) =
        d.countIn (fun _ _ => true) (opponentState p) - flips.length ∧
      (d.after x y p).countIn (fun _ _ => true) ST_EMPTY =
        d.countIn (fun _ _ => true) ST_EMPTY - 1 := by
  obtain ⟨flips, hmove, hlog, hr2, hw2, hh2, hg2⟩ := makeMove_after d hr x y p (some []) hlegal
  obtain ⟨hon, hempty, direction, hdir, k, hk⟩ := (canMakeMove_true_iff d hr x y p).mp hlegal
  have hall : ∀ e ∈ Directions.all, e < 8 := fun e he => (Directions.mem_all e).mp he
  have hnd : Directions.all.Nodup := by rw [Directions.all_eq]; decide
  have hfnd := captureLog_nodup d x y p _ hall hnd flips hlog
  have hopp := captureLog_opponent d x y p _ flips hlog
  have hne := captureLog_ne_nil d x y p _ flips hlog
    ⟨direction, (Directions.mem_all direction).mpr hdir, k, hk⟩
  have hcells : (d.after x y p).cells = d.cells := by
    unfold cells
    rw [hw2, hh2]
  obtain ⟨c1, c2, c3⟩ := countOver_after d (d.after x y p) x y p flips hempty hopp hg2 d.cells
  have hl1 : (d.cells.filter (fun c => decide (c = (x, y)))).length = 1 := by
    have h := length_filter_mem d.cells [(x, y)] (cells_nodup d) (List.nodup_singleton _)
      (by
        intro c hc
        rw [List.mem_singleton] at hc
        subst hc
        exact (mem_cells d (x, y)).mpr hon)
    simpa using h
  have hl2 : (d.cells.filter (fun c => decide (c ∈ flips))).length = flips.length := by
    apply length_filter_mem d.cells flips (cells_nodup d) hfnd
    intro c hc
    exact (mem_cells d c).mpr (isOnDesk_of_getState d hr c.1 c.2 _ (hopp c hc))
  rw [hl1, hl2] at c1
  rw [hl2] at c2
  rw [hl1] at c3
  refine ⟨flips, ?_, ?_, hr2, ?_, ?_, ?_⟩
  · rw [hmove]
    simp
  · cases flips with
    | nil => exact absurd rfl hne
    | cons c rest => simp
  · unfold countIn
    rw [hcells, c1]
    push_cast
    ring
  · unfold countIn
    rw [hcells, ← c2]
    ring
  · unfold countIn
    rw [hcells, ← c3]
    push_cast
    ring

/-- A sequence of legal placements is no longer than the number of empty cells. -/
theorem playable_length (ms : List (Int × Int × Bool)) :
    ∀ d : Desk, d.Rectangular → d.Playable ms →
      (ms.length : Int) ≤ d.countIn (fun _ _ => true) ST_EMPTY := by
  induction ms with
  | nil =>
    intro d _ _
    exact countOver_nonneg d _ _ _
  | cons m rest ih =>
    intro d hr hp
    obtain ⟨hl, hrest⟩ := hp
    obtain ⟨flips, -, -, hr2, -, -, he⟩ := counts_after d hr m.1 m.2.1 m.2.2 hl
    have := ih _ hr2 hrest
    rw [he] at this
    rw [List.length_cons]
    push_cast
    omega

end Desk

namespace Desk

/-- C20: token accounting of a move.  On a rectangular board, a placement `(x, y)` legal
for player `p` made by `makeMove(x, y, p, log)` with an empty log ends with a log of
length `k` at least 1; `numberOfTokens(p)` is then `k + 1` larger,
`numberOfTokens` of the opponent `k` smaller, and the number of empty cells 1 smaller than
before.  Hence a sequence of placements, each legal on the board the earlier ones have
produced, is no longer than the number of empty cells of the board it starts from. -/
theorem token_accounting (d : Desk) (hr : d.Rectangular) (x y : Int) (p : Bool)
    (hlegal : d.canMakeMove x y p = some true) :
    (∃ (d2 : Desk) (flips : Cells) (own opp : Int),
      d.makeMove x y p (some []) = some (true, d2, some flips) ∧ 1 ≤ flips.length ∧
      d.numberOfTokens p = some own ∧ d.numberOfTokens (!p) = some opp ∧
      d2.numberOfTokens p = some (own + flips.length + 1) ∧
      d2.numberOfTokens (!p) = some (opp - flips.length) ∧
      d2.countIn (fun _ _ => true) ST_EMPTY = d.countIn (fun _ _ => true) ST_EMPTY - 1) ∧
    (∀ ms : List (Int × Int × Bool), d.Playable ms →
      (ms.length : Int) ≤ d.countIn (fun _ _ => true) ST_EMPTY) := by
  constructor
  · obtain ⟨flips, hmove, hlen, hr2, c1, c2, c3⟩ := counts_after d hr x y p hlegal
    refine ⟨d.after x y p, flips, d.countIn (fun _ _ => true) (playerState p),
      d.countIn (fun _ _ => true) (opponentState p), hmove, hlen, ?_, ?_, ?_, ?_, c3⟩
    · exact numberOfTokens_eq d hr p
    · rw [numberOfTokens_eq d hr (!p), playerState_not]
    · rw [numberOfTokens_eq _ hr2 p, c1]
    · rw [numberOfTokens_eq _ hr2 (!p), playerState_not, c2]
  · intro ms hms
    exact playable_length ms d hr hms

/-- Witness of C20 on the 3 x 1 board: the first player places at `(0, 0)`, flips one
cell, and goes from 1 token to 3 while the second player goes from 1 to 0. -/
theorem token_accounting_witness :
    Examples.line.Rectangular ∧ Examples.line.canMakeMove 0 0 true = some true ∧
    ∃ (d2 : Desk) (flips : Cells) (own opp : Int),
      Examples.line.makeMove 0 0 true (some []) = some (true, d2, some flips) ∧
      1 ≤ flips.length ∧
      Examples.line.numberOfTokens true = some own ∧
      Examples.line.numberOfTokens false = some opp ∧
      d2.numberOfTokens true = some (own + flips.length + 1) ∧
      d2.numberOfTokens false = some (opp - flips.length) := by
  refine ⟨by decide, by decide, ?_⟩
  obtain ⟨d2, flips, own, opp, h1, h2, h3, h4, h5, h6, -⟩ :=
    (token_accounting Examples.line (by decide) 0 0 true (by decide)).1
  exact ⟨d2, flips, own, opp, h1, h2, h3, h4, h5, h6⟩

end Desk

namespace ConsoleInterface

/-- C16: the acceptance test of `ConsoleInterface::input` does not reject the token `z0`:
its first character is not below `a` nor below `1`, and its second is not above `h` nor
above `8`.  The pair returned is `(25, -1)`, which is not within `0 <= x < 8` and
`0 <= y < 8`. -/
theorem input_accepts_out_of_range :
    rejected ['z'.toNat, '0'.toNat] = false ∧
    input [['z'.toNat, '0'.toNat]] = some (25, -1) ∧
    ¬ ((0 : Int) ≤ 25 ∧ (25 : Int) < 8 ∧ (0 : Int) ≤ -1 ∧ (-1 : Int) < 8) := by
  decide

/-- A token whose second byte is above 127 is not rejected either: the byte `0xE9` is the
`char` value -23, which is not above `h` nor above `8`. -/
theorem input_accepts_high_byte :
    rejected ['a'.toNat, 233] = false ∧ input [['a'.toNat, 233]] = some (0, -72) := by
  decide

end ConsoleInterface
end Othello
